import Mathlib

/-!
Verification development for the Aptean multi-regional duplicate-invoice
fraud detector (`aptean_multi_regional_fraud_detector.py`) and the master
pipeline (`aptean_master_ai_system.py`).

Modelling conventions (shallow embedding):
* Python `str` is modelled as `List Char`; Python floats as `ℚ` (the
  heuristic arithmetic of the source is exactly representable).
* Python `str.lower()` is modelled character-wise for ASCII letters plus
  the Greek capital pi (whose lowercase form occurs in the source's
  currency-symbol character class); other characters are left unchanged.
* The regex character classes `\w`, `\s`, `\d` are modelled over ASCII,
  matching Python semantics on ASCII text.
* `re.sub` is modelled by a left-to-right, non-overlapping substitution
  engine (`subst`) driven by per-pattern matchers that return the length
  of the (deterministic, greedy) match at the current position.  For every
  pattern appearing in the source, greedy deterministic matching agrees
  with Python's backtracking semantics because the sub-patterns consume
  pairwise disjoint character classes.
* `difflib.SequenceMatcher(None,·,·).ratio()` and `hashlib.md5` are
  external library collaborators; they are passed in as explicit function
  parameters (`sim`, `hash`), so every theorem quantifies over them.
* Timestamps are modelled as rationals measured in hours; the source
  formats and re-parses `datetime` values with a fixed format string,
  which round-trips.
-/

namespace Aptean

/-- Python `\s` over ASCII: space, tab, newline, carriage return,
vertical tab, form feed. -/
def isPyWs (c : Char) : Bool :=
  c == ' ' || c == '\t' || c == '\n' || c == '\r' || c == '\x0b' || c == '\x0c'

/-- Python `\w` over ASCII: alphanumeric or underscore. -/
def isWordChar (c : Char) : Bool :=
  c.isAlphanum || c == '_'

/-- Python `str.lower()`, modelled on ASCII letters plus Greek capital pi
(U+03A0 ↦ U+03C0), the one non-ASCII lowercase mapping relevant to the
source's character classes. -/
def lc (c : Char) : Char :=
  if c = 'A' then 'a' else if c = 'B' then 'b' else if c = 'C' then 'c'
  else if c = 'D' then 'd' else if c = 'E' then 'e' else if c = 'F' then 'f'
  else if c = 'G' then 'g' else if c = 'H' then 'h' else if c = 'I' then 'i'
  else if c = 'J' then 'j' else if c = 'K' then 'k' else if c = 'L' then 'l'
  else if c = 'M' then 'm' else if c = 'N' then 'n' else if c = 'O' then 'o'
  else if c = 'P' then 'p' else if c = 'Q' then 'q' else if c = 'R' then 'r'
  else if c = 'S' then 's' else if c = 'T' then 't' else if c = 'U' then 'u'
  else if c = 'V' then 'v' else if c = 'W' then 'w' else if c = 'X' then 'x'
  else if c = 'Y' then 'y' else if c = 'Z' then 'z'
  else if c = 'Π' then 'π' else c

/-- Lowercase a whole string. -/
def lower (l : List Char) : List Char := l.map lc

/-- The graph of the non-identity part of the lowercase table (used to
reason about `lc` without unfolding its 27-way branch). -/
def lcPairs : List (Char × Char) :=
  [('A','a'),('B','b'),('C','c'),('D','d'),('E','e'),('F','f'),('G','g'),
   ('H','h'),('I','i'),('J','j'),('K','k'),('L','l'),('M','m'),('N','n'),
   ('O','o'),('P','p'),('Q','q'),('R','r'),('S','s'),('T','t'),('U','u'),
   ('V','v'),('W','w'),('X','x'),('Y','y'),('Z','z'),('Π','π')]

/-- Python `s1 in s2` on strings: contiguous-substring containment. -/
def startsWith : List Char → List Char → Bool
  | [], _ => true
  | _ :: _, [] => false
  | a :: as, b :: bs => a == b && startsWith as bs

/-- `isSubstrOf needle hay`: `needle` occurs contiguously in `hay`. -/
def isSubstrOf (needle : List Char) : List Char → Bool
  | [] => needle.isEmpty
  | c :: cs => startsWith needle (c :: cs) || isSubstrOf needle cs

/-- A matcher examines the current position (with the `Bool` saying
whether the previous character was a word character, for `\b`) and
returns the length of the match there, if any. -/
def Matcher : Type := Bool → List Char → Option Nat

/-- The substitution engine behind `re.sub`.  `go m r k p l` processes
`l` left to right: while `k > 0` it is skipping the remainder of a match
already replaced; at `k = 0` it consults the matcher, replacing a match
of length `n+1` by `r` and skipping its remaining `n` characters.
The flag `p` tracks whether the previously consumed character of the
*original* string is a word character (Python computes `\b` against the
original string). -/
def go (m : Matcher) (r : List Char) : Nat → Bool → List Char → List Char
  | _, _, [] => []
  | k+1, _, c :: cs => go m r k (isWordChar c) cs
  | 0, p, c :: cs =>
    match m p (c :: cs) with
    | some (n+1) => r ++ go m r n (isWordChar c) cs
    | _ => c :: go m r 0 (isWordChar c) cs

/-- `re.sub(pattern-of-m, r, l)`. -/
def subst (m : Matcher) (r : List Char) (l : List Char) : List Char :=
  go m r 0 false l

/-- `str.strip()`: drop leading and trailing whitespace. -/
def strip (l : List Char) : List Char :=
  ((l.dropWhile isPyWs).reverse.dropWhile isPyWs).reverse

/-- The word-character context after consuming a list of characters
(used to track the `\b` flag along a walk). -/
def ctxList (p : Bool) (l : List Char) : Bool :=
  l.foldl (fun _ c => isWordChar c) p

/-- `noMatchB m p l`: the pattern of `m` matches at no position of `l`
(with incoming word-context `p`).  When this holds, substitution leaves
`l` unchanged. -/
def noMatchB (m : Matcher) (p : Bool) : List Char → Bool
  | [] => true
  | c :: cs => (m p (c :: cs)).isNone && noMatchB m (isWordChar c) cs

/-- One-pass trace relation of the substitution engine: `Tr s R p a b`
holds when `b` is obtained from `a` by replacing each `s`-match
(scanned left to right with context `p`) by `R` — the graph of
`go s R 0 p`. -/
inductive Tr (s : Matcher) (R : List Char) : Bool → List Char → List Char → Prop
  | nil (p : Bool) : Tr s R p [] []
  | copy (p : Bool) (c : Char) (a b : List Char) :
      s p (c :: a) = none → Tr s R (isWordChar c) a b → Tr s R p (c :: a) (c :: b)
  | skip (p : Bool) (c : Char) (cs b : List Char) (n : Nat) :
      s p (c :: cs) = some (n + 1) →
      Tr s R (ctxList p ((c :: cs).take (n + 1))) (cs.drop n) b →
      Tr s R p (c :: cs) (R ++ b)

/-- Every maximal whitespace run is a single space (the normal form
produced by the whitespace-collapsing substitution). -/
def wsn : List Char → Bool
  | [] => true
  | c :: cs =>
    if isPyWs c then
      (c == ' ') && (match cs with | [] => true | d :: _ => !isPyWs d) && wsn cs
    else wsn cs

/-- The first character, if any, is not whitespace. -/
def headNotWs : List Char → Bool
  | [] => true
  | c :: _ => !isPyWs c

/-- The last character, if any, is not whitespace. -/
def lastNotWs (l : List Char) : Bool := headNotWs l.reverse

/-! ### The concrete patterns of `_normalize_content_for_comparison` -/

/-- The currency-symbol character class of the detector module.  The
source file's byte sequence decodes to these characters (a mojibake of
`€£₹¥`, including the Greek small pi). -/
def detSyms : List Char := ['$', '‚', 'Ç', '¨', '¬', '£', 'π', '•']

/-- The (clean) currency-symbol character class of the master module. -/
def masterSyms : List Char := ['$', '€', '£', '₹', '¥']

/-- Matcher for a single-character class, e.g. `[\$‚Ç¨¬£‚Çπ¬•]`. -/
def mSym (syms : List Char) : Matcher := fun _ l =>
  match l with
  | c :: _ => if syms.contains c then some 1 else none
  | [] => none

/-- The six ISO currency codes of `\b(USD|EUR|GBP|INR|JPY|CAD)\b`. -/
def codeTriples : List (List Char) :=
  [['u','s','d'], ['e','u','r'], ['g','b','p'], ['i','n','r'],
   ['j','p','y'], ['c','a','d']]

/-- Case-insensitive test that three characters form a currency code. -/
def isCode3 (a b c : Char) : Bool :=
  codeTriples.contains [lc a, lc b, lc c]

/-- Matcher for `\b(USD|EUR|GBP|INR|JPY|CAD)\b` with `re.IGNORECASE`:
the previous character must not be a word character, the three code
letters follow, and the next character (if any) is not a word
character. -/
def mCode : Matcher := fun p l =>
  if p then none else
  match l with
  | c1 :: c2 :: c3 :: rest =>
    if isCode3 c1 c2 c3 &&
        (match rest with | [] => true | d :: _ => !isWordChar d) then
      some 3
    else none
  | _ => none

/-- The character class `[A-Z0-9-]` under `re.IGNORECASE`. -/
def isClassChar (c : Char) : Bool :=
  c.isAlpha || c.isDigit || c == '-'

/-- The character class `[a-z0-9-]` (no `IGNORECASE`, master module). -/
def isClassCharM (c : Char) : Bool :=
  c.isLower || c.isDigit || c == '-'

/-- Consume one optional literal character (`#?` or `:?`). -/
def optChar (c : Char) : List Char → Nat × List Char
  | [] => (0, [])
  | d :: t => if d == c then (1, t) else (0, d :: t)

/-- Generic matcher for `invoice\s*#?:?\s*CLASS+`, parameterised by the
7-character literal test and the trailing character class.  The pattern
has no backtracking-visible behaviour: the optional parts consume
characters disjoint from the class. -/
def mInvoice (litEq : List Char → Bool) (classP : Char → Bool) : Matcher :=
  fun _ l =>
  if litEq (l.take 7) && 7 ≤ l.length then
    let r0 := l.drop 7
    let w1 := (r0.takeWhile isPyWs).length
    let r1 := r0.dropWhile isPyWs
    let (h, r2) := optChar '#' r1
    let (col, r3) := optChar ':' r2
    let w2 := (r3.takeWhile isPyWs).length
    let r4 := r3.dropWhile isPyWs
    let body := (r4.takeWhile classP).length
    if body = 0 then none else some (7 + w1 + h + col + w2 + body)
  else none

/-- `Invoice\s*#?:?\s*[A-Z0-9-]+` with `re.IGNORECASE` (detector). -/
def mInv : Matcher :=
  mInvoice (fun s => lower s == ['i','n','v','o','i','c','e']) isClassChar

/-- `invoice\s*#?:?\s*[a-z0-9-]+`, case sensitive (master module). -/
def mInvM : Matcher :=
  mInvoice (fun s => s == ['i','n','v','o','i','c','e']) isClassCharM

/-- The residue of the invoice-number pattern after its 7-character
literal: skip whitespace, an optional hash, an optional colon, then
whitespace; the character-class body must start here. -/
def invR4 (r0 : List Char) : List Char :=
  ((optChar ':' (optChar '#' (r0.dropWhile isPyWs)).2).2).dropWhile isPyWs

/-- Date separators: slash or hyphen. -/
def isSep (c : Char) : Bool := c == '/' || c == '-'

/-- Matcher for the date pattern (one or two digits, separator, one or
two digits, separator, two to four digits).  Greedy matching is
deterministic: shrinking a `\d{1,2}` leaves a digit where the separator
must be, so backtracking never succeeds. -/
def mDate : Matcher := fun _ l =>
  let d1 := (l.takeWhile Char.isDigit).length
  if d1 = 0 || 2 < d1 then none else
  match l.drop d1 with
  | s1 :: r2 =>
    if isSep s1 then
      let d2 := (r2.takeWhile Char.isDigit).length
      if d2 = 0 || 2 < d2 then none else
      match r2.drop d2 with
      | s2 :: r3 =>
        if isSep s2 then
          let d3 := (r3.takeWhile Char.isDigit).length
          if d3 < 2 then none else some (d1 + 1 + d2 + 1 + min d3 4)
        else none
      | [] => none
    else none
  | [] => none

/-- Matcher for `\d+[,.]?\d*`. -/
def mAmount : Matcher := fun _ l =>
  let d1 := (l.takeWhile Char.isDigit).length
  if d1 = 0 then none else
  match l.drop d1 with
  | c :: r2 =>
    if c == ',' || c == '.' then
      some (d1 + 1 + (r2.takeWhile Char.isDigit).length)
    else some d1
  | [] => some d1

/-- Matcher for `\s+`. -/
def mWs : Matcher := fun _ l =>
  let k := (l.takeWhile isPyWs).length
  if k = 0 then none else some k

def tokCURRENCY : List Char := ['C','U','R','R','E','N','C','Y']
def tokINVNUM : List Char :=
  ['I','N','V','O','I','C','E','_','N','U','M','B','E','R']
def tokINVID : List Char := ['I','N','V','O','I','C','E','_','I','D']
def tokDATE : List Char := ['D','A','T','E']
def tokAMOUNT : List Char := ['A','M','O','U','N','T']

/-- `_normalize_content_for_comparison` of the detector module: mask
currency symbols, currency codes, invoice numbers, dates and bare
numbers, collapse whitespace on the stripped text, then lowercase. -/
def normalize_content (x : List Char) : List Char :=
  let n1 := subst (mSym detSyms) tokCURRENCY x
  let n2 := subst mCode tokCURRENCY n1
  let n3 := subst mInv tokINVNUM n2
  let n4 := subst mDate tokDATE n3
  let n5 := subst mAmount tokAMOUNT n4
  lower (subst mWs [' '] (strip n5))

/-- `_create_content_fingerprint` of the master module: lowercase first,
then mask currency symbols, amounts, invoice ids and dates, and collapse
whitespace on the stripped text.  Note the placeholder tokens are
inserted in upper case *after* the lowercasing step. -/
def create_content_fingerprint (x : List Char) : List Char :=
  let n0 := lower x
  let n1 := subst (mSym masterSyms) tokCURRENCY n0
  let n2 := subst mAmount tokAMOUNT n1
  let n3 := subst mInvM tokINVID n2
  let n4 := subst mDate tokDATE n3
  subst mWs [' '] (strip n4)

/-! ### Kernel-computable rational arithmetic

The field operations of `ℚ` do not reduce in the kernel, so the
embedding computes with the following operations instead.  Each is
proved equal to the corresponding field operation (`qadd_eq` … below),
so theorems can be stated and reasoned about in ordinary arithmetic
while witnesses evaluate by `decide`. -/

def qadd (a b : ℚ) : ℚ := mkRat (a.num * b.den + b.num * a.den) (a.den * b.den)

def qsub (a b : ℚ) : ℚ := mkRat (a.num * b.den - b.num * a.den) (a.den * b.den)

def qmul (a b : ℚ) : ℚ := mkRat (a.num * b.num) (a.den * b.den)

def qdiv (a b : ℚ) : ℚ :=
  if b.num < 0 then mkRat (-(a.num * b.den)) (a.den * b.num.natAbs)
  else mkRat (a.num * b.den) (a.den * b.num.natAbs)

def qabs (a : ℚ) : ℚ := mkRat a.num.natAbs a.den

def qle (a b : ℚ) : Bool := decide (a.num * b.den ≤ b.num * a.den)

def qlt (a b : ℚ) : Bool := decide (a.num * b.den < b.num * a.den)

def qmin (a b : ℚ) : ℚ := if qle a b then a else b

def qmax (a b : ℚ) : ℚ := if qle a b then b else a

def qnat (n : ℕ) : ℚ := mkRat n 1

def qint (z : ℤ) : ℚ := mkRat z 1

def qfloor (a : ℚ) : ℤ := a.num / (a.den : ℤ)

def qsum (l : List ℚ) : ℚ := l.foldl qadd (mkRat 0 1)

/-! ### Field extraction (`_generate_content_fingerprint`) -/

/-- Abbreviation: string literal to character list. -/
def toL (s : String) : List Char := s.toList

/-- Case-insensitive prefix test (for `re.IGNORECASE` literals). -/
def ciStarts : List Char → List Char → Bool
  | [], _ => true
  | _ :: _, [] => false
  | a :: as, b :: bs => lc a == lc b && ciStarts as bs

/-- The degenerate backtrack of `\s*(.+?)\n` when the greedy whitespace
run reaches a position where no further match is possible: the regex
engine then shortens `\s*`, so the capture becomes the rightmost
non-newline whitespace character that still has a newline after it
inside the run (a single character, since everything between it and the
terminating newline consists of newlines). -/
def capBack (w : List Char) : Option (List Char) :=
  match w.reverse.dropWhile (fun d => d != '\n') with
  | [] => none
  | _ :: tl =>
    match tl.dropWhile (fun d => d == '\n') with
    | [] => none
    | c :: _ => some [c]

/-- Like `capBack` but also returning the number of characters of the
run consumed by the match (capture character plus its newline). -/
def capBackLen (w : List Char) : Option (List Char × Nat) :=
  match w.reverse.dropWhile (fun d => d != '\n') with
  | [] => none
  | _ :: tl =>
    match tl.dropWhile (fun d => d == '\n') with
    | [] => none
    | c :: b => some ([c], (c :: b).length + 1)

/-- `\s*(.+?)\n` after a label: greedily skip whitespace; the lazy
capture then runs to the first newline (at least one character).  If no
newline terminator follows, backtrack into the whitespace run. -/
def capNL (r : List Char) : Option (List Char) :=
  let w := r.takeWhile isPyWs
  let rest := r.dropWhile isPyWs
  match rest with
  | c :: cs =>
    if ((c :: cs).dropWhile (fun d => d != '\n')).isEmpty then capBack w
    else some ((c :: cs).takeWhile (fun d => d != '\n'))
  | [] => capBack w

/-- `capNL` with the total consumed length (for `findall`). -/
def capNLLen (r : List Char) : Option (List Char × Nat) :=
  let w := r.takeWhile isPyWs
  let rest := r.dropWhile isPyWs
  match rest with
  | c :: cs =>
    if ((c :: cs).dropWhile (fun d => d != '\n')).isEmpty then capBackLen w
    else
      let cap := (c :: cs).takeWhile (fun d => d != '\n')
      some (cap, w.length + cap.length + 1)
  | [] => capBackLen w

/-- `\s*(.+?)(?:\n|$)` after a label: as `capNL` but the end of the
string also terminates the lazy capture. -/
def capNLEnd (r : List Char) : Option (List Char) :=
  let rest := r.dropWhile isPyWs
  match rest with
  | c :: cs => some ((c :: cs).takeWhile (fun d => d != '\n'))
  | [] =>
    match (r.takeWhile isPyWs).reverse.dropWhile (fun d => d == '\n') with
    | [] => none
    | c :: _ => some [c]

/-- `re.search`: try the position matcher at every position, leftmost
success wins. -/
def searchFirst (m : List Char → Option (List Char)) : List Char → Option (List Char)
  | [] => none
  | c :: cs =>
    match m (c :: cs) with
    | some x => some x
    | none => searchFirst m cs

/-- `re.findall`: collect all non-overlapping matches left to right.
Matchers return the capture and the total match length (`≥ 1`); as in
`go`, the counter skips the remainder of a match and the flag tracks
word characters for `\b`. -/
def collect (m : Bool → List Char → Option (List Char × Nat)) :
    Nat → Bool → List Char → List (List Char)
  | _, _, [] => []
  | k+1, _, c :: cs => collect m k (isWordChar c) cs
  | 0, p, c :: cs =>
    match m p (c :: cs) with
    | some (cap, n+1) => cap :: collect m n (isWordChar c) cs
    | _ => collect m 0 (isWordChar c) cs

/-- `re.findall` entry point. -/
def findall (m : Bool → List Char → Option (List Char × Nat))
    (l : List Char) : List (List Char) :=
  collect m 0 false l

/-- Position matcher for a label pattern `LABEL\s*(.+?)\n` (ci). -/
def labelNL (label : List Char) (l : List Char) : Option (List Char) :=
  if ciStarts label l then capNL (l.drop label.length) else none

/-- Position matcher for `LABEL\s*(.+?)(?:\n|$)` (ci). -/
def labelNLEnd (label : List Char) (l : List Char) : Option (List Char) :=
  if ciStarts label l then capNLEnd (l.drop label.length) else none

/-- `findall` matcher for a line-item pattern `LABEL\s*(.+?)\n` (ci). -/
def lineMatcher (label : List Char) : Bool → List Char → Option (List Char × Nat) :=
  fun _ l =>
  if ciStarts label l then
    match capNLLen (l.drop label.length) with
    | some (cap, n) => some (cap, label.length + n)
    | none => none
  else none

/-- Try an ordered list of `re.search` patterns, first match anywhere
wins (`for pattern in …: if match: break`). -/
def firstLabel (ms : List (List Char → Option (List Char)))
    (text : List Char) : Option (List Char) :=
  match ms with
  | [] => none
  | m :: rest =>
    match searchFirst m text with
    | some x => some x
    | none => firstLabel rest text

/-- The separator class of the PO patterns (whitespace, `#`, `:`, `-`). -/
def isPoSep (c : Char) : Bool := isPyWs c || c == '#' || c == ':' || c == '-'

/-- Position matcher for `LABEL[ \s#:-]*([A-Z0-9-]+)` (ci).  Greedy
separator run first; if no class character follows, the regex backtracks
into the run, which succeeds exactly when the run contains a hyphen (the
only separator that is also a class character), capturing one hyphen. -/
def labelPo (label : List Char) (l : List Char) : Option (List Char) :=
  if ciStarts label l then
    let r := l.drop label.length
    let s := r.takeWhile isPoSep
    let rest := r.dropWhile isPoSep
    match rest with
    | c :: cs =>
      if isClassChar c then some ((c :: cs).takeWhile isClassChar)
      else if s.contains '-' then some ['-'] else none
    | [] => if s.contains '-' then some ['-'] else none
  else none

/-- `findall` matcher for the symbol-tagged amount pattern
(currency symbol, `\s*`, capture `[\d,]+\.?\d*`). -/
def amtSymMatcher : Bool → List Char → Option (List Char × Nat) := fun _ l =>
  match l with
  | c :: cs =>
    if detSyms.contains c then
      let w := cs.takeWhile isPyWs
      let r1 := cs.dropWhile isPyWs
      let g1 := r1.takeWhile (fun d => d.isDigit || d == ',')
      if g1.isEmpty then none else
      let r2 := r1.drop g1.length
      let (dn, r3) := optChar '.' r2
      let g2 := r3.takeWhile Char.isDigit
      let cap := g1 ++ (if dn = 1 then ['.'] else []) ++ g2
      some (cap, 1 + w.length + cap.length)
    else none
  | [] => none

/-- The case-sensitive codes of the second amount pattern (no `CAD`). -/
def amtCodes : List (List Char) :=
  [toL "USD", toL "EUR", toL "GBP", toL "INR", toL "JPY"]

/-- `findall` matcher for `([\d,]+\.?\d*)\s*(?:USD|EUR|GBP|INR|JPY)`
(no `IGNORECASE` flag on this one in the source). -/
def amtCodeMatcher : Bool → List Char → Option (List Char × Nat) := fun _ l =>
  let g1 := l.takeWhile (fun d => d.isDigit || d == ',')
  if g1.isEmpty then none else
  let r1 := l.drop g1.length
  let (dn, r2) := optChar '.' r1
  let g2 := r2.takeWhile Char.isDigit
  let r3 := r2.drop g2.length
  let w := r3.takeWhile isPyWs
  let r4 := r3.dropWhile isPyWs
  if amtCodes.any (fun code => startsWith code r4) then
    some (g1 ++ (if dn = 1 then ['.'] else []) ++ g2,
      g1.length + dn + g2.length + w.length + 3)
  else none

/-- Numeric value of a digit string. -/
def digitsVal (l : List Char) : ℕ :=
  l.foldl (fun a c => 10 * a + (c.toNat - 48)) 0

/-- Python `float(capture.replace(",", ""))`, with `except: pass` on
failure.  Captures have shape `digits-and-commas [. digits]`; after
removing commas the parse fails exactly on the empty string and on a
bare dot. -/
def parseAmount (cap : List Char) : Option ℚ :=
  let s := cap.filter (fun c => c != ',')
  let ip := s.takeWhile Char.isDigit
  let r := s.drop ip.length
  match r with
  | [] => if s.isEmpty then none else some (qnat (digitsVal ip))
  | _ :: fr =>
    if ip.isEmpty && fr.isEmpty then none
    else some (qadd (qnat (digitsVal ip))
      (qdiv (qnat (digitsVal fr)) (qnat (10 ^ fr.length))))

/-- First keyword of the alternation matching at this position with a
trailing word boundary (the words are pairwise prefix-free, so
alternation order only decides ties that cannot occur). -/
def kwFind (l : List Char) : List (List Char) → Option Nat
  | [] => none
  | w :: rest =>
    if ciStarts w l &&
        (match l.drop w.length with | [] => true | d :: _ => !isWordChar d) then
      some w.length
    else kwFind l rest

/-- `findall` matcher for `\b(word1|word2|…)\b` (ci). -/
def kwMatcher (ws : List (List Char)) : Bool → List Char → Option (List Char × Nat) :=
  fun p l =>
  if p then none else
  match kwFind l ws with
  | some n => some (l.take n, n)
  | none => none

def productKeywords : List (List Char) :=
  [toL "software", toL "license", toL "consultation", toL "equipment",
   toL "service", toL "support", toL "maintenance", toL "installation"]

def techKeywords : List (List Char) :=
  [toL "Microsoft", toL "Office", toL "SAP", toL "Oracle", toL "AWS",
   toL "Google", toL "Enterprise", toL "Professional", toL "Premium"]

/-- `_extract_keywords`.  `list(set(…))` is modelled as first-occurrence
deduplication: Python's set iteration order is an unspecified (per
process deterministic) function of the contents; any canonical choice
represents it. -/
def extract_keywords (text : List Char) : List (List Char) :=
  ((findall (kwMatcher productKeywords) text).map lower ++
    (findall (kwMatcher techKeywords) text).map lower).dedup

/-! ### Data model -/

structure InvoiceFingerprint where
  content_hash : List Char
  vendor_name : List Char
  line_items : List (List Char)
  amounts : List ℚ
  po_reference : List Char
  delivery_address : List Char
  normalized_content : List Char
  extracted_keywords : List (List Char)
deriving DecidableEq

structure RegionalInvoice where
  invoice_id : List Char
  region : List Char
  currency : List Char
  total_amount : ℚ
  /-- Submission time in hours.  The source formats `datetime.now()`
  with a fixed format string and re-parses it with the same string,
  which round-trips, so the time value itself is the faithful model. -/
  submission_timestamp : ℚ
  fingerprint : InvoiceFingerprint
  processing_status : List Char
deriving DecidableEq

/-- The input dictionary of `detect_multi_regional_fraud`, after the
`.get(…, default)` accesses. -/
structure InvoiceData where
  invoice_id : List Char
  region : List Char
  currency : List Char
  total_amount : ℚ
  invoice_text : List Char
deriving DecidableEq

/-- `_generate_content_fingerprint`.  `hash` models `hashlib.md5`
(an external library function of the normalized content). -/
def generate_content_fingerprint (hash : List Char → List Char)
    (text : List Char) : InvoiceFingerprint :=
  let vendor :=
    (firstLabel [labelNL (toL "From:"), labelNL (toL "Vendor:"),
      labelNL (toL "Supplier:"), labelNL (toL "Company:")] text).getD []
  let items :=
    ((findall (lineMatcher (toL "Description:")) text ++
      findall (lineMatcher (toL "Product:")) text ++
      findall (lineMatcher (toL "Service:")) text ++
      findall (lineMatcher (toL "Item:")) text).map strip)
  let amounts :=
    (findall amtSymMatcher text).filterMap parseAmount ++
      (findall amtCodeMatcher text).filterMap parseAmount
  let po :=
    (firstLabel [labelPo (toL "PO"), labelPo (toL "Purchase Order"),
      labelPo (toL "Reference")] text).getD []
  let addr :=
    (firstLabel [labelNLEnd (toL "Delivery:"), labelNLEnd (toL "Ship to:"),
      labelNLEnd (toL "Address:")] text).getD []
  let nc := normalize_content text
  { content_hash := hash nc
    vendor_name := strip vendor
    line_items := items
    amounts := amounts
    po_reference := strip po
    delivery_address := strip addr
    normalized_content := nc
    extracted_keywords := extract_keywords text }

/-! ### Detector configuration -/

def time_window_hours : ℚ := 72
def similarity_threshold : ℚ := mkRat 85 100
def vendor_variance_threshold : ℚ := mkRat 1 10
def po_reference_weight : ℚ := mkRat 3 10
def delivery_address_weight : ℚ := mkRat 25 100
def line_items_weight : ℚ := mkRat 45 100

/-- `self.currency_rates_to_usd.get(currency, 1.0)`. -/
def currency_rate (c : List Char) : ℚ :=
  if c == toL "USD" then 1
  else if c == toL "EUR" then mkRat 118 100
  else if c == toL "GBP" then mkRat 128 100
  else if c == toL "INR" then mkRat 12 1000
  else if c == toL "CAD" then mkRat 74 100
  else if c == toL "JPY" then mkRat 67 10000
  else 1

/-- Python `round(x, 2)` (round half to even) on the exact value. -/
def round2 (q : ℚ) : ℚ :=
  let x := qmul q 100
  let n := qfloor x
  let f := qsub x (qint n)
  let r : ℤ :=
    if qlt f (mkRat 1 2) then n else if qlt (mkRat 1 2) f then n + 1
    else if n % 2 = 0 then n else n + 1
  qdiv (qint r) 100

/-! ### Detector pipeline -/

/-- `_create_regional_invoice` (`now` models `datetime.now()`). -/
def create_regional_invoice (hash : List Char → List Char)
    (data : InvoiceData) (now : ℚ) : RegionalInvoice :=
  { invoice_id := data.invoice_id
    region := data.region
    currency := data.currency
    total_amount := data.total_amount
    submission_timestamp := now
    fingerprint := generate_content_fingerprint hash data.invoice_text
    processing_status := toL "pending" }

/-- `_quick_similarity_check`; `sim` models
`difflib.SequenceMatcher(None,·,·).ratio()`. -/
def quick_similarity_check (sim : List Char → List Char → ℚ)
    (invoice1 invoice2 : RegionalInvoice) : Bool :=
  let f1 := invoice1.fingerprint
  let f2 := invoice2.fingerprint
  (!f1.po_reference.isEmpty && !f2.po_reference.isEmpty &&
    lower f1.po_reference == lower f2.po_reference)
  || (!f1.vendor_name.isEmpty && !f2.vendor_name.isEmpty &&
    qlt (mkRat 8 10) (sim (lower f1.vendor_name) (lower f2.vendor_name)))
  || (!f1.delivery_address.isEmpty && !f2.delivery_address.isEmpty &&
    isSubstrOf (lower f1.delivery_address) (lower f2.delivery_address))

/-- `_search_cross_regional_duplicates`: keep stored invoices inside the
72-hour window (inclusive: the source *skips* when the absolute gap is
strictly greater), in a different region, passing the quick check. -/
def search_cross_regional_duplicates (sim : List Char → List Char → ℚ)
    (db : List RegionalInvoice) (current : RegionalInvoice) :
    List RegionalInvoice :=
  db.filter (fun e =>
    qle (qabs (qsub current.submission_timestamp e.submission_timestamp))
      time_window_hours
    && e.region != current.region
    && quick_similarity_check sim current e)

/-- `_compare_line_items`: average similarity over the Cartesian product
of the two line-item sequences. -/
def compare_line_items (sim : List Char → List Char → ℚ)
    (items1 items2 : List (List Char)) : ℚ :=
  if items1.isEmpty || items2.isEmpty then 0
  else
    let total := qsum (items1.map (fun a =>
      qsum (items2.map (fun b => sim (lower a) (lower b)))))
    let comparisons := items1.length * items2.length
    if 0 < comparisons then qdiv total (qnat comparisons) else 0

structure CurrencyAnalysis where
  amount1_usd : ℚ
  amount2_usd : ℚ
  variance_percentage : ℚ
  suspicious : Bool
deriving DecidableEq

structure TemporalAnalysis where
  time_difference_hours : ℚ
  sequential : Bool
  suspicious_timing : Bool
deriving DecidableEq

/-- `_analyze_currency_relationship`. -/
def analyze_currency_relationship (invoice1 invoice2 : RegionalInvoice) :
    CurrencyAnalysis :=
  let amount1_usd := qmul invoice1.total_amount (currency_rate invoice1.currency)
  let amount2_usd := qmul invoice2.total_amount (currency_rate invoice2.currency)
  let variance :=
    if qlt 0 amount1_usd then qdiv (qabs (qsub amount1_usd amount2_usd)) amount1_usd
    else 1
  { amount1_usd := round2 amount1_usd
    amount2_usd := round2 amount2_usd
    variance_percentage := round2 (qmul variance 100)
    suspicious := qlt variance vendor_variance_threshold }

/-- `_analyze_submission_timing`. -/
def analyze_submission_timing (invoice1 invoice2 : RegionalInvoice) :
    TemporalAnalysis :=
  let hours_diff :=
    qabs (qsub invoice1.submission_timestamp invoice2.submission_timestamp)
  { time_difference_hours := round2 hours_diff
    sequential := qlt hours_diff 24
    suspicious_timing := qlt hours_diff time_window_hours }

structure MatchElements where
  content_similarity : ℚ
  po_reference_match : ℚ
  address_similarity : ℚ
  line_items_similarity : ℚ
deriving DecidableEq

structure MatchEvidence where
  overall_similarity : ℚ
  matching_elements : MatchElements
  currency_analysis : CurrencyAnalysis
  temporal_analysis : TemporalAnalysis
deriving DecidableEq

/-- `_compare_invoices_detailed`. -/
def compare_invoices_detailed (sim : List Char → List Char → ℚ)
    (invoice1 invoice2 : RegionalInvoice) : MatchEvidence :=
  let f1 := invoice1.fingerprint
  let f2 := invoice2.fingerprint
  let content_similarity := sim f1.normalized_content f2.normalized_content
  let po_match : ℚ :=
    if !f1.po_reference.isEmpty && !f2.po_reference.isEmpty &&
        lower f1.po_reference == lower f2.po_reference then 1 else 0
  let address_similarity : ℚ :=
    if !f1.delivery_address.isEmpty && !f2.delivery_address.isEmpty then
      sim (lower f1.delivery_address) (lower f2.delivery_address)
    else 0
  let line_items_similarity := compare_line_items sim f1.line_items f2.line_items
  { overall_similarity :=
      qadd (qadd (qadd (qmul content_similarity (mkRat 3 10))
        (qmul po_match po_reference_weight))
        (qmul address_similarity delivery_address_weight))
        (qmul line_items_similarity line_items_weight)
    matching_elements :=
      { content_similarity := content_similarity
        po_reference_match := po_match
        address_similarity := address_similarity
        line_items_similarity := line_items_similarity }
    currency_analysis := analyze_currency_relationship invoice1 invoice2
    temporal_analysis := analyze_submission_timing invoice1 invoice2 }

/-- Python `dict[key] = value` on an insertion-ordered dictionary,
modelled on association lists: an existing binding of the key is
overwritten in place (last write wins), a new key is appended at the
end. -/
def dictInsert {α : Type} (k : List Char) (v : α) :
    List (List Char × α) → List (List Char × α)
  | [] => [(k, v)]
  | (k2, v2) :: rest =>
    if k2 == k then (k2, v) :: rest else (k2, v2) :: dictInsert k v rest

/-- The evidence accumulated by `_analyze_content_similarity`: the
`matches` list keeps every matching candidate in submission order,
while the four dictionaries are keyed by the candidate's `invoice_id` —
insertion ordered, with the last write winning when two matching
candidates share an id (`dictInsert`), exactly as in the source. -/
structure Evidence where
  «matches» : List RegionalInvoice
  similarity_scores : List (List Char × ℚ)
  matching_elements : List (List Char × MatchElements)
  currency_analysis : List (List Char × CurrencyAnalysis)
  temporal_analysis : List (List Char × TemporalAnalysis)
deriving DecidableEq

/-- One iteration of the `_analyze_content_similarity` loop: compare
the candidate in detail and, when the overall similarity exceeds the
0.85 threshold, append it to `matches` and write its evidence into the
four `invoice_id`-keyed dictionaries. -/
def analyzeStep (sim : List Char → List Char → ℚ) (current : RegionalInvoice)
    (ev : Evidence) (d : RegionalInvoice) : Evidence :=
  let me := compare_invoices_detailed sim current d
  if qlt similarity_threshold me.overall_similarity then
    { «matches» := ev.matches ++ [d]
      similarity_scores :=
        dictInsert d.invoice_id me.overall_similarity ev.similarity_scores
      matching_elements :=
        dictInsert d.invoice_id me.matching_elements ev.matching_elements
      currency_analysis :=
        dictInsert d.invoice_id me.currency_analysis ev.currency_analysis
      temporal_analysis :=
        dictInsert d.invoice_id me.temporal_analysis ev.temporal_analysis }
  else ev

/-- The loop guard of `_analyze_content_similarity` as a Boolean test
on the candidate (`analyzeStep` extends the evidence exactly when it
holds). -/
def matchTest (sim : List Char → List Char → ℚ)
    (current d : RegionalInvoice) : Bool :=
  qlt similarity_threshold (compare_invoices_detailed sim current d).overall_similarity

/-- `_analyze_content_similarity`: fold the loop body over the
candidates, starting from the empty evidence record. -/
def analyze_content_similarity (sim : List Char → List Char → ℚ)
    (current : RegionalInvoice) (potential_duplicates : List RegionalInvoice) :
    Evidence :=
  potential_duplicates.foldl (analyzeStep sim current) ⟨[], [], [], [], []⟩

/-- `_calculate_fraud_confidence`.  The maximum is taken over the
*values of the similarity dictionary* (one per distinct matched
`invoice_id`), the multiplier over the length of the `matches` list,
and the two boosts are counted once per dictionary entry.  Python's
`max` fails on an empty dictionary; for evidence with a nonempty
`matches` list the dictionary is never empty (every match writes its
score — see `analyze_scores_nonempty`), so that unreachable arm is
mapped to 0. -/
def calculate_fraud_confidence (evidence : Evidence) : ℚ :=
  match evidence.matches with
  | [] => 0
  | _ :: _ =>
    match evidence.similarity_scores with
    | [] => 0
    | s :: srest =>
      let max_similarity := (srest.map (fun x => x.2)).foldl qmax s.2
      let region_multiplier :=
        qmin (mkRat 3 2)
          (qadd 1 (qmul (qsub (qnat evidence.matches.length) 1) (mkRat 2 10)))
      let c1 := qmul max_similarity region_multiplier
      let c2 := qadd c1 (qmul
        (qnat (evidence.currency_analysis.filter (fun x => x.2.suspicious)).length)
        (mkRat 1 10))
      let c3 := qadd c2 (qmul
        (qnat (evidence.temporal_analysis.filter
          (fun x => x.2.suspicious_timing)).length)
        (mkRat 5 100))
      qmin (mkRat 99 100) c3

/-- `_calculate_potential_loss`: the current invoice's converted amount
is computed but unused; the result is the rounded sum of the
*duplicates'* converted amounts. -/
def calculate_potential_loss (current : RegionalInvoice)
    (duplicates : List RegionalInvoice) : ℚ :=
  let _ := qmul current.total_amount (currency_rate current.currency)
  round2 (qsum (duplicates.map (fun d => qmul d.total_amount (currency_rate d.currency))))

structure FraudAlert where
  /-- `f"FRAUD-{timestamp}-{region}"`; the formatted-time text is
  reporting output and is elided, keeping the region component. -/
  alert_id : List Char
  fraud_type : List Char
  confidence_score : ℚ
  affected_regions : List (List Char)
  duplicate_invoices : List RegionalInvoice
  potential_loss : ℚ
  evidence_details : Evidence
deriving DecidableEq

/-- `_generate_fraud_alert`.  `list(set(affected_regions))` is modelled
as first-occurrence deduplication (cf. `extract_keywords`); the
`recommended_action` / `business_impact` report strings are reporting
collaborator output (spec §1) and are not modelled. -/
def generate_fraud_alert (current : RegionalInvoice)
    (duplicates : List RegionalInvoice) (evidence : Evidence)
    (confidence_score : ℚ) (potential_loss : ℚ) : FraudAlert :=
  let affected_regions := current.region :: duplicates.map (fun d => d.region)
  { alert_id := toL "FRAUD-" ++ current.region
    fraud_type := toL "Multi-Regional Duplicate Attack"
    confidence_score := confidence_score
    affected_regions := affected_regions.dedup
    duplicate_invoices := current :: duplicates
    potential_loss := potential_loss
    evidence_details := evidence }

/-- `detect_multi_regional_fraud`, with the mutable
`self.cross_regional_database` made explicit: the result is the returned
alert (or `none`) together with the database after the call. -/
def detect_multi_regional_fraud (sim : List Char → List Char → ℚ)
    (hash : List Char → List Char) (db : List RegionalInvoice)
    (invoice_data : InvoiceData) (now : ℚ) :
    Option FraudAlert × List RegionalInvoice :=
  let current := create_regional_invoice hash invoice_data now
  let potential_duplicates := search_cross_regional_duplicates sim db current
  let fraud_evidence := analyze_content_similarity sim current potential_duplicates
  let confidence_score := calculate_fraud_confidence fraud_evidence
  let potential_loss := calculate_potential_loss current potential_duplicates
  if qlt (mkRat 3 4) confidence_score then
    (some (generate_fraud_alert current potential_duplicates fraud_evidence
      confidence_score potential_loss), db)
  else
    (none, db ++ [current])

/-! ### Master pipeline (`_multi_regional_fraud_analysis`) -/

structure MasterRecord where
  invoice_id : List Char
  region : List Char
  content_fingerprint : List Char
  usd_amount : ℚ
  timestamp : ℚ
deriving DecidableEq

structure MasterDup where
  invoice_id : List Char
  region : List Char
  similarity : ℚ
  amount_usd : ℚ
  time_diff_hours : ℚ
deriving DecidableEq

structure MasterFraudResult where
  fraud_detected : Bool
  confidence : ℚ
  potential_duplicates : List MasterDup
  potential_loss_usd : ℚ
  regions_affected : ℕ
deriving DecidableEq

/-- `_multi_regional_fraud_analysis` of the master module, database made
explicit as in `detect_multi_regional_fraud`.  Note the current invoice
is appended to the database *unconditionally*, fraud or not. -/
def multi_regional_fraud_analysis (sim : List Char → List Char → ℚ)
    (db : List MasterRecord) (invoice_text invoice_id region : List Char)
    (usd_amount : ℚ) (now : ℚ) : MasterFraudResult × List MasterRecord :=
  let content_fingerprint := create_content_fingerprint invoice_text
  let dups := db.filterMap (fun e =>
    if e.region == region then none
    else
      let time_diff := qabs (qsub now e.timestamp)
      if qlt time_window_hours time_diff then none
      else
        let s := sim content_fingerprint e.content_fingerprint
        if qlt similarity_threshold s then
          some { invoice_id := e.invoice_id, region := e.region,
                 similarity := s, amount_usd := e.usd_amount,
                 time_diff_hours := round2 time_diff }
        else none)
  let result :=
    match dups with
    | [] =>
      { fraud_detected := false, confidence := 0, potential_duplicates := [],
        potential_loss_usd := 0, regions_affected := 1 }
    | d :: rest =>
      { fraud_detected := true
        confidence := (rest.map (fun x => x.similarity)).foldl qmax d.similarity
        potential_duplicates := dups
        potential_loss_usd := qsum (dups.map (fun x => x.amount_usd))
        regions_affected := ((dups.map (fun x => x.region)).dedup).length + 1 }
  (result,
    db ++ [{ invoice_id := invoice_id, region := region,
             content_fingerprint := content_fingerprint,
             usd_amount := usd_amount, timestamp := now }])

/-! ### Spec-side definitions

These follow the wording of the specification (for the refinement-style
claims); the operational definitions above follow the source. -/

/-- Spec §4.6 / claim C2: the aggregate confidence formula as worded in
the specification, over the match set with its per-match analyses:
maximum overall similarity, region-count booster, 0.10 per
suspicious-currency match, 0.05 per in-window match, clamped to
`[0, 0.99]`; `0` on an empty match set. -/
def spec_aggregate (matchEv : List (RegionalInvoice × MatchEvidence)) : ℚ :=
  if matchEv.isEmpty then 0
  else
    let m := (matchEv.map (fun e => e.2.overall_similarity)).foldr max 0
    let boosted := m * min (3/2) (1 + (2/10) * ((matchEv.length : ℚ) - 1))
      + (1/10) * ((matchEv.filter (fun e => e.2.currency_analysis.suspicious)).length : ℚ)
      + (5/100) * ((matchEv.filter (fun e => e.2.temporal_analysis.suspicious_timing)).length : ℚ)
    max 0 (min (99/100) boosted)

/-- Claim C2's match set: each candidate paired with its detailed
comparison, kept when the overall similarity exceeds the 0.85
threshold. -/
def spec_matches (sim : List Char → List Char → ℚ)
    (current : RegionalInvoice) (potential_duplicates : List RegionalInvoice) :
    List (RegionalInvoice × MatchEvidence) :=
  (potential_duplicates.map (fun d => (d, compare_invoices_detailed sim current d))).filter
    (fun x => qlt similarity_threshold x.2.overall_similarity)

/-- Spec §4.4 / claim C3: the detailed comparison as worded in the
specification: `0.30·content + 0.30·po + 0.25·address + 0.45·lineItems`,
with the line-item term an average over the Cartesian product. -/
def spec_overall (sim : List Char → List Char → ℚ)
    (invoice1 invoice2 : RegionalInvoice) : ℚ :=
  let f1 := invoice1.fingerprint
  let f2 := invoice2.fingerprint
  let content := sim f1.normalized_content f2.normalized_content
  let po : ℚ :=
    if f1.po_reference ≠ [] ∧ f2.po_reference ≠ [] ∧
        lower f1.po_reference = lower f2.po_reference then 1 else 0
  let addr : ℚ :=
    if f1.delivery_address ≠ [] ∧ f2.delivery_address ≠ [] then
      sim (lower f1.delivery_address) (lower f2.delivery_address)
    else 0
  let items : ℚ :=
    if f1.line_items = [] ∨ f2.line_items = [] then 0
    else
      (f1.line_items.map (fun a =>
        (f2.line_items.map (fun b => sim (lower a) (lower b))).sum)).sum /
        ((f1.line_items.length : ℚ) * (f2.line_items.length : ℚ))
  (3/10) * content + (3/10) * po + (25/100) * addr + (45/100) * items

/-- Claim C4's pre-filter as worded: PO match, or vendor similarity
above 0.8, or delivery-address substring containment *in either
direction*. -/
def spec_isCandidate (sim : List Char → List Char → ℚ)
    (invoice1 invoice2 : RegionalInvoice) : Prop :=
  let f1 := invoice1.fingerprint
  let f2 := invoice2.fingerprint
  (f1.po_reference ≠ [] ∧ f2.po_reference ≠ [] ∧
    lower f1.po_reference = lower f2.po_reference)
  ∨ (f1.vendor_name ≠ [] ∧ f2.vendor_name ≠ [] ∧
    (8/10 : ℚ) < sim (lower f1.vendor_name) (lower f2.vendor_name))
  ∨ (f1.delivery_address ≠ [] ∧ f2.delivery_address ≠ [] ∧
    (isSubstrOf (lower f1.delivery_address) (lower f2.delivery_address) = true
      ∨ isSubstrOf (lower f2.delivery_address) (lower f1.delivery_address) = true))

/-! ### Concrete instances used by witnesses and counterexamples -/

/-- Discrete instantiation of the external string-similarity
collaborator (`difflib.SequenceMatcher.ratio`): 1 for equal texts,
0 otherwise — a legitimate similarity ratio. -/
def simW : List Char → List Char → ℚ := fun a b => if a == b then 1 else 0

/-- Trivial instantiation of the external hash collaborator. -/
def hashW : List Char → List Char := id

/-- A small invoice text whose extraction is fully clean. -/
def txtW : List Char :=
  toL "From: Acme Corp\nDescription: w\nPO XZQ\nDelivery: Munich Office\n"

/-- A stored invoice structurally identical to the fingerprint of
`txtW` (a cross-regional duplicate). -/
def fpA : InvoiceFingerprint :=
  { content_hash := [], vendor_name := [], line_items := [toL "w"],
    amounts := [], po_reference := toL "XZQ",
    delivery_address := toL "munich office",
    normalized_content := normalize_content txtW, extracted_keywords := [] }

def invA : RegionalInvoice :=
  { invoice_id := toL "A", region := toL "USA", currency := toL "USD",
    total_amount := 100, submission_timestamp := 0, fingerprint := fpA,
    processing_status := toL "pending" }

/-- A stored invoice sharing only the PO reference with `txtW`: it
passes the pre-filter but its detailed similarity is `0.3 ≤ 0.85`. -/
def fpB : InvoiceFingerprint :=
  { content_hash := [], vendor_name := [], line_items := [], amounts := [],
    po_reference := toL "XZQ", delivery_address := [],
    normalized_content := toL "zzz", extracted_keywords := [] }

def invB : RegionalInvoice :=
  { invoice_id := toL "B", region := toL "UK", currency := toL "USD",
    total_amount := 7, submission_timestamp := 1, fingerprint := fpB,
    processing_status := toL "pending" }

/-- The submitted invoice for the alert-producing scenario. -/
def dataW : InvoiceData :=
  { invoice_id := toL "C", region := toL "Germany", currency := toL "USD",
    total_amount := 100, invoice_text := txtW }

/-- Fingerprints for the C4 counterexample: only the delivery addresses
are populated, and the *second* invoice's address is a substring of the
first's (the direction the source does not check). -/
def fpD : InvoiceFingerprint :=
  { content_hash := [], vendor_name := [], line_items := [], amounts := [],
    po_reference := [], delivery_address := toL "ab",
    normalized_content := [], extracted_keywords := [] }

def fpE : InvoiceFingerprint :=
  { content_hash := [], vendor_name := [], line_items := [], amounts := [],
    po_reference := [], delivery_address := toL "a",
    normalized_content := [], extracted_keywords := [] }

def invD : RegionalInvoice :=
  { invoice_id := toL "D", region := toL "USA", currency := toL "USD",
    total_amount := 1, submission_timestamp := 0, fingerprint := fpD,
    processing_status := toL "pending" }

def invE : RegionalInvoice :=
  { invoice_id := toL "E", region := toL "UK", currency := toL "USD",
    total_amount := 1, submission_timestamp := 0, fingerprint := fpE,
    processing_status := toL "pending" }

/-- A second stored invoice sharing `invA`'s invoice id (ids are
caller-supplied, so a registry can hold two records with the same id):
it matches the same submission from a third region, exercising the
last-write-wins collapse of the `invoice_id`-keyed evidence
dictionaries. -/
def invA2 : RegionalInvoice :=
  { invoice_id := toL "A", region := toL "UK", currency := toL "USD",
    total_amount := 100, submission_timestamp := 1, fingerprint := fpA,
    processing_status := toL "pending" }

/-- Invoices with zero amounts for the C7 counterexample. -/
def invZ1 : RegionalInvoice :=
  { invoice_id := toL "Z1", region := toL "USA", currency := toL "USD",
    total_amount := 0, submission_timestamp := 0, fingerprint := fpD,
    processing_status := toL "pending" }

def invZ2 : RegionalInvoice :=
  { invoice_id := toL "Z2", region := toL "UK", currency := toL "USD",
    total_amount := 0, submission_timestamp := 0, fingerprint := fpE,
    processing_status := toL "pending" }

end Aptean

namespace Aptean

/-! ## Bridge lemmas: the kernel-computable operations agree with the
field operations of `ℚ` -/

theorem qadd_eq (a b : ℚ) : qadd a b = a + b := by
  unfold qadd
  rw [Rat.mkRat_eq_div]
  push_cast
  conv_rhs => rw [← Rat.num_div_den a, ← Rat.num_div_den b]
  have ha : ((a.den : ℚ)) ≠ 0 := by positivity
  have hb : ((b.den : ℚ)) ≠ 0 := by positivity
  field_simp

theorem qsub_eq (a b : ℚ) : qsub a b = a - b := by
  unfold qsub
  rw [Rat.mkRat_eq_div]
  push_cast
  conv_rhs => rw [← Rat.num_div_den a, ← Rat.num_div_den b]
  have ha : ((a.den : ℚ)) ≠ 0 := by positivity
  have hb : ((b.den : ℚ)) ≠ 0 := by positivity
  field_simp
  ring

theorem qmul_eq (a b : ℚ) : qmul a b = a * b := by
  unfold qmul
  rw [Rat.mkRat_eq_div]
  push_cast
  conv_rhs => rw [← Rat.num_div_den a, ← Rat.num_div_den b]
  have ha : ((a.den : ℚ)) ≠ 0 := by positivity
  have hb : ((b.den : ℚ)) ≠ 0 := by positivity
  field_simp

theorem qdiv_eq (a b : ℚ) : qdiv a b = a / b := by
  unfold qdiv
  rcases lt_trichotomy b.num 0 with h | h | h
  · have hq : ((b.num : ℚ)) < 0 := by exact_mod_cast h
    rw [if_pos h, Rat.mkRat_eq_div]
    push_cast [Int.cast_natAbs]
    rw [abs_of_neg hq]
    conv_rhs => rw [← Rat.num_div_den a, ← Rat.num_div_den b]
    have ha : ((a.den : ℚ)) ≠ 0 := by positivity
    have hd : ((b.den : ℚ)) ≠ 0 := by positivity
    have hn : ((b.num : ℚ)) ≠ 0 := ne_of_lt hq
    field_simp
  · rw [if_neg (by omega), Rat.mkRat_eq_div]
    rw [Rat.num_eq_zero.mp h]
    simp [h]
  · have hq : (0 : ℚ) < (b.num : ℚ) := by exact_mod_cast h
    rw [if_neg (by omega), Rat.mkRat_eq_div]
    push_cast [Int.cast_natAbs]
    rw [abs_of_pos hq]
    conv_rhs => rw [← Rat.num_div_den a, ← Rat.num_div_den b]
    have ha : ((a.den : ℚ)) ≠ 0 := by positivity
    have hd : ((b.den : ℚ)) ≠ 0 := by positivity
    have hn : ((b.num : ℚ)) ≠ 0 := ne_of_gt hq
    field_simp

theorem qabs_eq (a : ℚ) : qabs a = |a| := by
  unfold qabs
  rw [Rat.mkRat_eq_div]
  push_cast [Int.cast_natAbs]
  conv_rhs => rw [← Rat.num_div_den a]
  rw [abs_div]
  congr 1
  exact (abs_of_pos (by positivity : (0:ℚ) < (a.den : ℚ))).symm

theorem qle_iff (a b : ℚ) : qle a b = true ↔ a ≤ b := by
  unfold qle
  rw [decide_eq_true_iff]
  constructor
  · intro h
    rw [← Rat.num_div_den a, ← Rat.num_div_den b,
      div_le_div_iff (by positivity) (by positivity)]
    exact_mod_cast h
  · intro h
    rw [← Rat.num_div_den a, ← Rat.num_div_den b,
      div_le_div_iff (by positivity) (by positivity)] at h
    exact_mod_cast h

theorem qlt_iff (a b : ℚ) : qlt a b = true ↔ a < b := by
  unfold qlt
  rw [decide_eq_true_iff]
  constructor
  · intro h
    rw [← Rat.num_div_den a, ← Rat.num_div_den b,
      div_lt_div_iff (by positivity) (by positivity)]
    exact_mod_cast h
  · intro h
    rw [← Rat.num_div_den a, ← Rat.num_div_den b,
      div_lt_div_iff (by positivity) (by positivity)] at h
    exact_mod_cast h

theorem qle_eq (a b : ℚ) : qle a b = decide (a ≤ b) := by
  by_cases h : a ≤ b
  · rw [(qle_iff a b).mpr h, decide_eq_true h]
  · have h1 : qle a b = false :=
      Bool.eq_false_iff.mpr (fun hx => h ((qle_iff a b).mp hx))
    rw [h1, decide_eq_false h]

theorem qlt_eq (a b : ℚ) : qlt a b = decide (a < b) := by
  by_cases h : a < b
  · rw [(qlt_iff a b).mpr h, decide_eq_true h]
  · have h1 : qlt a b = false :=
      Bool.eq_false_iff.mpr (fun hx => h ((qlt_iff a b).mp hx))
    rw [h1, decide_eq_false h]

theorem qmin_eq (a b : ℚ) : qmin a b = min a b := by
  unfold qmin
  rw [qle_eq, min_def]
  by_cases h : a ≤ b <;> simp [h]

theorem qmax_eq (a b : ℚ) : qmax a b = max a b := by
  unfold qmax
  rw [qle_eq, max_def]
  by_cases h : a ≤ b <;> simp [h]

theorem qnat_eq (n : ℕ) : qnat n = (n : ℚ) := by
  unfold qnat
  rw [Rat.mkRat_eq_div]
  norm_num

theorem qint_eq (z : ℤ) : qint z = (z : ℚ) := by
  unfold qint
  rw [Rat.mkRat_eq_div]
  norm_num

theorem qfloor_eq (a : ℚ) : qfloor a = ⌊a⌋ := (Rat.floor_def).symm

theorem qzero_eq : mkRat 0 1 = (0 : ℚ) := by
  rw [Rat.mkRat_eq_div]
  norm_num

theorem qsum_go (l : List ℚ) : ∀ acc : ℚ, l.foldl qadd acc = acc + l.sum := by
  induction l with
  | nil => intro acc; simp
  | cons a t ih =>
    intro acc
    simp only [List.foldl_cons, List.sum_cons, qadd_eq, ih, add_assoc]

theorem qsum_eq (l : List ℚ) : qsum l = l.sum := by
  unfold qsum
  rw [qsum_go, qzero_eq, zero_add]

/-! ## Helper lemmas -/

theorem foldl_qmax_eq (l : List ℚ) : ∀ x : ℚ, l.foldl qmax x = l.foldl max x := by
  induction l with
  | nil => intro x; rfl
  | cons a t ih => intro x; simp only [List.foldl_cons, qmax_eq, ih]

theorem foldl_max_eq (l : List ℚ) :
    ∀ x : ℚ, 0 ≤ x → l.foldl max x = max x (l.foldr max 0) := by
  induction l with
  | nil => intro x hx; simpa using (max_eq_left hx).symm
  | cons a t ih =>
    intro x hx
    have hxa : (0:ℚ) ≤ max x a := le_trans hx (le_max_left x a)
    simp only [List.foldl_cons, List.foldr_cons, ih (max x a) hxa, max_assoc]

theorem mkRat_as_div (a : ℤ) (b : ℕ) : mkRat a b = (a : ℚ) / (b : ℚ) :=
  Rat.mkRat_eq_div a b

/-! ## Claim C5 -/

/-- C5: the candidate search's time-window/region filter retains exactly
the stored invoices whose submission timestamp differs from the
reference's by at most 72 hours (a difference of exactly 72 hours is
retained, since the source skips on a strict `>`) and whose region
differs from the reference's; the quick similarity check is applied only
to invoices passing that filter, so stored invoices outside the window
or in the same region are never compared. -/
theorem c5_window_region_filter (sim : List Char → List Char → ℚ)
    (db : List RegionalInvoice) (current : RegionalInvoice) :
    search_cross_regional_duplicates sim db current =
      (db.filter (fun e =>
        decide (|current.submission_timestamp - e.submission_timestamp| ≤ (72:ℚ))
          && (e.region != current.region))).filter
        (fun e => quick_similarity_check sim current e)
    ∧ (∀ e : RegionalInvoice,
        e ∈ db.filter (fun e =>
          decide (|current.submission_timestamp - e.submission_timestamp| ≤ (72:ℚ))
            && (e.region != current.region)) ↔
        e ∈ db ∧ |current.submission_timestamp - e.submission_timestamp| ≤ 72
          ∧ e.region ≠ current.region) := by
  constructor
  · rw [List.filter_filter]
    unfold search_cross_regional_duplicates
    congr 1
    funext e
    simp only [qle_eq, qabs_eq, qsub_eq, time_window_hours]
    rw [Bool.and_comm]
  · intro e
    simp only [List.mem_filter, Bool.and_eq_true, decide_eq_true_iff, bne_iff_ne,
      ne_eq, and_assoc]

/-! ## Claim C2 -/

/-- `dictInsert` never produces the empty dictionary. -/
theorem dictInsert_ne_nil {α : Type} (k : List Char) (v : α)
    (l : List (List Char × α)) : dictInsert k v l ≠ [] := by
  cases l with
  | nil => simp [dictInsert]
  | cons a t =>
    obtain ⟨k2, v2⟩ := a
    simp only [dictInsert]
    split_ifs <;> simp

/-- Every entry of `dictInsert k v l` is the new binding or an entry of
`l` (the overwritten arm rewrites the key's value in place). -/
theorem dictInsert_mem {α : Type} (k : List Char) (v : α)
    (l : List (List Char × α)) (x : List Char × α)
    (hx : x ∈ dictInsert k v l) : x = (k, v) ∨ x ∈ l := by
  induction l with
  | nil =>
    simp only [dictInsert, List.mem_singleton] at hx
    exact Or.inl hx
  | cons a t ih =>
    obtain ⟨k2, v2⟩ := a
    simp only [dictInsert] at hx
    by_cases h : (k2 == k) = true
    · rw [if_pos h] at hx
      rcases List.mem_cons.mp hx with h1 | h1
      · exact Or.inl (by rw [h1, eq_of_beq h])
      · exact Or.inr (List.mem_cons_of_mem _ h1)
    · rw [if_neg h] at hx
      rcases List.mem_cons.mp hx with h1 | h1
      · exact Or.inr (by rw [h1]; exact List.mem_cons_self _ _)
      · rcases ih h1 with h2 | h2
        · exact Or.inl h2
        · exact Or.inr (List.mem_cons_of_mem _ h2)

/-- Filtering a mapped list is mapping the filtered list. -/
theorem filter_map_comm {α β : Type} (f : α → β) (q : β → Bool) (l : List α) :
    (l.map f).filter q = (l.filter (fun a => q (f a))).map f := by
  induction l with
  | nil => rfl
  | cons a t ih =>
    rw [List.map_cons, List.filter_cons, List.filter_cons]
    by_cases h : q (f a) = true
    · rw [if_pos h, if_pos h, List.map_cons, ih]
    · rw [if_neg h, if_neg h, ih]

/-- The spec-side match set is the filtered candidate list paired with
its detailed comparisons. -/
theorem spec_matches_eq (sim : List Char → List Char → ℚ)
    (current : RegionalInvoice) (pds : List RegionalInvoice) :
    spec_matches sim current pds =
      (pds.filter (matchTest sim current)).map
        (fun d => (d, compare_invoices_detailed sim current d)) := by
  unfold spec_matches
  rw [filter_map_comm]
  rfl

/-- The loop body on a candidate passing the guard. -/
theorem analyzeStep_pos (sim : List Char → List Char → ℚ)
    (current : RegionalInvoice) (acc : Evidence) (d : RegionalInvoice)
    (hd : matchTest sim current d = true) :
    analyzeStep sim current acc d =
      { «matches» := acc.matches ++ [d]
        similarity_scores := dictInsert d.invoice_id
          (compare_invoices_detailed sim current d).overall_similarity
          acc.similarity_scores
        matching_elements := dictInsert d.invoice_id
          (compare_invoices_detailed sim current d).matching_elements
          acc.matching_elements
        currency_analysis := dictInsert d.invoice_id
          (compare_invoices_detailed sim current d).currency_analysis
          acc.currency_analysis
        temporal_analysis := dictInsert d.invoice_id
          (compare_invoices_detailed sim current d).temporal_analysis
          acc.temporal_analysis } := by
  unfold analyzeStep
  dsimp only
  rw [if_pos (by exact hd)]

/-- The loop body on a candidate failing the guard. -/
theorem analyzeStep_neg (sim : List Char → List Char → ℚ)
    (current : RegionalInvoice) (acc : Evidence) (d : RegionalInvoice)
    (hd : ¬ matchTest sim current d = true) :
    analyzeStep sim current acc d = acc := by
  unfold analyzeStep
  dsimp only
  rw [if_neg (by exact hd)]

/-- When no candidate passes the guard the loop leaves the evidence
unchanged. -/
theorem foldl_analyzeStep_const (sim : List Char → List Char → ℚ)
    (current : RegionalInvoice) (pds : List RegionalInvoice) :
    ∀ acc : Evidence, pds.filter (matchTest sim current) = [] →
      pds.foldl (analyzeStep sim current) acc = acc := by
  induction pds with
  | nil => intro acc _; rfl
  | cons d t ih =>
    intro acc hp
    rw [List.filter_cons] at hp
    by_cases hd : matchTest sim current d = true
    · rw [if_pos hd] at hp
      exact absurd hp (List.cons_ne_nil _ _)
    · rw [if_neg hd] at hp
      rw [List.foldl_cons, analyzeStep_neg sim current acc d hd]
      exact ih acc hp

/-- The `matches` list collected by the loop is exactly the filtered
candidate list (appended to the accumulator's). -/
theorem foldl_analyzeStep_matches (sim : List Char → List Char → ℚ)
    (current : RegionalInvoice) (pds : List RegionalInvoice) :
    ∀ acc : Evidence,
      (pds.foldl (analyzeStep sim current) acc).matches =
        acc.matches ++ pds.filter (matchTest sim current) := by
  induction pds with
  | nil => intro acc; simp
  | cons d t ih =>
    intro acc
    rw [List.foldl_cons, List.filter_cons]
    by_cases hd : matchTest sim current d = true
    · rw [if_pos hd, analyzeStep_pos sim current acc d hd, ih]
      dsimp only
      rw [List.append_assoc]
      rfl
    · rw [if_neg hd, analyzeStep_neg sim current acc d hd, ih]

/-- The loop never empties a nonempty similarity dictionary. -/
theorem foldl_analyzeStep_scores_ne (sim : List Char → List Char → ℚ)
    (current : RegionalInvoice) (pds : List RegionalInvoice) :
    ∀ acc : Evidence, acc.similarity_scores ≠ [] →
      (pds.foldl (analyzeStep sim current) acc).similarity_scores ≠ [] := by
  induction pds with
  | nil => intro acc h; exact h
  | cons d t ih =>
    intro acc h
    rw [List.foldl_cons]
    by_cases hd : matchTest sim current d = true
    · rw [analyzeStep_pos sim current acc d hd]
      exact ih _ (dictInsert_ne_nil _ _ _)
    · rw [analyzeStep_neg sim current acc d hd]
      exact ih acc h

/-- A passing candidate makes the similarity dictionary nonempty for
good. -/
theorem foldl_analyzeStep_scores_nonempty (sim : List Char → List Char → ℚ)
    (current : RegionalInvoice) (pds : List RegionalInvoice) :
    ∀ acc : Evidence, pds.filter (matchTest sim current) ≠ [] →
      (pds.foldl (analyzeStep sim current) acc).similarity_scores ≠ [] := by
  induction pds with
  | nil => intro acc h; exact absurd rfl h
  | cons d t ih =>
    intro acc h
    rw [List.foldl_cons]
    by_cases hd : matchTest sim current d = true
    · rw [analyzeStep_pos sim current acc d hd]
      exact foldl_analyzeStep_scores_ne sim current t _ (dictInsert_ne_nil _ _ _)
    · rw [analyzeStep_neg sim current acc d hd]
      apply ih acc
      rw [List.filter_cons, if_neg hd] at h
      exact h

/-- Every value of the similarity dictionary was written by a passing
candidate, so it exceeds the 0.85 threshold. -/
theorem foldl_analyzeStep_scores_mem (sim : List Char → List Char → ℚ)
    (current : RegionalInvoice) (pds : List RegionalInvoice) :
    ∀ acc : Evidence,
      (∀ x ∈ acc.similarity_scores, qlt similarity_threshold x.2 = true) →
      ∀ x ∈ (pds.foldl (analyzeStep sim current) acc).similarity_scores,
        qlt similarity_threshold x.2 = true := by
  induction pds with
  | nil => intro acc h; exact h
  | cons d t ih =>
    intro acc h
    rw [List.foldl_cons]
    by_cases hd : matchTest sim current d = true
    · rw [analyzeStep_pos sim current acc d hd]
      apply ih
      intro x hx
      have hx2 : x ∈ dictInsert d.invoice_id
          (compare_invoices_detailed sim current d).overall_similarity
          acc.similarity_scores := hx
      rcases dictInsert_mem _ _ _ _ hx2 with h1 | h1
      · rw [h1]
        exact hd
      · exact h x h1
    · rw [analyzeStep_neg sim current acc d hd]
      exact ih acc h

/-- With exactly one passing candidate the evidence record is the
singleton evidence of that match. -/
theorem foldl_analyzeStep_single (sim : List Char → List Char → ℚ)
    (current : RegionalInvoice) (pds : List RegionalInvoice)
    (d : RegionalInvoice) :
    pds.filter (matchTest sim current) = [d] →
      pds.foldl (analyzeStep sim current) ⟨[], [], [], [], []⟩ =
        ⟨[d],
          [(d.invoice_id, (compare_invoices_detailed sim current d).overall_similarity)],
          [(d.invoice_id, (compare_invoices_detailed sim current d).matching_elements)],
          [(d.invoice_id, (compare_invoices_detailed sim current d).currency_analysis)],
          [(d.invoice_id, (compare_invoices_detailed sim current d).temporal_analysis)]⟩ := by
  induction pds with
  | nil => intro h; exact absurd h (by simp)
  | cons e t ih =>
    intro h
    rw [List.filter_cons] at h
    by_cases hd : matchTest sim current e = true
    · rw [if_pos hd] at h
      obtain ⟨he, ht⟩ := List.cons_eq_cons.mp h
      subst he
      rw [List.foldl_cons, analyzeStep_pos sim current ⟨[], [], [], [], []⟩ e hd,
        foldl_analyzeStep_const sim current t _ ht]
      rfl
    · rw [if_neg hd] at h
      rw [List.foldl_cons, analyzeStep_neg sim current ⟨[], [], [], [], []⟩ e hd]
      exact ih h

/-- Whenever the `matches` list of analyzer-produced evidence is
nonempty so is the similarity dictionary — the `max()` of
`_calculate_fraud_confidence` never sees an empty sequence in the
pipeline. -/
theorem analyze_scores_nonempty (sim : List Char → List Char → ℚ)
    (current : RegionalInvoice) (pds : List RegionalInvoice)
    (h : (analyze_content_similarity sim current pds).matches ≠ []) :
    (analyze_content_similarity sim current pds).similarity_scores ≠ [] := by
  unfold analyze_content_similarity at h ⊢
  apply foldl_analyzeStep_scores_nonempty
  intro hf
  apply h
  rw [foldl_analyzeStep_matches sim current pds _, hf]
  rfl

/-- The monotone initial segment of a `qmax` fold. -/
theorem foldl_qmax_le_init (l : List ℚ) : ∀ a : ℚ, a ≤ l.foldl qmax a := by
  induction l with
  | nil => intro a; exact le_refl a
  | cons x t ih =>
    intro a
    rw [List.foldl_cons]
    refine le_trans ?_ (ih (qmax a x))
    rw [qmax_eq]
    exact le_max_left a x

/-- The spec formula is clamped to `[0, 0.99]` by construction. -/
theorem spec_aggregate_bounds (l : List (RegionalInvoice × MatchEvidence)) :
    0 ≤ spec_aggregate l ∧ spec_aggregate l ≤ 99/100 := by
  unfold spec_aggregate
  by_cases h : l.isEmpty = true
  · rw [if_pos h]
    norm_num
  · rw [if_neg h]
    refine ⟨le_max_left 0 _, max_le (by norm_num) (min_le_left _ _)⟩

/-- A registry may hold two records with the same invoice id (ids are
caller-supplied); when both match a submission, the `matches` list keeps
both while the `invoice_id`-keyed dictionaries collapse them to one
entry — the last-write-wins behaviour of the source's evidence dicts. -/
theorem duplicate_id_collapse :
    (analyze_content_similarity simW (create_regional_invoice hashW dataW 2)
      (search_cross_regional_duplicates simW [invA, invA2]
        (create_regional_invoice hashW dataW 2))).matches.length = 2
    ∧ (analyze_content_similarity simW (create_regional_invoice hashW dataW 2)
      (search_cross_regional_duplicates simW [invA, invA2]
        (create_regional_invoice hashW dataW 2))).similarity_scores.length = 1 := by
  decide

/-- One passing match: the code on the singleton dictionaries written
by that match equals the spec formula on the singleton match list. -/
theorem single_match_eq (dd : RegionalInvoice) (me : MatchEvidence)
    (hov : (85/100 : ℚ) < me.overall_similarity) :
    calculate_fraud_confidence
      ⟨[dd], [(dd.invoice_id, me.overall_similarity)],
        [(dd.invoice_id, me.matching_elements)],
        [(dd.invoice_id, me.currency_analysis)],
        [(dd.invoice_id, me.temporal_analysis)]⟩ =
      spec_aggregate [(dd, me)] := by
  simp only [calculate_fraud_confidence, spec_aggregate, List.map_cons, List.map_nil,
    List.foldl_nil, List.foldr_cons, List.foldr_nil, List.isEmpty_cons,
    Bool.false_eq_true, if_false, List.length_cons, List.length_nil]
  rw [max_eq_left (le_trans (by norm_num) (le_of_lt hov))]
  simp only [qmin_eq, qadd_eq, qmul_eq, qsub_eq, qnat_eq, mkRat_as_div]
  rcases hca : me.currency_analysis.suspicious with _ | _ <;>
    rcases htt : me.temporal_analysis.suspicious_timing with _ | _ <;>
    simp only [List.filter_cons, List.filter_nil, hca, htt, if_true, if_false,
      Bool.false_eq_true, List.length_cons, List.length_nil] <;>
    push_cast <;>
    norm_num <;>
    linarith

/-- Two or more matches: the code's confidence is clamped at 0.99 —
the head similarity-dictionary value exceeds 0.85 and the multiplier is
at least 1.2. -/
theorem code_clamped (ev : Evidence) (m1 m2 : RegionalInvoice)
    (mrest : List RegionalInvoice) (hmat : ev.matches = m1 :: m2 :: mrest)
    (s : List Char × ℚ) (srest : List (List Char × ℚ))
    (hs : ev.similarity_scores = s :: srest)
    (hsv : (85/100 : ℚ) < s.2) :
    calculate_fraud_confidence ev = 99/100 := by
  unfold calculate_fraud_confidence
  rw [hmat, hs]
  dsimp only
  have hmax : (85/100 : ℚ) ≤ (srest.map (fun x => x.2)).foldl qmax s.2 :=
    le_trans (le_of_lt hsv) (foldl_qmax_le_init _ s.2)
  have h0max : (0:ℚ) ≤ (srest.map (fun x => x.2)).foldl qmax s.2 :=
    le_trans (by norm_num) hmax
  simp only [qmin_eq, qadd_eq, qmul_eq, qsub_eq, qnat_eq, mkRat_as_div,
    List.length_cons]
  have hmult : (6/5 : ℚ) ≤
      min (((3:ℤ) : ℚ) / ((2:ℕ) : ℚ))
        (1 + (((mrest.length + 1 + 1 : ℕ) : ℚ) - 1) * (((2:ℤ) : ℚ) / ((10:ℕ) : ℚ))) := by
    refine le_min (by norm_num) ?_
    push_cast
    nlinarith [Nat.cast_nonneg (α := ℚ) mrest.length]
  have hb : (85/100 : ℚ) * (6/5) ≤
      (srest.map (fun x => x.2)).foldl qmax s.2 *
        min (((3:ℤ) : ℚ) / ((2:ℕ) : ℚ))
          (1 + (((mrest.length + 1 + 1 : ℕ) : ℚ) - 1) * (((2:ℤ) : ℚ) / ((10:ℕ) : ℚ))) :=
    mul_le_mul hmax hmult (by norm_num) h0max
  have hb1 : (0:ℚ) ≤
      (((ev.currency_analysis.filter (fun x => x.2.suspicious)).length : ℕ) : ℚ) *
        (((1:ℤ) : ℚ) / ((10:ℕ) : ℚ)) := by positivity
  have hb2 : (0:ℚ) ≤
      (((ev.temporal_analysis.filter (fun x => x.2.suspicious_timing)).length : ℕ) : ℚ) *
        (((5:ℤ) : ℚ) / ((100:ℕ) : ℚ)) := by positivity
  rw [min_eq_left (by push_cast at hb hb1 hb2 ⊢; nlinarith)]
  norm_num

/-- Two or more matches: the spec formula is clamped at 0.99 as well. -/
theorem spec_clamped (e1 e2 : RegionalInvoice × MatchEvidence)
    (erest : List (RegionalInvoice × MatchEvidence))
    (hov : (85/100 : ℚ) < e1.2.overall_similarity) :
    spec_aggregate (e1 :: e2 :: erest) = 99/100 := by
  unfold spec_aggregate
  simp only [List.map_cons, List.isEmpty_cons, Bool.false_eq_true, if_false,
    List.foldr_cons, List.length_cons]
  have hm : (85/100 : ℚ) ≤
      max e1.2.overall_similarity
        (max e2.2.overall_similarity
          ((erest.map (fun e => e.2.overall_similarity)).foldr max 0)) :=
    le_trans (le_of_lt hov) (le_max_left _ _)
  have h0m : (0:ℚ) ≤
      max e1.2.overall_similarity
        (max e2.2.overall_similarity
          ((erest.map (fun e => e.2.overall_similarity)).foldr max 0)) :=
    le_trans (by norm_num) hm
  have hmult : (6/5 : ℚ) ≤
      min (3/2 : ℚ) (1 + (2/10) * (((erest.length + 1 + 1 : ℕ) : ℚ) - 1)) := by
    refine le_min (by norm_num) ?_
    push_cast
    nlinarith [Nat.cast_nonneg (α := ℚ) erest.length]
  have hb : (85/100 : ℚ) * (6/5) ≤
      max e1.2.overall_similarity
        (max e2.2.overall_similarity
          ((erest.map (fun e => e.2.overall_similarity)).foldr max 0)) *
        min (3/2 : ℚ) (1 + (2/10) * (((erest.length + 1 + 1 : ℕ) : ℚ) - 1)) :=
    mul_le_mul hm hmult (by norm_num) h0m
  have hb1 : (0:ℚ) ≤ (1/10 : ℚ) *
      ((((e1 :: e2 :: erest).filter
        (fun e => e.2.currency_analysis.suspicious)).length : ℕ) : ℚ) := by positivity
  have hb2 : (0:ℚ) ≤ (5/100 : ℚ) *
      ((((e1 :: e2 :: erest).filter
        (fun e => e.2.temporal_analysis.suspicious_timing)).length : ℕ) : ℚ) := by positivity
  rw [min_eq_left (by push_cast at hb hb1 hb2 ⊢; nlinarith)]
  exact max_eq_right (by norm_num)

/-- C2: `_calculate_fraud_confidence` returns 0 whenever the `matches`
list is empty; and on the evidence produced by
`_analyze_content_similarity`, for every candidate list, it returns the
claim's per-match formula — the maximum overall similarity times
`min(1.5, 1.0 + 0.2·(matchCount−1))`, plus `0.10` per
currency-suspicious match and `0.05` per in-window match, clamped to
`[0, 0.99]` — even though the code reads the similarity maximum and the
two boost counts off the `invoice_id`-keyed dictionaries (one entry per
distinct id, last write wins): with one match the dictionaries are
singletons, and with two or more matches every similarity exceeds 0.85
and the multiplier is at least 1.2, so both readings exceed the 0.99
cap and are clamped to it.  Hence the result always lies in
`[0, 0.99]`. -/
theorem c2_aggregate_formula (sim : List Char → List Char → ℚ)
    (current : RegionalInvoice) (pds : List RegionalInvoice) :
    (∀ (ss : List (List Char × ℚ)) (mels : List (List Char × MatchElements))
      (ca : List (List Char × CurrencyAnalysis))
      (ta : List (List Char × TemporalAnalysis)),
      calculate_fraud_confidence ⟨[], ss, mels, ca, ta⟩ = 0)
    ∧ calculate_fraud_confidence (analyze_content_similarity sim current pds) =
        spec_aggregate (spec_matches sim current pds)
    ∧ 0 ≤ calculate_fraud_confidence (analyze_content_similarity sim current pds)
    ∧ calculate_fraud_confidence (analyze_content_similarity sim current pds) ≤ 99/100 := by
  have hth : similarity_threshold = (85/100 : ℚ) := by
    unfold similarity_threshold
    rw [mkRat_as_div]
    norm_num
  have hEq : calculate_fraud_confidence (analyze_content_similarity sim current pds) =
      spec_aggregate (spec_matches sim current pds) := by
    rcases hcase : pds.filter (matchTest sim current) with _ | ⟨d1, ds⟩
    · have hev : analyze_content_similarity sim current pds = ⟨[], [], [], [], []⟩ := by
        unfold analyze_content_similarity
        exact foldl_analyzeStep_const sim current pds _ hcase
      rw [hev, spec_matches_eq sim current pds, hcase]
      rfl
    · have hd1 : matchTest sim current d1 = true := by
        have h1 : d1 ∈ pds.filter (matchTest sim current) := by
          rw [hcase]
          exact List.mem_cons_self _ _
        exact (List.mem_filter.mp h1).2
      have hov : (85/100 : ℚ) <
          (compare_invoices_detailed sim current d1).overall_similarity := by
        have h2 := (qlt_iff _ _).mp hd1
        rwa [hth] at h2
      rcases ds with _ | ⟨d2, ds⟩
      · -- exactly one match: the dictionaries are singletons
        have hev : analyze_content_similarity sim current pds =
            ⟨[d1],
              [(d1.invoice_id, (compare_invoices_detailed sim current d1).overall_similarity)],
              [(d1.invoice_id, (compare_invoices_detailed sim current d1).matching_elements)],
              [(d1.invoice_id, (compare_invoices_detailed sim current d1).currency_analysis)],
              [(d1.invoice_id, (compare_invoices_detailed sim current d1).temporal_analysis)]⟩ := by
          unfold analyze_content_similarity
          exact foldl_analyzeStep_single sim current pds d1 hcase
        rw [hev, spec_matches_eq sim current pds, hcase, List.map_cons, List.map_nil]
        exact single_match_eq d1 (compare_invoices_detailed sim current d1) hov
      · -- two or more matches: both readings are clamped at 0.99
        have hmat : (analyze_content_similarity sim current pds).matches =
            d1 :: d2 :: ds := by
          unfold analyze_content_similarity
          rw [foldl_analyzeStep_matches sim current pds _, hcase]
          rfl
        have hne : (analyze_content_similarity sim current pds).similarity_scores ≠ [] := by
          unfold analyze_content_similarity
          apply foldl_analyzeStep_scores_nonempty
          rw [hcase]
          exact List.cons_ne_nil _ _
        have hmem : ∀ x ∈ (analyze_content_similarity sim current pds).similarity_scores,
            qlt similarity_threshold x.2 = true := by
          unfold analyze_content_similarity
          exact foldl_analyzeStep_scores_mem sim current pds _
            (fun x hx => absurd hx (List.not_mem_nil x))
        obtain ⟨s, srest, hs⟩ := List.exists_cons_of_ne_nil hne
        have hsv : (85/100 : ℚ) < s.2 := by
          have h1 := hmem s (by rw [hs]; exact List.mem_cons_self _ _)
          have h2 := (qlt_iff _ _).mp h1
          rwa [hth] at h2
        have hcode := code_clamped (analyze_content_similarity sim current pds)
          d1 d2 ds hmat s srest hs hsv
        have hspec : spec_aggregate (spec_matches sim current pds) = 99/100 := by
          rw [spec_matches_eq sim current pds, hcase, List.map_cons, List.map_cons]
          exact spec_clamped (d1, compare_invoices_detailed sim current d1)
            (d2, compare_invoices_detailed sim current d2)
            (ds.map (fun d => (d, compare_invoices_detailed sim current d))) hov
        rw [hcode, hspec]
  refine ⟨fun ss mels ca ta => rfl, hEq, ?_, ?_⟩
  · rw [hEq]
    exact (spec_aggregate_bounds _).1
  · rw [hEq]
    exact (spec_aggregate_bounds _).2

/-! ## Claim C3 -/

/-- The guarded Cartesian-average of `_compare_line_items`, expressed in
ordinary arithmetic. -/
theorem compare_line_items_eq (sim : List Char → List Char → ℚ)
    (items1 items2 : List (List Char)) :
    compare_line_items sim items1 items2 =
      (if items1 = [] ∨ items2 = [] then (0:ℚ)
       else (items1.map (fun a =>
          (items2.map (fun b => sim (lower a) (lower b))).sum)).sum /
          ((items1.length : ℚ) * (items2.length : ℚ))) := by
  unfold compare_line_items
  by_cases h : items1 = [] ∨ items2 = []
  · rcases h with h | h <;> simp [h]
  · push_neg at h
    have hL : ¬ ((items1.isEmpty || items2.isEmpty) = true) := by
      simp [h.1, h.2]
    have hR : ¬ (items1 = [] ∨ items2 = []) := by tauto
    rw [if_neg hL, if_neg hR]
    rw [if_pos (Nat.mul_pos (List.length_pos.mpr h.1) (List.length_pos.mpr h.2))]
    rw [qdiv_eq, qnat_eq]
    simp only [qsum_eq]
    push_cast
    rfl

/-- Bridging the source's boolean guards to the specification's
propositional guards. -/
theorem cond_both_beq (a b : List Char) :
    ((!a.isEmpty && !b.isEmpty && (lower a == lower b)) = true) ↔
      (a ≠ [] ∧ b ≠ [] ∧ lower a = lower b) := by
  simp [Bool.and_eq_true, List.isEmpty_iff, and_assoc]

theorem cond_both (a b : List Char) :
    ((!a.isEmpty && !b.isEmpty) = true) ↔ (a ≠ [] ∧ b ≠ []) := by
  simp [Bool.and_eq_true, List.isEmpty_iff]

/-- C3: the detailed comparison's overall similarity is exactly the
un-normalized weighted sum `0.30·content + 0.30·po + 0.25·address +
0.45·lineItems` of the specification, whose weights sum to 1.30, so the
overall similarity can exceed 1 (it reaches 1.3 on identical
fingerprints under the discrete similarity `simW`). -/
theorem c3_overall_weights (sim : List Char → List Char → ℚ)
    (invoice1 invoice2 : RegionalInvoice) :
    (compare_invoices_detailed sim invoice1 invoice2).overall_similarity =
      spec_overall sim invoice1 invoice2
    ∧ ((3/10 : ℚ) + 3/10 + 25/100 + 45/100 = 13/10)
    ∧ (1:ℚ) < (compare_invoices_detailed simW invA invA).overall_similarity := by
  refine ⟨?_, by norm_num, ?_⟩
  · simp only [compare_invoices_detailed, spec_overall, compare_line_items_eq,
      po_reference_weight, delivery_address_weight, line_items_weight]
    simp only [qadd_eq, qmul_eq, mkRat_as_div, cond_both_beq, cond_both]
    push_cast
    ring_nf
  · have h13 : (compare_invoices_detailed simW invA invA).overall_similarity =
        mkRat 13 10 := by decide
    rw [h13, mkRat_as_div]
    norm_num

/-! ## Claim C7 -/

/-- C7 counterexample: when both converted amounts are 0 the source
reports a variance of 1.0 (percentage 100) and `suspicious = false`,
whereas the claim prescribes variance 0 (and hence `suspicious = true`,
since `0 < 0.10`) when both amounts are 0. -/
theorem c7_counterexample :
    (analyze_currency_relationship invZ1 invZ2).amount1_usd = 0
    ∧ (analyze_currency_relationship invZ1 invZ2).amount2_usd = 0
    ∧ (analyze_currency_relationship invZ1 invZ2).variance_percentage = 100
    ∧ (analyze_currency_relationship invZ1 invZ2).suspicious = false := by
  decide

/-- C7 (amended): both amounts are converted through the static rate
table (with unknown currencies at rate 1.0); the variance fraction is
`|a−b|/a` when the first converted amount `a` is positive and 1.0
whenever `a ≤ 0` — including when both amounts are 0 — and
`suspicious` holds exactly when the variance fraction is strictly below
the 0.10 threshold. -/
theorem c7_variance_rule (invoice1 invoice2 : RegionalInvoice) :
    (analyze_currency_relationship invoice1 invoice2).amount1_usd =
      round2 (invoice1.total_amount * currency_rate invoice1.currency)
    ∧ (analyze_currency_relationship invoice1 invoice2).amount2_usd =
      round2 (invoice2.total_amount * currency_rate invoice2.currency)
    ∧ (analyze_currency_relationship invoice1 invoice2).variance_percentage =
      round2 ((if 0 < invoice1.total_amount * currency_rate invoice1.currency then
          |invoice1.total_amount * currency_rate invoice1.currency -
            invoice2.total_amount * currency_rate invoice2.currency| /
            (invoice1.total_amount * currency_rate invoice1.currency)
        else 1) * 100)
    ∧ ((analyze_currency_relationship invoice1 invoice2).suspicious = true ↔
      (if 0 < invoice1.total_amount * currency_rate invoice1.currency then
          |invoice1.total_amount * currency_rate invoice1.currency -
            invoice2.total_amount * currency_rate invoice2.currency| /
            (invoice1.total_amount * currency_rate invoice1.currency)
        else 1) < 1/10)
    ∧ currency_rate (toL "CHF") = 1
    ∧ currency_rate (toL "EUR") = 118/100 := by
  have hv : (if qlt 0 (qmul invoice1.total_amount (currency_rate invoice1.currency)) then
        qdiv (qabs (qsub (qmul invoice1.total_amount (currency_rate invoice1.currency))
          (qmul invoice2.total_amount (currency_rate invoice2.currency))))
          (qmul invoice1.total_amount (currency_rate invoice1.currency))
      else 1) =
      (if 0 < invoice1.total_amount * currency_rate invoice1.currency then
          |invoice1.total_amount * currency_rate invoice1.currency -
            invoice2.total_amount * currency_rate invoice2.currency| /
            (invoice1.total_amount * currency_rate invoice1.currency)
        else 1) := by
    simp only [qlt_eq, qdiv_eq, qabs_eq, qsub_eq, qmul_eq, decide_eq_true_eq]
  have hthr : (vendor_variance_threshold : ℚ) = 1/10 := by
    rw [vendor_variance_threshold, mkRat_as_div]
    norm_num
  refine ⟨?_, ?_, ?_, ?_, by decide, ?_⟩
  · simp only [analyze_currency_relationship, qmul_eq]
  · simp only [analyze_currency_relationship, qmul_eq]
  · simp only [analyze_currency_relationship]
    rw [hv, qmul_eq]
  · simp only [analyze_currency_relationship]
    rw [hv, qlt_iff, hthr]
  · have : currency_rate (toL "EUR") = mkRat 118 100 := by decide
    rw [this, mkRat_as_div]
    norm_num

/-! ## Claim C1 -/

/-- C1 counterexample: on a below-threshold submission the invoice is
appended to the registry, but with its processing status still
`"pending"` — it is never marked `"Stored"`, contradicting the claim's
"appended to the Registry as Stored". -/
theorem c1_counterexample :
    (detect_multi_regional_fraud simW hashW [] dataW 2).1 = none
    ∧ (detect_multi_regional_fraud simW hashW [] dataW 2).2.map
        (fun i => i.processing_status) = [toL "pending"]
    ∧ toL "pending" ≠ toL "Stored" := by
  decide

/-- C1 (amended): the pipeline returns a fraud alert exactly when the
aggregated confidence exceeds the hard-coded 0.75 threshold; below the
threshold it returns no alert and appends the invoice to the registry —
with its processing status left at `"pending"` (never set to `Stored`);
when an alert is returned the registry is left unchanged. -/
theorem c1_alert_threshold (sim : List Char → List Char → ℚ)
    (hash : List Char → List Char) (db : List RegionalInvoice)
    (data : InvoiceData) (now : ℚ) :
    ((detect_multi_regional_fraud sim hash db data now).1.isSome = true ↔
      (3/4 : ℚ) < calculate_fraud_confidence (analyze_content_similarity sim
        (create_regional_invoice hash data now)
        (search_cross_regional_duplicates sim db (create_regional_invoice hash data now))))
    ∧ ((detect_multi_regional_fraud sim hash db data now).1 = none →
      (detect_multi_regional_fraud sim hash db data now).2 =
        db ++ [create_regional_invoice hash data now]
      ∧ (create_regional_invoice hash data now).processing_status = toL "pending")
    ∧ ((detect_multi_regional_fraud sim hash db data now).1.isSome = true →
      (detect_multi_regional_fraud sim hash db data now).2 = db) := by
  have h34 : (mkRat 3 4 : ℚ) = 3/4 := by
    rw [mkRat_as_div]
    norm_num
  unfold detect_multi_regional_fraud
  rcases hq : qlt (mkRat 3 4) (calculate_fraud_confidence (analyze_content_similarity sim
      (create_regional_invoice hash data now)
      (search_cross_regional_duplicates sim db (create_regional_invoice hash data now)))) with _ | _
  · have hlt : ¬ (3/4 : ℚ) < calculate_fraud_confidence (analyze_content_similarity sim
        (create_regional_invoice hash data now)
        (search_cross_regional_duplicates sim db (create_regional_invoice hash data now))) := by
      intro hc
      rw [← h34] at hc
      rw [(qlt_iff _ _).mpr hc] at hq
      cases hq
    refine ⟨by simp [hq, hlt], fun _ => ⟨by simp [hq], rfl⟩, by simp [hq]⟩
  · have hlt : (3/4 : ℚ) < calculate_fraud_confidence (analyze_content_similarity sim
        (create_regional_invoice hash data now)
        (search_cross_regional_duplicates sim db (create_regional_invoice hash data now))) := by
      rw [← h34]
      exact (qlt_iff _ _).mp hq
    simp [hq, hlt]

/-- Witness for C1, taken at the empty registry (no candidates, hence
confidence 0, no alert): the invoice is appended as `"pending"`. -/
theorem c1_alert_threshold_witness :
    (detect_multi_regional_fraud simW hashW [] dataW 2).2 =
      [] ++ [create_regional_invoice hashW dataW 2]
    ∧ (create_regional_invoice hashW dataW 2).processing_status = toL "pending" :=
  (c1_alert_threshold simW hashW [] dataW 2).2.1 (by decide)

/-! ## Claim C4 -/

/-- C4 counterexample: two invoices with empty PO references and vendor
names whose delivery addresses are `"ab"` and `"a"` — the second is a
substring of the first, so the claim's either-direction rule accepts the
pair, but the source checks only whether the *first* invoice's address
occurs in the second's and returns false. -/
theorem c4_counterexample :
    quick_similarity_check simW invD invE = false
    ∧ spec_isCandidate simW invD invE := by
  constructor
  · decide
  · simp only [spec_isCandidate]
    exact Or.inr (Or.inr ⟨by decide, by decide, Or.inr (by decide)⟩)

/-- C4 (amended): the pre-filter accepts exactly when the PO references
match case-insensitively (both non-empty), or the vendor-name similarity
exceeds 0.8 (both non-empty), or the *first* invoice's delivery address
is a case-insensitive substring of the *second's* — one direction only
(in particular, two invoices with an identical non-empty PO reference
always pass). -/
theorem c4_prefilter (sim : List Char → List Char → ℚ)
    (invoice1 invoice2 : RegionalInvoice) :
    quick_similarity_check sim invoice1 invoice2 = true ↔
      ((invoice1.fingerprint.po_reference ≠ [] ∧
        invoice2.fingerprint.po_reference ≠ [] ∧
        lower invoice1.fingerprint.po_reference = lower invoice2.fingerprint.po_reference)
      ∨ (invoice1.fingerprint.vendor_name ≠ [] ∧
        invoice2.fingerprint.vendor_name ≠ [] ∧
        (8/10 : ℚ) < sim (lower invoice1.fingerprint.vendor_name)
          (lower invoice2.fingerprint.vendor_name))
      ∨ (invoice1.fingerprint.delivery_address ≠ [] ∧
        invoice2.fingerprint.delivery_address ≠ [] ∧
        isSubstrOf (lower invoice1.fingerprint.delivery_address)
          (lower invoice2.fingerprint.delivery_address) = true)) := by
  have h810 : (mkRat 8 10 : ℚ) = 8/10 := by
    rw [mkRat_as_div]
    norm_num
  unfold quick_similarity_check
  simp only [Bool.or_eq_true, Bool.and_eq_true, Bool.not_eq_true',
    List.isEmpty_eq_false, beq_iff_eq, qlt_eq, decide_eq_true_eq, h810,
    and_assoc]
  tauto

/-! ## Claim C6 -/

/-- C6 counterexample: with a matching duplicate `invA` (similarity 1.3)
and a PO-only candidate `invB` (similarity 0.3, below the 0.85
threshold), the produced alert's `matchedInvoices` is `[C, A, B]` —
including the non-match `B` — and `potentialLoss` is `107 = 100 + 7`,
the sum over *all* pre-filter candidates, not the `100` the claim
prescribes for the matched invoices alone. -/
theorem c6_counterexample :
    (detect_multi_regional_fraud simW hashW [invA, invB] dataW 2).1.map
      (fun a => (a.duplicate_invoices.map (fun i => i.invoice_id),
        a.evidence_details.matches.map (fun i => i.invoice_id), a.potential_loss))
      = some ([toL "C", toL "A", toL "B"], [toL "A"], 107)
    ∧ ((107:ℚ) ≠ 100) := by
  decide

/-- C6 (amended): every produced alert lists the submitted invoice
followed by *all* pre-filter candidates (window, cross-region, quick
check) regardless of their detailed similarity, and its potential loss
is the rounded sum of all those candidates' USD-converted amounts — the
submitted invoice's own amount is excluded. -/
theorem c6_alert_contents (sim : List Char → List Char → ℚ)
    (hash : List Char → List Char) (db : List RegionalInvoice)
    (data : InvoiceData) (now : ℚ)
    (h : (detect_multi_regional_fraud sim hash db data now).1.isSome = true) :
    (detect_multi_regional_fraud sim hash db data now).1.map
      (fun a => (a.duplicate_invoices, a.potential_loss)) =
      some (create_regional_invoice hash data now ::
        search_cross_regional_duplicates sim db (create_regional_invoice hash data now),
        round2 (((search_cross_regional_duplicates sim db
            (create_regional_invoice hash data now)).map
          (fun d => d.total_amount * currency_rate d.currency)).sum)) := by
  rcases hq : qlt (mkRat 3 4) (calculate_fraud_confidence (analyze_content_similarity sim
      (create_regional_invoice hash data now)
      (search_cross_regional_duplicates sim db (create_regional_invoice hash data now)))) with _ | _
  · unfold detect_multi_regional_fraud at h
    simp [hq] at h
  · unfold detect_multi_regional_fraud
    simp only [hq, if_true]
    simp only [Option.map_some, generate_fraud_alert, calculate_potential_loss]
    simp only [qmul_eq, qsum_eq]
    rfl

/-- Witness for C6 at the concrete two-candidate registry. -/
theorem c6_alert_contents_witness :
    (detect_multi_regional_fraud simW hashW [invA, invB] dataW 2).1.map
      (fun a => (a.duplicate_invoices, a.potential_loss)) =
      some (create_regional_invoice hashW dataW 2 ::
        search_cross_regional_duplicates simW [invA, invB]
          (create_regional_invoice hashW dataW 2),
        round2 (((search_cross_regional_duplicates simW [invA, invB]
            (create_regional_invoice hashW dataW 2)).map
          (fun d => d.total_amount * currency_rate d.currency)).sum)) :=
  c6_alert_contents simW hashW [invA, invB] dataW 2 (by decide)

/-! ## Claim C9 -/

/-- C9: the fingerprint stored in a regional invoice is a pure function
of the raw invoice text alone — two submissions with identical text,
processed at different times, yield record-identical fingerprints
(hence every field: content hash, vendor name, line items, amounts, PO
reference, delivery address, normalized content and keyword list is
identical), and the fingerprint equals `generate_content_fingerprint`
of the text. -/
theorem c9_fingerprint_deterministic (hash : List Char → List Char)
    (d1 d2 : InvoiceData) (now1 now2 : ℚ)
    (h : d1.invoice_text = d2.invoice_text) :
    (create_regional_invoice hash d1 now1).fingerprint =
      (create_regional_invoice hash d2 now2).fingerprint
    ∧ (create_regional_invoice hash d1 now1).fingerprint =
      generate_content_fingerprint hash d1.invoice_text := by
  unfold create_regional_invoice
  exact ⟨by rw [h], rfl⟩

/-- Witness for C9 at two distinct submission times. -/
theorem c9_fingerprint_deterministic_witness :
    (create_regional_invoice hashW dataW 0).fingerprint =
      (create_regional_invoice hashW dataW 5).fingerprint
    ∧ (create_regional_invoice hashW dataW 0).fingerprint =
      generate_content_fingerprint hashW dataW.invoice_text :=
  c9_fingerprint_deterministic hashW dataW dataW 0 5 rfl

/-! ## Claim C10 -/

/-- C10: the two modules disagree on recording flagged invoices — the
standalone detector leaves its database unchanged whenever it returns an
alert (a flagged invoice is never recorded), while the master pipeline
appends every processed invoice to its database unconditionally; hence
the two pipelines leave different registry states behind. -/
theorem c10_registry_divergence :
    (∀ (sim : List Char → List Char → ℚ) (hash : List Char → List Char)
      (db : List RegionalInvoice) (data : InvoiceData) (now : ℚ),
      (detect_multi_regional_fraud sim hash db data now).1.isSome = true →
      (detect_multi_regional_fraud sim hash db data now).2 = db)
    ∧ (∀ (sim : List Char → List Char → ℚ) (db : List MasterRecord)
      (text id region : List Char) (usd now : ℚ),
      (multi_regional_fraud_analysis sim db text id region usd now).2 =
        db ++ [(⟨id, region, create_content_fingerprint text, usd, now⟩ : MasterRecord)]) := by
  constructor
  · intro sim hash db data now h
    rcases hq : qlt (mkRat 3 4) (calculate_fraud_confidence (analyze_content_similarity sim
        (create_regional_invoice hash data now)
        (search_cross_regional_duplicates sim db (create_regional_invoice hash data now)))) with _ | _
    · unfold detect_multi_regional_fraud at h
      simp [hq] at h
    · unfold detect_multi_regional_fraud
      simp only [hq, if_true]
  · intro sim db text id region usd now
    rfl

/-- Witness for C10's first conjunct at the alert-producing registry. -/
theorem c10_registry_divergence_witness :
    (detect_multi_regional_fraud simW hashW [invA, invB] dataW 2).2 = [invA, invB] :=
  c10_registry_divergence.1 simW hashW [invA, invB] dataW 2 (by decide)

/-! ## Claim C8 -/

/-- C8 counterexample: neither normalizer is idempotent on all inputs.
The detector normalizer lowercases *last*, and its (mojibake)
currency-symbol class contains the Greek small pi, so `"Π"` normalizes
to `"π"`, which a second pass replaces with `CURRENCY` and lowercases to
`"currency"`.  The master module's fingerprint normalizer lowercases
*first* and then inserts the upper-case placeholder `CURRENCY`, which a
second pass lowercases to `"currency"`. -/
theorem c8_counterexample :
    normalize_content (toL "Π") = toL "π"
    ∧ normalize_content (normalize_content (toL "Π")) = toL "currency"
    ∧ normalize_content (normalize_content (toL "Π")) ≠ normalize_content (toL "Π")
    ∧ create_content_fingerprint (toL "$") = toL "CURRENCY"
    ∧ create_content_fingerprint (create_content_fingerprint (toL "$")) = toL "currency"
    ∧ create_content_fingerprint (create_content_fingerprint (toL "$")) ≠
        create_content_fingerprint (toL "$") := by
  decide

/-! ## Infrastructure for the idempotence analysis of the normalizer

The remainder of the development proves that the detector's normalizer
is idempotent on every input that does not contain the capital pi
(the one character that the final lowercasing step can move *into* the
mojibake symbol class).  The proof establishes that a normalized text
admits no further match of any of the five patterns, is stripped, has
collapsed whitespace, and is lowercase — so a second pass is the
identity. -/

theorem go_nil (m : Matcher) (r : List Char) (k : Nat) (p : Bool) :
    go m r k p [] = [] := by
  cases k <;> rfl

theorem go_succ (m : Matcher) (r : List Char) (k : Nat) (p : Bool) (c : Char)
    (cs : List Char) : go m r (k+1) p (c :: cs) = go m r k (isWordChar c) cs := rfl

theorem go_zero_eq (m : Matcher) (r : List Char) (p : Bool) (c : Char)
    (cs : List Char) :
    go m r 0 p (c :: cs) =
      match m p (c :: cs) with
      | some (n+1) => r ++ go m r n (isWordChar c) cs
      | _ => c :: go m r 0 (isWordChar c) cs := rfl

theorem ctxList_nil (p : Bool) : ctxList p [] = p := rfl

theorem ctxList_cons (p : Bool) (c : Char) (t : List Char) :
    ctxList p (c :: t) = ctxList (isWordChar c) t := rfl

theorem go_skip_eq (m : Matcher) (r : List Char) :
    ∀ (k : Nat) (p : Bool) (l : List Char),
      go m r k p l = go m r 0 (ctxList p (l.take k)) (l.drop k)
  | 0, p, l => by simp [ctxList]
  | k+1, p, [] => by simp [go_nil, ctxList]
  | k+1, p, c :: cs => by
    rw [go_succ, go_skip_eq m r k (isWordChar c) cs, List.take_succ_cons,
      List.drop_succ_cons, ctxList_cons]

theorem mSym_pos {syms : List Char} {p : Bool} {l : List Char} {n : Nat}
    (h : mSym syms p l = some n) : 0 < n := by
  rcases l with _ | ⟨c, cs⟩
  · simp [mSym] at h
  · unfold mSym at h
    dsimp only at h
    split_ifs at h
    simp only [Option.some.injEq] at h
    omega

theorem mCode_true (l : List Char) : mCode true l = none := rfl

theorem mCode_eq (p : Bool) (c1 c2 c3 : Char) (rest : List Char) :
    mCode p (c1 :: c2 :: c3 :: rest) =
      if p then none
      else if isCode3 c1 c2 c3 &&
          (match rest with | [] => true | d :: _ => !isWordChar d) then
        some 3
      else none := rfl

theorem mCode_pos {p : Bool} {l : List Char} {n : Nat}
    (h : mCode p l = some n) : 0 < n := by
  cases p
  · rcases l with _ | ⟨c1, l⟩; · simp [mCode] at h
    rcases l with _ | ⟨c2, l⟩; · simp [mCode] at h
    rcases l with _ | ⟨c3, rest⟩; · simp [mCode] at h
    rw [mCode_eq] at h
    simp only [Bool.false_eq_true, if_false] at h
    split_ifs at h
    simp only [Option.some.injEq] at h
    omega
  · simp [mCode_true] at h

theorem mWs_some_len {p : Bool} {l : List Char} {n : Nat}
    (h : mWs p l = some n) : n = (l.takeWhile isPyWs).length ∧ 1 ≤ n := by
  unfold mWs at h
  dsimp only at h
  split_ifs at h with h0
  simp only [Option.some.injEq] at h
  omega

theorem mWs_pos {p : Bool} {l : List Char} {n : Nat}
    (h : mWs p l = some n) : 0 < n := (mWs_some_len h).2

theorem mAmount_pos {p : Bool} {l : List Char} {n : Nat}
    (h : mAmount p l = some n) : 0 < n := by
  unfold mAmount at h
  dsimp only at h
  split_ifs at h with h0
  rcases hd : l.drop (l.takeWhile Char.isDigit).length with _ | ⟨c, r2⟩ <;>
    (rw [hd] at h; dsimp only at h)
  · simp only [Option.some.injEq] at h; omega
  · split_ifs at h <;> (simp only [Option.some.injEq] at h; omega)

theorem mDate_pos {p : Bool} {l : List Char} {n : Nat}
    (h : mDate p l = some n) : 0 < n := by
  unfold mDate at h
  dsimp only at h
  repeat' split at h
  all_goals first | (simp only [Option.some.injEq] at h; omega) | simp at h

theorem mInv_pos {p : Bool} {l : List Char} {n : Nat}
    (h : mInv p l = some n) : 0 < n := by
  unfold mInv mInvoice at h
  dsimp only at h
  split_ifs at h
  simp only [Option.some.injEq] at h
  omega

theorem go_Tr (s : Matcher) (R : List Char)
    (hpos : ∀ p l n, s p l = some n → 0 < n) :
    ∀ (N : Nat) (l : List Char), l.length ≤ N → ∀ p, Tr s R p l (go s R 0 p l)
  | _, [], _, p => by rw [go_nil]; exact Tr.nil p
  | 0, c :: cs, h, p => by simp at h
  | N+1, c :: cs, h, p => by
    have hlen : cs.length ≤ N := by simp only [List.length_cons] at h; omega
    rcases hm : s p (c :: cs) with _ | n
    · rw [go_zero_eq, hm]
      exact Tr.copy p c cs _ hm (go_Tr s R hpos N cs hlen (isWordChar c))
    · rcases n with _ | n
      · exact absurd (hpos _ _ _ hm) (by simp)
      · rw [go_zero_eq, hm]
        refine Tr.skip p c cs _ n hm ?_
        have hctx : ctxList p ((c :: cs).take (n+1)) =
            ctxList (isWordChar c) (cs.take n) := by
          rw [List.take_succ_cons, ctxList_cons]
        rw [hctx, go_skip_eq]
        exact go_Tr s R hpos N (cs.drop n)
          (le_trans (by rw [List.length_drop]; omega) hlen) _

theorem subst_Tr (s : Matcher) (R : List Char)
    (hpos : ∀ p l n, s p l = some n → 0 < n) (l : List Char) :
    Tr s R false l (subst s R l) :=
  go_Tr s R hpos l.length l le_rfl false

theorem noMatchB_id (m : Matcher) (r : List Char) :
    ∀ (l : List Char) (p : Bool), noMatchB m p l = true → go m r 0 p l = l
  | [], p, _ => rfl
  | c :: cs, p, h => by
    simp only [noMatchB, Bool.and_eq_true, Option.isNone_iff_eq_none] at h
    rw [go_zero_eq, h.1]
    exact congrArg (c :: ·) (noMatchB_id m r cs (isWordChar c) h.2)

theorem noMatchB_drop (m : Matcher) :
    ∀ (k : Nat) (l : List Char) (p : Bool), noMatchB m p l = true →
      noMatchB m (ctxList p (l.take k)) (l.drop k) = true
  | 0, l, p, h => by simpa [ctxList] using h
  | k+1, [], p, h => by simpa [ctxList] using h
  | k+1, c :: cs, p, h => by
    simp only [noMatchB, Bool.and_eq_true] at h
    rw [List.take_succ_cons, List.drop_succ_cons, ctxList_cons]
    exact noMatchB_drop m k cs (isWordChar c) h.2

theorem noMatchB_ctxfree {m : Matcher} (hm : ∀ p q l, m p l = m q l) :
    ∀ (l : List Char) (p q : Bool), noMatchB m p l = noMatchB m q l
  | [], _, _ => rfl
  | c :: cs, p, q => by
    simp only [noMatchB]
    rw [hm p q (c :: cs)]

/-! ### The lowercasing table -/

theorem lc_eq_or (c : Char) : lc c = c ∨ (c, lc c) ∈ lcPairs := by
  unfold lc
  by_cases h1 : c = 'A'
  · subst h1; right; decide
  · rw [if_neg h1]
    by_cases h2 : c = 'B'
    · subst h2; right; decide
    · rw [if_neg h2]
      by_cases h3 : c = 'C'
      · subst h3; right; decide
      · rw [if_neg h3]
        by_cases h4 : c = 'D'
        · subst h4; right; decide
        · rw [if_neg h4]
          by_cases h5 : c = 'E'
          · subst h5; right; decide
          · rw [if_neg h5]
            by_cases h6 : c = 'F'
            · subst h6; right; decide
            · rw [if_neg h6]
              by_cases h7 : c = 'G'
              · subst h7; right; decide
              · rw [if_neg h7]
                by_cases h8 : c = 'H'
                · subst h8; right; decide
                · rw [if_neg h8]
                  by_cases h9 : c = 'I'
                  · subst h9; right; decide
                  · rw [if_neg h9]
                    by_cases h10 : c = 'J'
                    · subst h10; right; decide
                    · rw [if_neg h10]
                      by_cases h11 : c = 'K'
                      · subst h11; right; decide
                      · rw [if_neg h11]
                        by_cases h12 : c = 'L'
                        · subst h12; right; decide
                        · rw [if_neg h12]
                          by_cases h13 : c = 'M'
                          · subst h13; right; decide
                          · rw [if_neg h13]
                            by_cases h14 : c = 'N'
                            · subst h14; right; decide
                            · rw [if_neg h14]
                              by_cases h15 : c = 'O'
                              · subst h15; right; decide
                              · rw [if_neg h15]
                                by_cases h16 : c = 'P'
                                · subst h16; right; decide
                                · rw [if_neg h16]
                                  by_cases h17 : c = 'Q'
                                  · subst h17; right; decide
                                  · rw [if_neg h17]
                                    by_cases h18 : c = 'R'
                                    · subst h18; right; decide
                                    · rw [if_neg h18]
                                      by_cases h19 : c = 'S'
                                      · subst h19; right; decide
                                      · rw [if_neg h19]
                                        by_cases h20 : c = 'T'
                                        · subst h20; right; decide
                                        · rw [if_neg h20]
                                          by_cases h21 : c = 'U'
                                          · subst h21; right; decide
                                          · rw [if_neg h21]
                                            by_cases h22 : c = 'V'
                                            · subst h22; right; decide
                                            · rw [if_neg h22]
                                              by_cases h23 : c = 'W'
                                              · subst h23; right; decide
                                              · rw [if_neg h23]
                                                by_cases h24 : c = 'X'
                                                · subst h24; right; decide
                                                · rw [if_neg h24]
                                                  by_cases h25 : c = 'Y'
                                                  · subst h25; right; decide
                                                  · rw [if_neg h25]
                                                    by_cases h26 : c = 'Z'
                                                    · subst h26; right; decide
                                                    · rw [if_neg h26]
                                                      by_cases h27 : c = 'Π'
                                                      · subst h27; right; decide
                                                      · rw [if_neg h27]
                                                        exact Or.inl rfl

theorem lc_idem (c : Char) : lc (lc c) = lc c := by
  rcases lc_eq_or c with h | h
  · rw [h]; exact h
  · exact (show ∀ q ∈ lcPairs, lc q.2 = q.2 by decide) (c, lc c) h

theorem lc_ws (c : Char) : isPyWs (lc c) = isPyWs c := by
  rcases lc_eq_or c with h | h
  · rw [h]
  · exact (show ∀ q ∈ lcPairs, isPyWs q.2 = isPyWs q.1 by decide) (c, lc c) h

theorem lc_word (c : Char) : isWordChar (lc c) = isWordChar c := by
  rcases lc_eq_or c with h | h
  · rw [h]
  · exact (show ∀ q ∈ lcPairs, isWordChar q.2 = isWordChar q.1 by decide) (c, lc c) h

theorem lc_digit (c : Char) : (lc c).isDigit = c.isDigit := by
  rcases lc_eq_or c with h | h
  · rw [h]
  · exact (show ∀ q ∈ lcPairs, q.2.isDigit = q.1.isDigit by decide) (c, lc c) h

theorem lc_class (c : Char) : isClassChar (lc c) = isClassChar c := by
  rcases lc_eq_or c with h | h
  · rw [h]
  · exact (show ∀ q ∈ lcPairs, isClassChar q.2 = isClassChar q.1 by decide) (c, lc c) h

theorem lc_hash (c : Char) : (lc c == '#') = (c == '#') := by
  rcases lc_eq_or c with h | h
  · rw [h]
  · exact (show ∀ q ∈ lcPairs, (q.2 == '#') = (q.1 == '#') by decide) (c, lc c) h

theorem lc_colon (c : Char) : (lc c == ':') = (c == ':') := by
  rcases lc_eq_or c with h | h
  · rw [h]
  · exact (show ∀ q ∈ lcPairs, (q.2 == ':') = (q.1 == ':') by decide) (c, lc c) h

theorem lc_pi {c : Char} (h : lc c = 'π') : c = 'Π' ∨ c = 'π' := by
  rcases lc_eq_or c with h2 | h2
  · right; rw [← h2]; exact h
  · left; exact (show ∀ q ∈ lcPairs, q.2 = 'π' → q.1 = 'Π' by decide) (c, lc c) h2 h

theorem lc_i {c : Char} (h : lc c = 'i') : c = 'i' ∨ c = 'I' := by
  rcases lc_eq_or c with h2 | h2
  · left; rw [← h2]; exact h
  · right; exact (show ∀ q ∈ lcPairs, q.2 = 'i' → q.1 = 'I' by decide) (c, lc c) h2 h

theorem lc_sym {c : Char} (h : detSyms.contains c = false) (hp : c ≠ 'Π') :
    detSyms.contains (lc c) = false := by
  rcases lc_eq_or c with h2 | h2
  · rw [h2]; exact h
  · exact (show ∀ q ∈ lcPairs, q.1 ≠ 'Π' → detSyms.contains q.2 = false
      by decide) (c, lc c) h2 hp

theorem lower_lower (l : List Char) : lower (lower l) = lower l := by
  unfold lower
  rw [List.map_map]
  exact List.map_congr_left fun a _ => lc_idem a

/-! ### Character-class facts -/

theorem ws_not_word {c : Char} (h : isPyWs c = true) : isWordChar c = false := by
  simp only [isPyWs, Bool.or_eq_true, beq_iff_eq] at h
  rcases h with ((((h|h)|h)|h)|h)|h <;> subst h <;> decide

theorem ws_not_class {c : Char} (h : isPyWs c = true) : isClassChar c = false := by
  simp only [isPyWs, Bool.or_eq_true, beq_iff_eq] at h
  rcases h with ((((h|h)|h)|h)|h)|h <;> subst h <;> decide

theorem ws_not_digit {c : Char} (h : isPyWs c = true) : c.isDigit = false := by
  simp only [isPyWs, Bool.or_eq_true, beq_iff_eq] at h
  rcases h with ((((h|h)|h)|h)|h)|h <;> subst h <;> decide

theorem digit_class {c : Char} (h : c.isDigit = true) : isClassChar c = true := by
  simp [isClassChar, h]

theorem class_not_ws {c : Char} (h : isClassChar c = true) : isPyWs c = false := by
  cases hw : isPyWs c
  · rfl
  · rw [ws_not_class hw] at h
    exact absurd h (by simp)

theorem digit_not_ws {c : Char} (h : c.isDigit = true) : isPyWs c = false := by
  cases hw : isPyWs c
  · rfl
  · rw [ws_not_digit hw] at h
    exact absurd h (by simp)

theorem digit_word {c : Char} (h : c.isDigit = true) : isWordChar c = true := by
  simp [isWordChar, Char.isAlphanum, h]

/-! ### List helpers -/

theorem takeWhile_drop (q : Char → Bool) :
    ∀ l : List Char, l.drop (l.takeWhile q).length = l.dropWhile q
  | [] => rfl
  | c :: cs => by
    cases hq : q c
    · simp [List.takeWhile_cons, List.dropWhile_cons, hq]
    · simp [List.takeWhile_cons, List.dropWhile_cons, hq, takeWhile_drop q cs]

theorem headNotWs_dropWhile :
    ∀ l : List Char, headNotWs (l.dropWhile isPyWs) = true
  | [] => rfl
  | c :: cs => by
    cases hc : isPyWs c
    · simp [List.dropWhile_cons, hc, headNotWs]
    · simp [List.dropWhile_cons, hc, headNotWs_dropWhile cs]

theorem mem_dropWhile (q : Char → Bool) :
    ∀ (l : List Char) (c : Char), c ∈ l.dropWhile q → c ∈ l
  | [], c, h => h
  | a :: as, c, h => by
    cases hq : q a
    · rw [List.dropWhile_cons, hq] at h
      simpa using h
    · rw [List.dropWhile_cons, hq] at h
      exact List.mem_cons_of_mem a (mem_dropWhile q as c h)

theorem mem_takeWhile (q : Char → Bool) :
    ∀ (l : List Char) (c : Char), c ∈ l.takeWhile q → q c = true
  | [], c, h => absurd h (List.not_mem_nil c)
  | a :: as, c, h => by
    cases hq : q a
    · rw [List.takeWhile_cons, hq] at h
      exact absurd h (List.not_mem_nil c)
    · rw [List.takeWhile_cons, hq] at h
      rcases List.mem_cons.mp h with h | h
      · rwa [h]
      · exact mem_takeWhile q as c h

theorem go_chars (m : Matcher) (r : List Char) :
    ∀ (l : List Char) (k : Nat) (p : Bool) (c : Char),
      c ∈ go m r k p l → c ∈ l ∨ c ∈ r
  | [], k, p, c => by
    rw [go_nil]
    exact fun h => absurd h (List.not_mem_nil c)
  | a :: as, k+1, p, c => by
    rw [go_succ]
    exact fun h => (go_chars m r as k (isWordChar a) c h).imp
      (List.mem_cons_of_mem a) id
  | a :: as, 0, p, c => by
    rw [go_zero_eq]
    rcases hm : m p (a :: as) with _ | n
    · intro h
      rcases List.mem_cons.mp h with h | h
      · exact Or.inl (h ▸ List.mem_cons_self a as)
      · exact (go_chars m r as 0 (isWordChar a) c h).imp
          (List.mem_cons_of_mem a) id
    · rcases n with _ | n
      · intro h
        rcases List.mem_cons.mp h with h | h
        · exact Or.inl (h ▸ List.mem_cons_self a as)
        · exact (go_chars m r as 0 (isWordChar a) c h).imp
            (List.mem_cons_of_mem a) id
      · intro h
        rcases List.mem_append.mp h with h | h
        · exact Or.inr h
        · exact (go_chars m r as n (isWordChar a) c h).imp
            (List.mem_cons_of_mem a) id

theorem strip_chars {l : List Char} {c : Char} (h : c ∈ strip l) : c ∈ l := by
  unfold strip at h
  rw [List.mem_reverse] at h
  have h2 := mem_dropWhile _ _ _ h
  rw [List.mem_reverse] at h2
  exact mem_dropWhile _ _ _ h2

theorem strip_decomp (l : List Char) :
    ∃ w1 w2, l = w1 ++ strip l ++ w2 ∧ (∀ c ∈ w1, isPyWs c = true) ∧
      (∀ c ∈ w2, isPyWs c = true) := by
  refine ⟨l.takeWhile isPyWs,
    ((l.dropWhile isPyWs).reverse.takeWhile isPyWs).reverse, ?_, ?_, ?_⟩
  · conv_lhs => rw [← List.takeWhile_append_dropWhile (p := isPyWs) (l := l)]
    rw [List.append_assoc]
    congr 1
    conv_lhs =>
      rw [← List.reverse_reverse (l.dropWhile isPyWs),
        ← List.takeWhile_append_dropWhile (p := isPyWs)
          (l := (l.dropWhile isPyWs).reverse)]
    rw [List.reverse_append]
    rfl
  · exact fun c hc => mem_takeWhile _ _ _ hc
  · intro c hc
    rw [List.mem_reverse] at hc
    exact mem_takeWhile _ _ _ hc

theorem dropWhile_append_ne (q : Char → Bool) :
    ∀ (l w : List Char), l.dropWhile q ≠ [] →
      (l ++ w).dropWhile q = l.dropWhile q ++ w
  | [], w, h => absurd rfl h
  | c :: cs, w, h => by
    cases hq : q c
    · simp [List.dropWhile_cons, hq]
    · have h2 : List.dropWhile q cs ≠ [] := by
        rw [List.dropWhile_cons, hq] at h
        simpa using h
      simp [List.dropWhile_cons, hq, dropWhile_append_ne q cs w h2]

theorem takeWhile_append_ne (q : Char → Bool) :
    ∀ (l w : List Char), l.dropWhile q ≠ [] →
      (l ++ w).takeWhile q = l.takeWhile q
  | [], w, h => absurd rfl h
  | c :: cs, w, h => by
    cases hq : q c
    · simp [List.takeWhile_cons, hq]
    · have h2 : List.dropWhile q cs ≠ [] := by
        rw [List.dropWhile_cons, hq] at h
        simpa using h
      simp [List.takeWhile_cons, hq, takeWhile_append_ne q cs w h2]

theorem all_of_dropWhile_nil (q : Char → Bool) :
    ∀ l : List Char, l.dropWhile q = [] → ∀ c ∈ l, q c = true
  | [], _, c, hc => absurd hc (List.not_mem_nil c)
  | a :: as, h, c, hc => by
    cases hq : q a
    · rw [List.dropWhile_cons, hq] at h
      exact absurd h (by simp)
    · rw [List.dropWhile_cons, hq] at h
      rcases List.mem_cons.mp hc with hc | hc
      · rwa [hc]
      · exact all_of_dropWhile_nil q as h c hc

theorem takeWhile_append_all (q : Char → Bool) :
    ∀ (l w : List Char), (∀ c ∈ l, q c = true) →
      (l ++ w).takeWhile q = l ++ w.takeWhile q
  | [], w, _ => rfl
  | c :: cs, w, h => by
    have hc : q c = true := h c (List.mem_cons_self c cs)
    simp [List.takeWhile_cons, hc,
      takeWhile_append_all q cs w fun d hd => h d (List.mem_cons_of_mem c hd)]

/-! ### The whitespace normal form -/

theorem take_takeWhile (q : Char → Bool) :
    ∀ l : List Char, l.take (l.takeWhile q).length = l.takeWhile q
  | [] => rfl
  | c :: cs => by
    cases hq : q c
    · simp [List.takeWhile_cons, hq]
    · simp [List.takeWhile_cons, hq, take_takeWhile q cs]

theorem mWs_none_of {p : Bool} {c : Char} {cs : List Char}
    (h : isPyWs c = false) : mWs p (c :: cs) = none := by
  simp [mWs, List.takeWhile_cons, h]

theorem mWs_some_of {p : Bool} {c : Char} {cs : List Char}
    (h : isPyWs c = true) :
    mWs p (c :: cs) = some ((cs.takeWhile isPyWs).length + 1) := by
  simp [mWs, List.takeWhile_cons, h]

theorem mWs_some_head {p : Bool} {l : List Char} {n : Nat}
    (h : mWs p l = some n) : ∃ c cs, l = c :: cs ∧ isPyWs c = true := by
  rcases l with _ | ⟨c, cs⟩
  · simp [mWs] at h
  · cases hc : isPyWs c
    · rw [mWs_none_of hc] at h
      exact absurd h (by simp)
    · exact ⟨c, cs, rfl, hc⟩

theorem mWs_take_ws {p : Bool} {l : List Char} {n : Nat}
    (h : mWs p l = some n) : ∀ d ∈ l.take n, isPyWs d = true := by
  rcases mWs_some_len h with ⟨hn, -⟩
  subst hn
  rw [take_takeWhile]
  exact fun d hd => mem_takeWhile _ _ _ hd

theorem wsn_cons_nonws {c : Char} (cs : List Char) (hc : isPyWs c = false) :
    wsn (c :: cs) = wsn cs := by
  simp [wsn, hc]

theorem wsn_ws_head {c : Char} {cs : List Char} (hc : isPyWs c = true)
    (h : wsn (c :: cs) = true) :
    c = ' ' ∧ wsn cs = true ∧ headNotWs cs = true := by
  unfold wsn at h
  rw [if_pos hc] at h
  simp only [Bool.and_eq_true, beq_iff_eq] at h
  rcases cs with _ | ⟨d, ds⟩
  · exact ⟨h.1.1, h.2, rfl⟩
  · refine ⟨h.1.1, h.2, ?_⟩
    have h2 := h.1.2
    simpa [headNotWs] using h2

theorem wsn_build_ws {cs : List Char} (h1 : wsn cs = true)
    (h2 : headNotWs cs = true) : wsn (' ' :: cs) = true := by
  unfold wsn
  rw [if_pos (show isPyWs ' ' = true from rfl)]
  simp only [Bool.and_eq_true, beq_iff_eq]
  rcases cs with _ | ⟨d, ds⟩
  · exact ⟨⟨trivial, rfl⟩, h1⟩
  · exact ⟨⟨trivial, by simpa [headNotWs] using h2⟩, h1⟩

theorem subst_mWs_id :
    ∀ (l : List Char), wsn l = true → ∀ p, go mWs [' '] 0 p l = l
  | [], _, p => rfl
  | c :: cs, h, p => by
    cases hc : isPyWs c
    · rw [go_zero_eq, mWs_none_of hc]
      rw [wsn_cons_nonws cs hc] at h
      exact congrArg (c :: ·) (subst_mWs_id cs h (isWordChar c))
    · obtain ⟨hsp, hw, hh⟩ := wsn_ws_head hc h
      rcases cs with _ | ⟨d, ds⟩
      · rw [go_zero_eq, mWs_some_of hc]
        subst hsp
        rfl
      · have hd : isPyWs d = false := by simpa [headNotWs] using hh
        rw [go_zero_eq, mWs_some_of hc]
        have : (List.takeWhile isPyWs (d :: ds)).length = 0 := by
          simp [List.takeWhile_cons, hd]
        rw [this]
        subst hsp
        exact congrArg (' ' :: ·) (subst_mWs_id (d :: ds) hw (isWordChar ' '))

theorem wsn_lower : ∀ l : List Char, wsn l = true → wsn (lower l) = true
  | [], _ => rfl
  | c :: cs, h => by
    cases hc : isPyWs c
    · rw [wsn_cons_nonws cs hc] at h
      show wsn (lc c :: lower cs) = true
      rw [wsn_cons_nonws (lower cs) (by rw [lc_ws]; exact hc)]
      exact wsn_lower cs h
    · obtain ⟨hsp, hw, hh⟩ := wsn_ws_head hc h
      subst hsp
      show wsn (lc ' ' :: lower cs) = true
      have hsp2 : lc ' ' = ' ' := rfl
      rw [hsp2]
      refine wsn_build_ws (wsn_lower cs hw) ?_
      rcases cs with _ | ⟨d, ds⟩
      · rfl
      · show headNotWs (lc d :: lower ds) = true
        simp only [headNotWs, lc_ws]
        simpa [headNotWs] using hh

theorem headNotWs_lower {l : List Char} (h : headNotWs l = true) :
    headNotWs (lower l) = true := by
  rcases l with _ | ⟨c, cs⟩
  · rfl
  · show headNotWs (lc c :: lower cs) = true
    simp only [headNotWs, lc_ws]
    simpa [headNotWs] using h

theorem lower_reverse (l : List Char) : (lower l).reverse = lower l.reverse := by
  simp [lower, List.map_reverse]

theorem lastNotWs_lower {l : List Char} (h : lastNotWs l = true) :
    lastNotWs (lower l) = true := by
  unfold lastNotWs
  rw [lower_reverse]
  exact headNotWs_lower h

theorem dropWhile_of_headNotWs {l : List Char} (h : headNotWs l = true) :
    l.dropWhile isPyWs = l := by
  rcases l with _ | ⟨c, cs⟩
  · rfl
  · have hc : isPyWs c = false := by simpa [headNotWs] using h
    simp [List.dropWhile_cons, hc]

theorem strip_eq_self {l : List Char} (h1 : headNotWs l = true)
    (h2 : lastNotWs l = true) : strip l = l := by
  unfold strip
  rw [dropWhile_of_headNotWs h1, dropWhile_of_headNotWs h2,
    List.reverse_reverse]

theorem lower_of_lower (l : List Char) : lower (lower l) = lower l :=
  lower_lower l

theorem headNotWs_append {a : List Char} (b : List Char) (h : a ≠ []) :
    headNotWs (a ++ b) = headNotWs a := by
  rcases a with _ | ⟨c, cs⟩
  · exact absurd rfl h
  · rfl

theorem lastNotWs_cons_ne (c : Char) {cs : List Char} (h : cs ≠ []) :
    lastNotWs (c :: cs) = lastNotWs cs := by
  unfold lastNotWs
  rw [List.reverse_cons]
  exact headNotWs_append [c] (by simpa using h)

theorem lastNotWs_singleton (c : Char) : lastNotWs [c] = !isPyWs c := rfl

theorem dropWhile_last {l : List Char} (h : lastNotWs l = true) :
    lastNotWs (l.dropWhile isPyWs) = true := by
  induction l with
  | nil => exact h
  | cons c cs ih =>
    cases hc : isPyWs c
    · rwa [dropWhile_of_headNotWs (by simp [headNotWs, hc])]
    · rcases cs with _ | ⟨d, ds⟩
      · rw [lastNotWs_singleton, hc] at h
        exact absurd h (by simp)
      · rw [lastNotWs_cons_ne c (by simp)] at h
        rw [List.dropWhile_cons, hc]
        simpa using ih h

theorem dropWhile_ne_nil_of_last {l : List Char} (h : lastNotWs l = true)
    (hne : l ≠ []) : l.dropWhile isPyWs ≠ [] := by
  induction l with
  | nil => exact absurd rfl hne
  | cons c cs ih =>
    cases hc : isPyWs c
    · rw [dropWhile_of_headNotWs (by simp [headNotWs, hc])]
      simp
    · rcases cs with _ | ⟨d, ds⟩
      · rw [lastNotWs_singleton, hc] at h
        exact absurd h (by simp)
      · rw [lastNotWs_cons_ne c (by simp)] at h
        rw [List.dropWhile_cons, hc]
        simpa using ih h (by simp)

theorem go_mWs_ne_nil {l : List Char} (hne : l ≠ []) (p : Bool) :
    go mWs [' '] 0 p l ≠ [] := by
  rcases l with _ | ⟨c, cs⟩
  · exact absurd rfl hne
  · cases hc : isPyWs c
    · rw [go_zero_eq, mWs_none_of hc]
      simp
    · rw [go_zero_eq, mWs_some_of hc]
      simp

theorem go_mWs_head {l : List Char} (h : headNotWs l = true) (p : Bool) :
    headNotWs (go mWs [' '] 0 p l) = true := by
  rcases l with _ | ⟨c, cs⟩
  · exact h
  · have hc : isPyWs c = false := by simpa [headNotWs] using h
    rw [go_zero_eq, mWs_none_of hc]
    simpa [headNotWs] using h

theorem go_mWs_ws_step {c : Char} {cs : List Char} (hc : isPyWs c = true)
    (p : Bool) :
    go mWs [' '] 0 p (c :: cs) =
      ' ' :: go mWs [' '] 0 (ctxList (isWordChar c) (cs.takeWhile isPyWs))
        (cs.dropWhile isPyWs) := by
  rw [go_zero_eq, mWs_some_of hc]
  show ' ' :: go mWs [' '] ((cs.takeWhile isPyWs).length) (isWordChar c) cs = _
  rw [go_skip_eq, take_takeWhile, takeWhile_drop]

theorem go_mWs_wsn :
    ∀ (N : Nat) (l : List Char), l.length ≤ N → ∀ p,
      wsn (go mWs [' '] 0 p l) = true
  | _, [], _, _ => rfl
  | 0, c :: cs, h, p => by simp at h
  | N+1, c :: cs, h, p => by
    have hlen : cs.length ≤ N := by simp only [List.length_cons] at h; omega
    cases hc : isPyWs c
    · rw [go_zero_eq, mWs_none_of hc]
      rw [wsn_cons_nonws _ hc]
      exact go_mWs_wsn N cs hlen (isWordChar c)
    · rw [go_mWs_ws_step hc]
      have hrest : (cs.dropWhile isPyWs).length ≤ N :=
        le_trans (List.Sublist.length_le (List.dropWhile_sublist _)) hlen
      refine wsn_build_ws (go_mWs_wsn N _ hrest _) ?_
      exact go_mWs_head (headNotWs_dropWhile cs) _

theorem go_mWs_last :
    ∀ (N : Nat) (l : List Char), l.length ≤ N → lastNotWs l = true → ∀ p,
      lastNotWs (go mWs [' '] 0 p l) = true
  | _, [], _, h, _ => h
  | 0, c :: cs, h, _, p => by simp at h
  | N+1, c :: cs, h, hl, p => by
    have hlen : cs.length ≤ N := by simp only [List.length_cons] at h; omega
    cases hc : isPyWs c
    · rw [go_zero_eq, mWs_none_of hc]
      rcases cs with _ | ⟨d, ds⟩
      · rw [go_nil]
        rw [lastNotWs_singleton, hc] at hl ⊢
        exact hl
      · rw [lastNotWs_cons_ne c (by simp)] at hl
        rw [lastNotWs_cons_ne c (go_mWs_ne_nil (by simp) _)]
        exact go_mWs_last N (d :: ds) hlen hl _
    · rw [go_mWs_ws_step hc]
      have hne : (c :: cs).dropWhile isPyWs ≠ [] :=
        dropWhile_ne_nil_of_last hl (by simp)
      have hdw : (c :: cs).dropWhile isPyWs = cs.dropWhile isPyWs := by
        simp [List.dropWhile_cons, hc]
      rw [hdw] at hne
      have hrest : (cs.dropWhile isPyWs).length ≤ N :=
        le_trans (List.Sublist.length_le (List.dropWhile_sublist _)) hlen
      have hlast : lastNotWs (cs.dropWhile isPyWs) = true := by
        have := dropWhile_last hl
        rwa [hdw] at this
      rw [lastNotWs_cons_ne ' ' (go_mWs_ne_nil hne _)]
      exact go_mWs_last N _ hrest hlast _

/-! ### Symbol- and digit-freeness of normalized text -/

theorem mSym_none_of {syms : List Char} {p : Bool} {a : Char} {as : List Char}
    (h : syms.contains a = false) : mSym syms p (a :: as) = none := by
  have h2 : a ∉ syms := by simpa using h
  simp [mSym, h2]

theorem mSym_some_of {syms : List Char} {p : Bool} {a : Char} {as : List Char}
    (h : syms.contains a = true) : mSym syms p (a :: as) = some 1 := by
  have h2 : a ∈ syms := by simpa using h
  simp [mSym, h2]

theorem tokCUR_no_syms : ∀ c ∈ tokCURRENCY, detSyms.contains c = false := by
  decide

theorem S1_no_syms :
    ∀ (l : List Char) (k : Nat) (p : Bool) (c : Char),
      c ∈ go (mSym detSyms) tokCURRENCY k p l → detSyms.contains c = false
  | [], k, p, c => by
    rw [go_nil]
    exact fun h => absurd h (List.not_mem_nil c)
  | a :: as, k+1, p, c => by
    rw [go_succ]
    exact S1_no_syms as k (isWordChar a) c
  | a :: as, 0, p, c => by
    rw [go_zero_eq]
    cases hcon : detSyms.contains a
    · rw [mSym_none_of hcon]
      intro h
      rcases List.mem_cons.mp h with h | h
      · rwa [h]
      · exact S1_no_syms as 0 (isWordChar a) c h
    · rw [mSym_some_of hcon]
      intro h
      rcases List.mem_append.mp h with h | h
      · exact tokCUR_no_syms c h
      · exact S1_no_syms as 0 (isWordChar a) c h

theorem mAmount_none_head {p : Bool} {a : Char} {as : List Char}
    (hm : mAmount p (a :: as) = none) : a.isDigit = false := by
  cases hd : a.isDigit
  · rfl
  · exfalso
    unfold mAmount at hm
    dsimp only at hm
    simp only [List.takeWhile_cons, hd, if_true, List.length_cons] at hm
    rw [if_neg (by omega)] at hm
    repeat' split at hm
    all_goals simp at hm

theorem mAmount_none_of_head {p : Bool} {a : Char} {as : List Char}
    (hd : a.isDigit = false) : mAmount p (a :: as) = none := by
  unfold mAmount
  dsimp only
  simp [List.takeWhile_cons, hd]

theorem mDate_none_of_head {p : Bool} {a : Char} {as : List Char}
    (hd : a.isDigit = false) : mDate p (a :: as) = none := by
  unfold mDate
  dsimp only
  simp [List.takeWhile_cons, hd]

theorem tokAMOUNT_no_digits : ∀ c ∈ tokAMOUNT, c.isDigit = false := by
  decide

theorem S5_no_digits :
    ∀ (l : List Char) (k : Nat) (p : Bool) (c : Char),
      c ∈ go mAmount tokAMOUNT k p l → c.isDigit = false
  | [], k, p, c => by
    rw [go_nil]
    exact fun h => absurd h (List.not_mem_nil c)
  | a :: as, k+1, p, c => by
    rw [go_succ]
    exact S5_no_digits as k (isWordChar a) c
  | a :: as, 0, p, c => by
    rw [go_zero_eq]
    rcases hm : mAmount p (a :: as) with _ | n
    · intro h
      rcases List.mem_cons.mp h with h | h
      · rw [h]
        exact mAmount_none_head hm
      · exact S5_no_digits as 0 (isWordChar a) c h
    · rcases n with _ | n
      · exact absurd (mAmount_pos hm) (by simp)
      · intro h
        rcases List.mem_append.mp h with h | h
        · exact tokAMOUNT_no_digits c h
        · exact S5_no_digits as n (isWordChar a) c h

theorem not_mem_go {x : Char} {m : Matcher} {r l : List Char} {k : Nat}
    {p : Bool} (hl : x ∉ l) (hr : x ∉ r) : x ∉ go m r k p l :=
  fun hm => (go_chars m r l k p x hm).elim hl hr

theorem not_mem_strip {x : Char} {l : List Char} (h : x ∉ l) : x ∉ strip l :=
  fun hm => h (strip_chars hm)

theorem no_digit_go {m : Matcher} {r l : List Char} {k : Nat} {p : Bool}
    (hl : ∀ c ∈ l, c.isDigit = false) (hr : ∀ c ∈ r, c.isDigit = false) :
    ∀ c ∈ go m r k p l, c.isDigit = false :=
  fun c hc => (go_chars m r l k p c hc).elim (hl c) (hr c)

theorem no_sym_go {m : Matcher} {r l : List Char} {k : Nat} {p : Bool}
    (hl : ∀ c ∈ l, detSyms.contains c = false)
    (hr : ∀ c ∈ r, detSyms.contains c = false) :
    ∀ c ∈ go m r k p l, detSyms.contains c = false :=
  fun c hc => (go_chars m r l k p c hc).elim (hl c) (hr c)

theorem no_digit_strip {l : List Char} (h : ∀ c ∈ l, c.isDigit = false) :
    ∀ c ∈ strip l, c.isDigit = false :=
  fun c hc => h c (strip_chars hc)

theorem no_sym_strip {l : List Char} (h : ∀ c ∈ l, detSyms.contains c = false) :
    ∀ c ∈ strip l, detSyms.contains c = false :=
  fun c hc => h c (strip_chars hc)

theorem no_digit_lower {l : List Char} (h : ∀ c ∈ l, c.isDigit = false) :
    ∀ c ∈ lower l, c.isDigit = false := by
  intro c hc
  obtain ⟨d, hd, rfl⟩ := List.mem_map.mp hc
  rw [lc_digit]
  exact h d hd

theorem no_sym_lower {l : List Char} (h : ∀ c ∈ l, detSyms.contains c = false)
    (hp : 'Π' ∉ l) : ∀ c ∈ lower l, detSyms.contains c = false := by
  intro c hc
  obtain ⟨d, hd, rfl⟩ := List.mem_map.mp hc
  exact lc_sym (h d hd) (fun he => hp (he ▸ hd))

theorem noMatch_sym {l : List Char} (h : ∀ c ∈ l, detSyms.contains c = false) :
    ∀ p, noMatchB (mSym detSyms) p l = true := by
  induction l with
  | nil => exact fun p => rfl
  | cons c cs ih =>
    intro p
    simp only [noMatchB, Bool.and_eq_true]
    refine ⟨?_, ih (fun d hd => h d (List.mem_cons_of_mem c hd)) _⟩
    rw [mSym_none_of (h c (List.mem_cons_self c cs))]
    rfl

theorem noMatch_date {l : List Char} (h : ∀ c ∈ l, c.isDigit = false) :
    ∀ p, noMatchB mDate p l = true := by
  induction l with
  | nil => exact fun p => rfl
  | cons c cs ih =>
    intro p
    simp only [noMatchB, Bool.and_eq_true]
    refine ⟨?_, ih (fun d hd => h d (List.mem_cons_of_mem c hd)) _⟩
    rw [mDate_none_of_head (h c (List.mem_cons_self c cs))]
    rfl

theorem noMatch_amount {l : List Char} (h : ∀ c ∈ l, c.isDigit = false) :
    ∀ p, noMatchB mAmount p l = true := by
  induction l with
  | nil => exact fun p => rfl
  | cons c cs ih =>
    intro p
    simp only [noMatchB, Bool.and_eq_true]
    refine ⟨?_, ih (fun d hd => h d (List.mem_cons_of_mem c hd)) _⟩
    rw [mAmount_none_of_head (h c (List.mem_cons_self c cs))]
    rfl

/-! ### No currency-code match in normalized text -/

theorem mCode_some_inv {p : Bool} {l : List Char} {n : Nat}
    (h : mCode p l = some n) :
    p = false ∧ n = 3 ∧ ∃ c1 c2 c3 rest, l = c1 :: c2 :: c3 :: rest ∧
      isCode3 c1 c2 c3 = true ∧
      (match rest with | [] => true | d :: _ => !isWordChar d) = true := by
  cases p
  · rcases l with _ | ⟨c1, l⟩; · simp [mCode] at h
    rcases l with _ | ⟨c2, l⟩; · simp [mCode] at h
    rcases l with _ | ⟨c3, rest⟩; · simp [mCode] at h
    rw [mCode_eq] at h
    simp only [Bool.false_eq_true, if_false] at h
    split_ifs at h with hc
    simp only [Option.some.injEq] at h
    simp only [Bool.and_eq_true] at hc
    exact ⟨rfl, h.symm, c1, c2, c3, rest, rfl, hc.1, hc.2⟩
  · rw [mCode_true] at h
    exact absurd h (by simp)

theorem code3_word {a b c : Char} (h : isCode3 a b c = true) :
    isWordChar a = true ∧ isWordChar b = true ∧ isWordChar c = true := by
  have hm : [lc a, lc b, lc c] ∈ codeTriples := by
    simpa [isCode3] using h
  simp only [codeTriples, List.mem_cons, List.not_mem_nil, or_false,
    List.cons.injEq, and_true] at hm
  rcases hm with hm | hm | hm | hm | hm | hm <;>
    exact ⟨by rw [← lc_word, hm.1]; decide, by rw [← lc_word, hm.2.1]; decide,
      by rw [← lc_word, hm.2.2]; decide⟩

theorem mCode_head3 {x y z : Char} (hc : isCode3 x y z = false) (q : Bool)
    (r : List Char) : mCode q (x :: y :: z :: r) = none := by
  cases q
  · rw [mCode_eq]
    simp [hc]
  · rfl

theorem mCode_build {c1 c2 c3 : Char} {rest : List Char}
    (hcode : isCode3 c1 c2 c3 = true)
    (hbnd : (match rest with | [] => true | d :: _ => !isWordChar d) = true) :
    mCode false (c1 :: c2 :: c3 :: rest) = some 3 := by
  rw [mCode_eq]
  simp [hcode, hbnd]

theorem tr_code_head_reflect {s : Matcher} {R : List Char}
    (hword : ∀ d ∈ R, isWordChar d = true)
    {r0 r1 r2 : Char} {R3 : List Char} (hR : R = r0 :: r1 :: r2 :: R3)
    {c : Char} {cs b1 : List Char} {pt : Bool}
    (htr : Tr s R pt cs b1)
    (hin : mCode false (c :: cs) = none) :
    mCode false (c :: b1) = none := by
  subst hR
  rcases h2 : mCode false (c :: b1) with _ | n
  · rfl
  exfalso
  obtain ⟨-, -, c1, c2, c3, rest, hshape, hcode, hbnd⟩ := mCode_some_inv h2
  obtain ⟨h3, h4⟩ := List.cons.inj hshape
  subst h3
  subst h4
  cases htr with
  | copy p2 d a2 b2 hs2 htr2 =>
    cases htr2 with
    | copy p3 e a3 b3 hs3 htr3 =>
      cases htr3 with
      | nil =>
        rw [mCode_build hcode rfl] at hin
        exact absurd hin (by simp)
      | copy p4 f a4 b4 hs4 htr4 =>
        have hf : isWordChar f = false := by simpa using hbnd
        rw [mCode_build hcode (by simp [hf])] at hin
        exact absurd hin (by simp)
      | skip p4 f cs4 b4 n4 hs4 htr4 =>
        have hw0 := hword r0 (List.mem_cons_self _ _)
        simp [hw0] at hbnd
    | skip p3 e cs3 b3 n3 hs3 htr3 =>
      have hw1 := hword r1 (by simp)
      simp [hw1] at hbnd
  | skip p2 d cs2 b2 n2 hs2 htr2 =>
    have hw2 := hword r2 (by simp)
    simp [hw2] at hbnd

theorem code_block_aux :
    ∀ (u t : List Char), (∀ d ∈ u, isWordChar d = true) →
      noMatchB mCode true t = true → noMatchB mCode true (u ++ t) = true
  | [], t, _, ht => ht
  | d :: u2, t, hword, ht => by
    have hd : isWordChar d = true := hword d (List.mem_cons_self d u2)
    show noMatchB mCode true (d :: (u2 ++ t)) = true
    simp only [noMatchB, Bool.and_eq_true]
    constructor
    · rw [mCode_true]
      rfl
    · rw [hd]
      exact code_block_aux u2 t
        (fun e he => hword e (List.mem_cons_of_mem d he)) ht

theorem noMatchB_code_append {R : List Char} (hne : R ≠ [])
    (hword : ∀ d ∈ R, isWordChar d = true)
    (hfirst : ∀ (t : List Char) (q : Bool), mCode q (R ++ t) = none)
    {t : List Char} (ht : noMatchB mCode true t = true) (q : Bool) :
    noMatchB mCode q (R ++ t) = true := by
  rcases hRs : R with _ | ⟨r0, R2⟩
  · exact absurd hRs hne
  · subst hRs
    simp only [List.cons_append, noMatchB, Bool.and_eq_true]
    constructor
    · have h5 := hfirst t q
      rw [List.cons_append] at h5
      simp [h5]
    · rw [hword r0 (List.mem_cons_self _ _)]
      exact code_block_aux R2 t
        (fun e he => hword e (List.mem_cons_of_mem r0 he)) ht

theorem tr_noMatch_code {s : Matcher} {R : List Char}
    (hword : ∀ d ∈ R, isWordChar d = true)
    {r0 r1 r2 : Char} {R3 : List Char} (hR : R = r0 :: r1 :: r2 :: R3)
    (hfirst : ∀ (t : List Char) (q : Bool), mCode q (R ++ t) = none) :
    ∀ {pI : Bool} {a b : List Char}, Tr s R pI a b →
      noMatchB mCode pI a = true → ∀ pO, (pO = false → pI = false) →
      noMatchB mCode pO b = true := by
  intro pI a b htr
  induction htr with
  | nil p => intro _ pO _; rfl
  | copy p c a2 b2 hs htr2 ih =>
    intro h pO hcond
    simp only [noMatchB, Bool.and_eq_true] at h ⊢
    constructor
    · cases pO with
      | true => rw [mCode_true]; rfl
      | false =>
        have hpI : p = false := hcond rfl
        rw [hpI] at h
        have hin : mCode false (c :: a2) = none :=
          Option.isNone_iff_eq_none.mp h.1
        rw [tr_code_head_reflect hword hR htr2 hin]
        rfl
    · exact ih h.2 (isWordChar c) (fun he => he)
  | skip p c cs b2 n hs htr2 ih =>
    intro h pO hcond
    have htail := noMatchB_drop mCode (n+1) (c :: cs) p h
    rw [List.drop_succ_cons] at htail
    have hb : noMatchB mCode true b2 = true :=
      ih htail true (fun he => absurd he (by simp))
    exact noMatchB_code_append (by rw [hR]; simp) hword hfirst hb pO

theorem tokCUR_word : ∀ d ∈ tokCURRENCY, isWordChar d = true := by decide

theorem tokINVNUM_word : ∀ d ∈ tokINVNUM, isWordChar d = true := by decide

theorem tokDATE_word : ∀ d ∈ tokDATE, isWordChar d = true := by decide

theorem tokAMOUNT_word : ∀ d ∈ tokAMOUNT, isWordChar d = true := by decide

theorem curFirst : ∀ (t : List Char) (q : Bool),
    mCode q (tokCURRENCY ++ t) = none :=
  fun t q => mCode_head3 (show isCode3 'C' 'U' 'R' = false by decide) q _

theorem invnumFirst : ∀ (t : List Char) (q : Bool),
    mCode q (tokINVNUM ++ t) = none :=
  fun t q => mCode_head3 (show isCode3 'I' 'N' 'V' = false by decide) q _

theorem dateFirst : ∀ (t : List Char) (q : Bool),
    mCode q (tokDATE ++ t) = none :=
  fun t q => mCode_head3 (show isCode3 'D' 'A' 'T' = false by decide) q _

theorem amountFirst : ∀ (t : List Char) (q : Bool),
    mCode q (tokAMOUNT ++ t) = none :=
  fun t q => mCode_head3 (show isCode3 'A' 'M' 'O' = false by decide) q _

theorem selfCode_noMatch :
    ∀ (N : Nat) (l : List Char), l.length ≤ N → ∀ p,
      noMatchB mCode p (go mCode tokCURRENCY 0 p l) = true
  | _, [], _, p => rfl
  | 0, c :: cs, h, p => by simp at h
  | N+1, c :: cs, h, p => by
    have hlen : cs.length ≤ N := by simp only [List.length_cons] at h; omega
    rcases hm : mCode p (c :: cs) with _ | n
    · rw [go_zero_eq, hm]
      show noMatchB mCode p
        (c :: go mCode tokCURRENCY 0 (isWordChar c) cs) = true
      simp only [noMatchB, Bool.and_eq_true]
      constructor
      · cases p with
        | true => rw [mCode_true]; rfl
        | false =>
          have htr := go_Tr mCode tokCURRENCY (fun _ _ _ h => mCode_pos h)
            N cs hlen (isWordChar c)
          rw [tr_code_head_reflect tokCUR_word rfl htr hm]
          rfl
      · exact selfCode_noMatch N cs hlen (isWordChar c)
    · obtain ⟨hp, hn3, c1, c2, c3, rest, hshape, hcode, hbnd⟩ :=
        mCode_some_inv hm
      subst hp
      subst hn3
      obtain ⟨h1, h2⟩ := List.cons.inj hshape
      subst h1
      subst h2
      rw [go_zero_eq, hm]
      show noMatchB mCode false
        (tokCURRENCY ++ go mCode tokCURRENCY 0 (isWordChar c3) rest) = true
      refine noMatchB_code_append (by simp [tokCURRENCY]) tokCUR_word
        curFirst ?_ false
      rw [(code3_word hcode).2.2]
      have hlen2 : rest.length ≤ N := by
        simp only [List.length_cons] at hlen
        omega
      exact selfCode_noMatch N rest hlen2 true

theorem ctxList_ws_false :
    ∀ (u : List Char), (∀ d ∈ u, isPyWs d = true) → ctxList false u = false
  | [], _ => rfl
  | c :: t, h => by
    rw [ctxList_cons, ws_not_word (h c (List.mem_cons_self c t))]
    exact ctxList_ws_false t (fun d hd => h d (List.mem_cons_of_mem c hd))

theorem noMatchB_code_dropfront {w1 rest : List Char}
    (hw : ∀ d ∈ w1, isPyWs d = true)
    (h : noMatchB mCode false (w1 ++ rest) = true) :
    noMatchB mCode false rest = true := by
  have h2 := noMatchB_drop mCode w1.length (w1 ++ rest) false h
  rw [List.take_left, List.drop_left, ctxList_ws_false w1 hw] at h2
  exact h2

theorem bnd_append_ws {rest w : List Char}
    (hbnd : (match rest with | [] => true | d :: _ => !isWordChar d) = true)
    (hw : ∀ d ∈ w, isPyWs d = true) :
    (match rest ++ w with | [] => true | d :: _ => !isWordChar d) = true := by
  rcases rest with _ | ⟨f, r4⟩
  · rcases w with _ | ⟨w0, w4⟩
    · rfl
    · simp only [List.nil_append]
      rw [ws_not_word (hw w0 (List.mem_cons_self _ _))]
      rfl
  · simpa using hbnd

theorem noMatchB_code_dropback :
    ∀ (a w : List Char), (∀ d ∈ w, isPyWs d = true) →
      ∀ p, noMatchB mCode p (a ++ w) = true → noMatchB mCode p a = true
  | [], w, hw, p, h => rfl
  | c :: a2, w, hw, p, h => by
    rw [List.cons_append] at h
    simp only [noMatchB, Bool.and_eq_true] at h ⊢
    constructor
    · rcases hmm : mCode p (c :: a2) with _ | n
      · rfl
      · exfalso
        obtain ⟨hp, -, c1, c2, c3, rest, hshape, hcode, hbnd⟩ :=
          mCode_some_inv hmm
        subst hp
        obtain ⟨h1, h2⟩ := List.cons.inj hshape
        subst h1
        subst h2
        have hin := Option.isNone_iff_eq_none.mp h.1
        rw [show (c2 :: c3 :: rest) ++ w = c2 :: c3 :: (rest ++ w) by simp]
          at hin
        rw [mCode_build hcode (bnd_append_ws hbnd hw)] at hin
        exact absurd hin (by simp)
    · exact noMatchB_code_dropback a2 w hw (isWordChar c) h.2

theorem noMatchB_code_strip {l : List Char}
    (h : noMatchB mCode false l = true) :
    noMatchB mCode false (strip l) = true := by
  obtain ⟨w1, w2, hl, hw1, hw2⟩ := strip_decomp l
  refine noMatchB_code_dropback (strip l) w2 hw2 false ?_
  refine noMatchB_code_dropfront hw1 ?_
  rw [← List.append_assoc, ← hl]
  exact h

theorem mCode_lower (p : Bool) : ∀ l, mCode p (lower l) = mCode p l := by
  intro l
  cases p
  · rcases l with _ | ⟨c1, l2⟩
    · rfl
    rcases l2 with _ | ⟨c2, l3⟩
    · rfl
    rcases l3 with _ | ⟨c3, rest⟩
    · rfl
    · show mCode false (lc c1 :: lc c2 :: lc c3 :: lower rest) = _
      have hiso : isCode3 (lc c1) (lc c2) (lc c3) = isCode3 c1 c2 c3 := by
        unfold isCode3
        rw [lc_idem, lc_idem, lc_idem]
      have hb : (match lower rest with
            | [] => true | d :: _ => !isWordChar d) =
          (match rest with | [] => true | d :: _ => !isWordChar d) := by
        rcases rest with _ | ⟨d, r5⟩
        · rfl
        · show (!isWordChar (lc d)) = !isWordChar d
          rw [lc_word]
      rw [mCode_eq, mCode_eq, hiso, hb]
  · rfl

theorem noMatchB_code_lower :
    ∀ (l : List Char) (p : Bool),
      noMatchB mCode p l = true → noMatchB mCode p (lower l) = true
  | [], p, h => rfl
  | c :: cs, p, h => by
    simp only [noMatchB, Bool.and_eq_true] at h
    show noMatchB mCode p (lc c :: lower cs) = true
    simp only [noMatchB, Bool.and_eq_true]
    constructor
    · have he : lc c :: lower cs = lower (c :: cs) := rfl
      rw [he, mCode_lower p (c :: cs)]
      exact h.1
    · rw [lc_word]
      exact noMatchB_code_lower cs (isWordChar c) h.2

/-! ### No invoice-number match in normalized text -/

theorem mInv_ctxfree (p q : Bool) (l : List Char) : mInv p l = mInv q l := rfl

theorem noMatchB_inv_ctx (p q : Bool) (l : List Char) :
    noMatchB mInv p l = noMatchB mInv q l :=
  noMatchB_ctxfree mInv_ctxfree l p q

theorem mInv_ne_none_iff (q : Bool) (l : List Char) :
    mInv q l ≠ none ↔
      lower (l.take 7) = ['i','n','v','o','i','c','e'] ∧ 7 ≤ l.length ∧
        ((invR4 (l.drop 7)).takeWhile isClassChar).length ≠ 0 := by
  unfold mInv mInvoice invR4
  dsimp only
  by_cases h1 : lower (l.take 7) = ['i','n','v','o','i','c','e']
  · by_cases h2 : 7 ≤ l.length
    · rw [if_pos (by simp [h1, h2])]
      by_cases h3 : ((((optChar ':'
          (optChar '#' ((l.drop 7).dropWhile isPyWs)).2).2).dropWhile
            isPyWs).takeWhile isClassChar).length = 0
      · rw [if_pos h3]
        simp [h1, h2, h3]
      · rw [if_neg h3]
        simp [h1, h2, h3]
    · rw [if_neg (by simp [h2])]
      simp [h2]
  · rw [if_neg (by simp [h1])]
    simp [h1]

theorem mInv_lit_false {l : List Char}
    (h : lower (l.take 7) ≠ ['i','n','v','o','i','c','e']) (q : Bool) :
    mInv q l = none := by
  rcases hm : mInv q l with _ | n
  · rfl
  · exact absurd ((mInv_ne_none_iff q l).mp (by simp [hm])).1 h

theorem mInv_head_ne {h0 : Char} (hne : lc h0 ≠ 'i') (q : Bool)
    (t : List Char) : mInv q (h0 :: t) = none := by
  refine mInv_lit_false ?_ q
  intro heq
  rw [List.take_succ_cons] at heq
  have heq2 : lc h0 :: lower (t.take 6) = ['i','n','v','o','i','c','e'] := heq
  exact hne (List.cons.inj heq2).1

theorem mInv_head2_ne {h0 h1 : Char} (hi : lc h1 ≠ 'n') (q : Bool)
    (t : List Char) : mInv q (h0 :: h1 :: t) = none := by
  refine mInv_lit_false ?_ q
  intro heq
  rw [List.take_succ_cons, List.take_succ_cons] at heq
  have heq2 : lc h0 :: lc h1 :: lower (t.take 5) =
      ['i','n','v','o','i','c','e'] := heq
  exact hi (List.cons.inj (List.cons.inj heq2).2).1

theorem mInv_invnum_head (q : Bool) (t : List Char) :
    mInv q (tokINVNUM ++ t) = none := by
  show mInv q
    ('I':: 'N':: 'V':: 'O':: 'I':: 'C':: 'E':: '_':: 'N':: 'U':: 'M':: 'B':: 'E':: 'R'::t) =
      none
  unfold mInv mInvoice
  dsimp only
  rw [show List.take 7
      ('I':: 'N':: 'V':: 'O':: 'I':: 'C':: 'E':: '_':: 'N':: 'U':: 'M':: 'B':: 'E':: 'R'::t) =
      ['I','N','V','O','I','C','E'] from rfl]
  rw [show List.drop 7
      ('I':: 'N':: 'V':: 'O':: 'I':: 'C':: 'E':: '_':: 'N':: 'U':: 'M':: 'B':: 'E':: 'R'::t) =
      '_':: 'N':: 'U':: 'M':: 'B':: 'E':: 'R'::t from rfl]
  rw [show List.dropWhile isPyWs ('_':: 'N':: 'U':: 'M':: 'B':: 'E':: 'R'::t) =
      '_':: 'N':: 'U':: 'M':: 'B':: 'E':: 'R'::t from rfl]
  rw [show optChar '#' ('_':: 'N':: 'U':: 'M':: 'B':: 'E':: 'R'::t) =
      (0, '_':: 'N':: 'U':: 'M':: 'B':: 'E':: 'R'::t) from rfl]
  rw [show optChar ':' ('_':: 'N':: 'U':: 'M':: 'B':: 'E':: 'R'::t) =
      (0, '_':: 'N':: 'U':: 'M':: 'B':: 'E':: 'R'::t) from rfl]
  dsimp only
  rw [show List.dropWhile isPyWs ('_':: 'N':: 'U':: 'M':: 'B':: 'E':: 'R'::t) =
      '_':: 'N':: 'U':: 'M':: 'B':: 'E':: 'R'::t from rfl]
  rw [show List.takeWhile isClassChar ('_':: 'N':: 'U':: 'M':: 'B':: 'E':: 'R'::t) =
      ([] : List Char) from rfl]
  simp [List.length_cons]

theorem inv_block_simple :
    ∀ (u t : List Char), (∀ d ∈ u, lc d ≠ 'i') →
      ∀ (p : Bool), noMatchB mInv p t = true →
      ∀ q, noMatchB mInv q (u ++ t) = true
  | [], t, _, p, ht, q => by
    rw [List.nil_append, noMatchB_inv_ctx q p]
    exact ht
  | d :: u2, t, hu, p, ht, q => by
    show noMatchB mInv q (d :: (u2 ++ t)) = true
    simp only [noMatchB, Bool.and_eq_true]
    refine ⟨?_, inv_block_simple u2 t
      (fun e he => hu e (List.mem_cons_of_mem d he)) p ht _⟩
    rw [mInv_head_ne (hu d (List.mem_cons_self d u2))]
    rfl

theorem invnum_block (t : List Char) (p : Bool)
    (ht : noMatchB mInv p t = true) (q : Bool) :
    noMatchB mInv q (tokINVNUM ++ t) = true := by
  show noMatchB mInv q
    ('I':: 'N':: 'V':: 'O':: 'I':: 'C':: 'E':: '_':: 'N':: 'U':: 'M':: 'B':: 'E':: 'R'::t) =
      true
  simp only [noMatchB, Bool.and_eq_true]
  refine ⟨?_, ?_, ?_, ?_, ?_, ?_, ?_, ?_, ?_, ?_, ?_, ?_, ?_, ?_, ?_⟩
  · rw [show ('I':: 'N':: 'V':: 'O':: 'I':: 'C':: 'E':: '_':: 'N':: 'U':: 'M':: 'B':: 'E':: 'R'::t) = tokINVNUM ++ t from rfl, mInv_invnum_head]
    rfl
  · rw [mInv_head_ne (by decide)]; rfl
  · rw [mInv_head_ne (by decide)]; rfl
  · rw [mInv_head_ne (by decide)]; rfl
  · rw [mInv_head2_ne (by decide)]; rfl
  · rw [mInv_head_ne (by decide)]; rfl
  · rw [mInv_head_ne (by decide)]; rfl
  · rw [mInv_head_ne (by decide)]; rfl
  · rw [mInv_head_ne (by decide)]; rfl
  · rw [mInv_head_ne (by decide)]; rfl
  · rw [mInv_head_ne (by decide)]; rfl
  · rw [mInv_head_ne (by decide)]; rfl
  · rw [mInv_head_ne (by decide)]; rfl
  · rw [mInv_head_ne (by decide)]; rfl
  · rw [noMatchB_inv_ctx _ p]
    exact ht

theorem lower_nil : lower ([] : List Char) = [] := rfl

theorem lower_cons (c : Char) (l : List Char) :
    lower (c :: l) = lc c :: lower l := rfl

theorem head?_drop_mem :
    ∀ (k : Nat) (l : List Char) (ch : Char),
      (l.drop k).head? = some ch → ch ∈ l
  | 0, [], ch, h => by simp at h
  | 0, c :: cs, ch, h => by
    simp only [List.drop_zero, List.head?_cons, Option.some.injEq] at h
    exact h ▸ List.mem_cons_self c cs
  | k+1, [], ch, h => by simp at h
  | k+1, c :: cs, ch, h =>
    List.mem_cons_of_mem c (head?_drop_mem k cs ch (by simpa using h))

theorem tr_litWalk (s : Matcher) (r0 : Char) (Rt : List Char) :
    ∀ (w : List Char),
      (∀ (k : Nat) (ch : Char), (w.drop k).head? = some ch → lc r0 = ch →
        ∃ ch2 t2, w.drop (k+1) = ch2 :: t2 ∧
          ∃ r1 R2, Rt = r1 :: R2 ∧ lc r1 ≠ ch2) →
      ∀ (p : Bool) (a b : List Char), Tr s (r0 :: Rt) p a b →
        lower (b.take w.length) = w → w.length ≤ b.length →
        lower (a.take w.length) = w ∧ w.length ≤ a.length ∧
          ∃ q, Tr s (r0 :: Rt) q (a.drop w.length) (b.drop w.length)
  | [], _, p, a, b, htr, _, _ => ⟨rfl, Nat.zero_le _, p, by simpa using htr⟩
  | ch :: w2, hcol, p, a, b, htr, hlow, hlen => by
    rcases b with _ | ⟨b0, b2⟩
    · simp at hlen
    have hlow2 : lc b0 :: lower (b2.take w2.length) = ch :: w2 := by
      simpa [List.take_succ_cons, lower_cons] using hlow
    obtain ⟨hb0, hrest⟩ := List.cons.inj hlow2
    have hlenb : w2.length ≤ b2.length := by
      simp only [List.length_cons] at hlen
      omega
    cases htr with
    | copy p c a2 b3 hs htr2 =>
      have hcol2 : ∀ (k : Nat) (ch' : Char), (w2.drop k).head? = some ch' →
          lc r0 = ch' → ∃ ch2 t2, w2.drop (k+1) = ch2 :: t2 ∧
            ∃ r1 R2, Rt = r1 :: R2 ∧ lc r1 ≠ ch2 := by
        intro k ch' hk hr
        obtain ⟨ch2, t2, h1, h2⟩ := hcol (k+1) ch'
          (by rwa [List.drop_succ_cons]) hr
        exact ⟨ch2, t2, by rwa [List.drop_succ_cons] at h1, h2⟩
      obtain ⟨hA, hAl, q, htr3⟩ :=
        tr_litWalk s r0 Rt w2 hcol2 _ a2 b2 htr2 hrest hlenb
      refine ⟨?_, ?_, q, ?_⟩
      · have he : lower ((b0 :: a2).take (ch :: w2).length) =
            lc b0 :: lower (a2.take w2.length) := by
          simp [List.take_succ_cons, lower_cons]
        rw [he, hb0, hA]
      · simp only [List.length_cons]
        omega
      · simp only [List.length_cons, List.drop_succ_cons]
        exact htr3
    | skip p c cs b3 n hs htr2 =>
      exfalso
      obtain ⟨ch2, t2, hw2eq, r1, R2, hRt, hne⟩ := hcol 0 ch rfl hb0
      have hw2 : w2 = ch2 :: t2 := by simpa using hw2eq
      subst hRt
      rw [hw2] at hrest
      have hrest2 : lc r1 :: lower ((R2 ++ b3).take t2.length) = ch2 :: t2 := by
        simpa [List.take_succ_cons, lower_cons] using hrest
      exact hne (List.cons.inj hrest2).1

theorem tr_wsA {s : Matcher} {R : List Char}
    (hmat : ∀ (p : Bool) (c : Char) (cs : List Char) (n : Nat),
      s p (c :: cs) = some n → isPyWs c = false)
    {r0 : Char} {Rt : List Char} (hR : R = r0 :: Rt)
    (hr0 : isPyWs r0 = false) :
    ∀ {p : Bool} {a b : List Char}, Tr s R p a b →
      ∃ q, Tr s R q (a.dropWhile isPyWs) (b.dropWhile isPyWs) := by
  intro p a b htr
  induction htr with
  | nil p => exact ⟨p, Tr.nil p⟩
  | copy p c a2 b2 hs htr2 ih =>
    cases hc : isPyWs c
    · refine ⟨p, ?_⟩
      have e1 : (c :: a2).dropWhile isPyWs = c :: a2 := by
        simp [List.dropWhile_cons, hc]
      have e2 : (c :: b2).dropWhile isPyWs = c :: b2 := by
        simp [List.dropWhile_cons, hc]
      rw [e1, e2]
      exact Tr.copy p c a2 b2 hs htr2
    · obtain ⟨q, htr3⟩ := ih
      refine ⟨q, ?_⟩
      have e1 : (c :: a2).dropWhile isPyWs = a2.dropWhile isPyWs := by
        simp [List.dropWhile_cons, hc]
      have e2 : (c :: b2).dropWhile isPyWs = b2.dropWhile isPyWs := by
        simp [List.dropWhile_cons, hc]
      rw [e1, e2]
      exact htr3
  | skip p c cs b2 n hs htr2 ih =>
    have hc := hmat p c cs (n+1) hs
    refine ⟨p, ?_⟩
    have e1 : (c :: cs).dropWhile isPyWs = c :: cs := by
      simp [List.dropWhile_cons, hc]
    have e2 : (R ++ b2).dropWhile isPyWs = R ++ b2 := by
      rw [hR, List.cons_append, List.dropWhile_cons, hr0]
      simp
    rw [e1, e2]
    exact Tr.skip p c cs b2 n hs htr2

theorem tr_wsW : ∀ {p : Bool} {a b : List Char}, Tr mWs [' '] p a b →
    ∃ q, Tr mWs [' '] q (a.dropWhile isPyWs) (b.dropWhile isPyWs) := by
  intro p a b htr
  induction htr with
  | nil p => exact ⟨p, Tr.nil p⟩
  | copy p c a2 b2 hs htr2 ih =>
    have hc : isPyWs c = false := by
      cases hcc : isPyWs c
      · rfl
      · rw [mWs_some_of hcc] at hs
        exact absurd hs (by simp)
    refine ⟨p, ?_⟩
    have e1 : (c :: a2).dropWhile isPyWs = c :: a2 := by
      simp [List.dropWhile_cons, hc]
    have e2 : (c :: b2).dropWhile isPyWs = c :: b2 := by
      simp [List.dropWhile_cons, hc]
    rw [e1, e2]
    exact Tr.copy p c a2 b2 hs htr2
  | skip p c cs b2 n hs htr2 ih =>
    obtain ⟨hn, -⟩ := mWs_some_len hs
    have e1 : (c :: cs).dropWhile isPyWs = cs.drop n := by
      have h2 := takeWhile_drop isPyWs (c :: cs)
      rw [← hn, List.drop_succ_cons] at h2
      exact h2.symm
    have hh : headNotWs (cs.drop n) = true := by
      rw [← e1]
      exact headNotWs_dropWhile (c :: cs)
    obtain ⟨q, htr3⟩ := ih
    refine ⟨q, ?_⟩
    have e2 : (([' '] ++ b2 : List Char)).dropWhile isPyWs =
        b2.dropWhile isPyWs := by
      simp [List.dropWhile_cons, show isPyWs ' ' = true from rfl]
    rw [e1, e2]
    rw [dropWhile_of_headNotWs hh] at htr3
    exact htr3

theorem tr_opt {s : Matcher} {R : List Char} (ch : Char)
    (hmat : ∀ (p : Bool) (c : Char) (cs : List Char) (n : Nat),
      s p (c :: cs) = some n → c ≠ ch)
    {r0 : Char} {Rt : List Char} (hR : R = r0 :: Rt) (hr0 : r0 ≠ ch) :
    ∀ {p : Bool} {a b : List Char}, Tr s R p a b →
      ∃ q, Tr s R q (optChar ch a).2 (optChar ch b).2 := by
  intro p a b htr
  cases htr with
  | nil p => exact ⟨p, Tr.nil p⟩
  | copy p c a2 b2 hs htr2 =>
    by_cases hc : c = ch
    · subst hc
      refine ⟨isWordChar c, ?_⟩
      have e1 : (optChar c (c :: a2)).2 = a2 := by simp [optChar]
      have e2 : (optChar c (c :: b2)).2 = b2 := by simp [optChar]
      rw [e1, e2]
      exact htr2
    · refine ⟨p, ?_⟩
      have e1 : (optChar ch (c :: a2)).2 = c :: a2 := by simp [optChar, hc]
      have e2 : (optChar ch (c :: b2)).2 = c :: b2 := by simp [optChar, hc]
      rw [e1, e2]
      exact Tr.copy p c a2 b2 hs htr2
  | skip p c cs b2 n hs htr2 =>
    have hc := hmat p c cs (n+1) hs
    refine ⟨p, ?_⟩
    have e1 : (optChar ch (c :: cs)).2 = c :: cs := by simp [optChar, hc]
    have e2 : (optChar ch (R ++ b2)).2 = R ++ b2 := by
      rw [hR, List.cons_append]
      simp [optChar, hr0]
    rw [e1, e2]
    exact Tr.skip p c cs b2 n hs htr2

theorem tr_classHead {s : Matcher} {R : List Char}
    {r0 : Char} {Rt : List Char} (hR : R = r0 :: Rt)
    (hmatC : isClassChar r0 = true → ∀ (p : Bool) (c : Char) (cs : List Char)
      (n : Nat), s p (c :: cs) = some n → isClassChar c = true) :
    ∀ {p : Bool} {a b : List Char}, Tr s R p a b →
      ∀ {d : Char} {bs : List Char}, b = d :: bs → isClassChar d = true →
      ∃ e as2, a = e :: as2 ∧ isClassChar e = true := by
  intro p a b htr d bs hb hd
  subst hR
  subst hb
  cases htr with
  | copy p c a2 b2 hs htr2 =>
    exact ⟨d, a2, rfl, hd⟩
  | skip p c cs b2 n hs htr2 =>
    exact ⟨c, cs, rfl, hmatC hd p c cs (n+1) hs⟩

theorem mDate_head_digit {p : Bool} {c : Char} {cs : List Char} {n : Nat}
    (h : mDate p (c :: cs) = some n) : c.isDigit = true := by
  cases hd : c.isDigit
  · rw [mDate_none_of_head hd] at h
    exact absurd h (by simp)
  · rfl

theorem mAmount_head_digit {p : Bool} {c : Char} {cs : List Char} {n : Nat}
    (h : mAmount p (c :: cs) = some n) : c.isDigit = true := by
  cases hd : c.isDigit
  · rw [mAmount_none_of_head hd] at h
    exact absurd h (by simp)
  · rfl

theorem mInv_head_lc {q : Bool} {c : Char} {cs : List Char} {n : Nat}
    (h : mInv q (c :: cs) = some n) : lc c = 'i' := by
  have h2 := ((mInv_ne_none_iff q (c :: cs)).mp (by simp [h])).1
  have h3 : lc c :: lower (cs.take 6) = ['i','n','v','o','i','c','e'] := by
    simpa [List.take_succ_cons, lower_cons] using h2
  exact (List.cons.inj h3).1

theorem mWs_head_ws {p : Bool} {c : Char} {cs : List Char} {n : Nat}
    (h : mWs p (c :: cs) = some n) : isPyWs c = true := by
  cases hc : isPyWs c
  · rw [mWs_none_of hc] at h
    exact absurd h (by simp)
  · rfl

theorem inv_head_props {c : Char} (h : lc c = 'i') :
    isPyWs c = false ∧ c ≠ '#' ∧ c ≠ ':' ∧ isClassChar c = true := by
  rcases lc_i h with h2 | h2 <;> subst h2 <;>
    exact ⟨by decide, by decide, by decide, by decide⟩

theorem digit_ne_hash {c : Char} (h : c.isDigit = true) : c ≠ '#' :=
  fun he => absurd h (by subst he; decide)

theorem digit_ne_colon {c : Char} (h : c.isDigit = true) : c ≠ ':' :=
  fun he => absurd h (by subst he; decide)

theorem ws_ne_hash {c : Char} (h : isPyWs c = true) : c ≠ '#' :=
  fun he => absurd h (by subst he; decide)

theorem ws_ne_colon {c : Char} (h : isPyWs c = true) : c ≠ ':' :=
  fun he => absurd h (by subst he; decide)

theorem tr_inv_reflect {s : Matcher} {R : List Char}
    (hlitw : ∀ (p : Bool) (a b : List Char), Tr s R p a b →
      lower (b.take 6) = ['n','v','o','i','c','e'] → 6 ≤ b.length →
      lower (a.take 6) = ['n','v','o','i','c','e'] ∧ 6 ≤ a.length ∧
        ∃ q, Tr s R q (a.drop 6) (b.drop 6))
    (hwstep : ∀ (p : Bool) (a b : List Char), Tr s R p a b →
      ∃ q, Tr s R q (a.dropWhile isPyWs) (b.dropWhile isPyWs))
    (hopt1 : ∀ (p : Bool) (a b : List Char), Tr s R p a b →
      ∃ q, Tr s R q (optChar '#' a).2 (optChar '#' b).2)
    (hopt2 : ∀ (p : Bool) (a b : List Char), Tr s R p a b →
      ∃ q, Tr s R q (optChar ':' a).2 (optChar ':' b).2)
    (hclass : ∀ (p : Bool) (a b : List Char), Tr s R p a b →
      ∀ (d : Char) (bs : List Char), b = d :: bs → isClassChar d = true →
      ∃ e as2, a = e :: as2 ∧ isClassChar e = true)
    {c : Char} {cs b1 : List Char} {pt : Bool} (htr : Tr s R pt cs b1)
    {q0 : Bool} (hsome : mInv q0 (c :: b1) ≠ none) :
    mInv q0 (c :: cs) ≠ none := by
  rw [mInv_ne_none_iff] at hsome ⊢
  obtain ⟨hlitB, hlenB, hbodyB⟩ := hsome
  have hlit2 : lc c :: lower (b1.take 6) = ['i','n','v','o','i','c','e'] := by
    simpa [List.take_succ_cons, lower_cons] using hlitB
  obtain ⟨hci, hlitB2⟩ := List.cons.inj hlit2
  have hlenB2 : 6 ≤ b1.length := by
    simp only [List.length_cons] at hlenB
    omega
  obtain ⟨hlitA, hlenA, q1, htr1⟩ := hlitw _ _ _ htr hlitB2 hlenB2
  obtain ⟨q2, htr2⟩ := hwstep _ _ _ htr1
  obtain ⟨q3, htr3⟩ := hopt1 _ _ _ htr2
  obtain ⟨q4, htr4⟩ := hopt2 _ _ _ htr3
  obtain ⟨q5, htr5⟩ := hwstep _ _ _ htr4
  have htr5i : Tr s R q5 (invR4 (cs.drop 6)) (invR4 (b1.drop 6)) := htr5
  refine ⟨?_, ?_, ?_⟩
  · have he : lower ((c :: cs).take 7) = lc c :: lower (cs.take 6) := by
      simp [List.take_succ_cons, lower_cons]
    rw [he, hci, hlitA]
  · simp only [List.length_cons]
    omega
  · have hdropsA : (c :: cs).drop 7 = cs.drop 6 := rfl
    have hdropsB : (c :: b1).drop 7 = b1.drop 6 := rfl
    rw [hdropsA]
    rw [hdropsB] at hbodyB
    rcases hr4B : invR4 (b1.drop 6) with _ | ⟨d, bs⟩
    · rw [hr4B] at hbodyB
      simp at hbodyB
    · have hdclass : isClassChar d = true := by
        cases hdc : isClassChar d
        · exfalso
          rw [hr4B] at hbodyB
          apply hbodyB
          simp [List.takeWhile_cons, hdc]
        · rfl
      obtain ⟨e, as2, hae, heclass⟩ := hclass _ _ _ htr5i d bs hr4B hdclass
      rw [hae]
      simp [List.takeWhile_cons, heclass]

theorem tr_noMatch_inv {s : Matcher} {R : List Char}
    (hreflect : ∀ {c : Char} {cs b1 : List Char} {pt : Bool} {q0 : Bool},
      Tr s R pt cs b1 → mInv q0 (c :: b1) ≠ none → mInv q0 (c :: cs) ≠ none)
    (hblock : ∀ (t : List Char) (p : Bool), noMatchB mInv p t = true →
      ∀ q, noMatchB mInv q (R ++ t) = true) :
    ∀ {pI : Bool} {a b : List Char}, Tr s R pI a b →
      noMatchB mInv pI a = true → ∀ q, noMatchB mInv q b = true := by
  intro pI a b htr
  induction htr with
  | nil p => intro _ q; rfl
  | copy p c a2 b2 hs htr2 ih =>
    intro h q
    simp only [noMatchB, Bool.and_eq_true] at h ⊢
    constructor
    · rcases hmm2 : mInv q (c :: b2) with _ | n
      · rfl
      · exfalso
        have h1 := hreflect htr2
          (show mInv q (c :: b2) ≠ none by simp [hmm2])
        have h2 := h.1
        rw [mInv_ctxfree p q (c :: a2)] at h2
        rcases hmm3 : mInv q (c :: a2) with _ | n2
        · exact h1 hmm3
        · rw [hmm3] at h2
          exact absurd h2 (by simp)
    · exact ih h.2 (isWordChar c)
  | skip p c cs b2 n hs htr2 ih =>
    intro h q
    have htail := noMatchB_drop mInv (n+1) (c :: cs) p h
    rw [List.drop_succ_cons] at htail
    exact hblock b2 _ (ih htail true) q

theorem tr_noMatch_inv_digit {s : Matcher} {r0 : Char} {Rt : List Char}
    (hmatD : ∀ (p : Bool) (c : Char) (cs : List Char) (n : Nat),
      s p (c :: cs) = some n → c.isDigit = true)
    (hpos : ∀ (p : Bool) (l : List Char) (n : Nat), s p l = some n → 0 < n)
    (hr0w : isPyWs r0 = false) (hr0h : r0 ≠ '#') (hr0c : r0 ≠ ':')
    (hr0lc : lc r0 ∉ (['n','v','o','i','c','e'] : List Char))
    (hblock : ∀ (t : List Char) (p : Bool), noMatchB mInv p t = true →
      ∀ q, noMatchB mInv q ((r0 :: Rt) ++ t) = true)
    {a : List Char} {pI : Bool} (h : noMatchB mInv pI a = true) (q : Bool) :
    noMatchB mInv q (subst s (r0 :: Rt) a) = true := by
  refine tr_noMatch_inv ?_ hblock (subst_Tr s (r0 :: Rt) hpos a) ?_ q
  · intro c cs b1 pt q0 htr hs
    refine tr_inv_reflect ?_ ?_ ?_ ?_ ?_ htr hs
    · intro p a2 b2 htr2 hl hlen
      exact tr_litWalk s r0 Rt ['n','v','o','i','c','e']
        (fun k ch hk he => absurd (head?_drop_mem k _ ch hk)
          (fun hmem => hr0lc (he ▸ hmem))) p a2 b2 htr2 hl hlen
    · intro p a2 b2 htr2
      exact tr_wsA
        (fun p2 c2 cs2 n2 h2 => digit_not_ws (hmatD p2 c2 cs2 n2 h2))
        rfl hr0w htr2
    · intro p a2 b2 htr2
      exact tr_opt '#'
        (fun p2 c2 cs2 n2 h2 => digit_ne_hash (hmatD p2 c2 cs2 n2 h2))
        rfl hr0h htr2
    · intro p a2 b2 htr2
      exact tr_opt ':'
        (fun p2 c2 cs2 n2 h2 => digit_ne_colon (hmatD p2 c2 cs2 n2 h2))
        rfl hr0c htr2
    · intro p a2 b2 htr2 d bs hb hd
      exact tr_classHead rfl
        (fun _ p2 c2 cs2 n2 h2 => digit_class (hmatD p2 c2 cs2 n2 h2))
        htr2 hb hd
  · rw [noMatchB_inv_ctx false pI]
    exact h

theorem preserve_inv_date {a : List Char} {pI : Bool}
    (h : noMatchB mInv pI a = true) (q : Bool) :
    noMatchB mInv q (subst mDate tokDATE a) = true :=
  tr_noMatch_inv_digit
    (fun p2 c2 cs2 n2 h2 => mDate_head_digit h2)
    (fun p2 l2 n2 h2 => mDate_pos h2)
    (by decide) (by decide) (by decide) (by decide)
    (fun t p2 ht q2 => inv_block_simple tokDATE t (by decide) p2 ht q2)
    h q

theorem preserve_inv_amount {a : List Char} {pI : Bool}
    (h : noMatchB mInv pI a = true) (q : Bool) :
    noMatchB mInv q (subst mAmount tokAMOUNT a) = true :=
  tr_noMatch_inv_digit
    (fun p2 c2 cs2 n2 h2 => mAmount_head_digit h2)
    (fun p2 l2 n2 h2 => mAmount_pos h2)
    (by decide) (by decide) (by decide) (by decide)
    (fun t p2 ht q2 => inv_block_simple tokAMOUNT t (by decide) p2 ht q2)
    h q

theorem preserve_inv_ws {a : List Char} {pI : Bool}
    (h : noMatchB mInv pI a = true) (q : Bool) :
    noMatchB mInv q (subst mWs [' '] a) = true := by
  refine tr_noMatch_inv ?_ ?_
    (subst_Tr mWs [' '] (fun p2 l2 n2 h2 => mWs_pos h2) a) ?_ q
  · intro c cs b1 pt q0 htr hs
    refine tr_inv_reflect ?_ ?_ ?_ ?_ ?_ htr hs
    · intro p a2 b2 htr2 hl hlen
      exact tr_litWalk mWs ' ' [] ['n','v','o','i','c','e']
        (fun k ch hk he => absurd (head?_drop_mem k _ ch hk)
          (fun hmem => by rw [← he] at hmem; exact absurd hmem (by decide)))
        p a2 b2 htr2 hl hlen
    · intro p a2 b2 htr2
      exact tr_wsW htr2
    · intro p a2 b2 htr2
      exact tr_opt '#'
        (fun p2 c2 cs2 n2 h2 => ws_ne_hash (mWs_head_ws h2))
        rfl (by decide) htr2
    · intro p a2 b2 htr2
      exact tr_opt ':'
        (fun p2 c2 cs2 n2 h2 => ws_ne_colon (mWs_head_ws h2))
        rfl (by decide) htr2
    · intro p a2 b2 htr2 d bs hb hd
      exact tr_classHead rfl
        (fun habs => absurd habs (by decide)) htr2 hb hd
  · intro t p2 ht q2
    exact inv_block_simple [' '] t (by decide) p2 ht q2
  · rw [noMatchB_inv_ctx false pI]
    exact h

theorem nvoice_col_self :
    ∀ (k : Nat) (ch : Char),
      ((['n','v','o','i','c','e'] : List Char).drop k).head? = some ch →
      lc 'I' = ch →
      ∃ ch2 t2, (['n','v','o','i','c','e'] : List Char).drop (k+1) =
          ch2 :: t2 ∧
        ∃ r1 R2, (['N','V','O','I','C','E','_','N','U','M','B','E','R'] :
            List Char) = r1 :: R2 ∧ lc r1 ≠ ch2 := by
  intro k ch hk he
  have hch : ch = 'i' := by rw [← he]; rfl
  subst hch
  have hk6 : k < 6 := by
    by_contra hcon
    rw [List.drop_eq_nil_of_le (by simp; omega)] at hk
    simp at hk
  interval_cases k
  · simp at hk
  · simp at hk
  · simp at hk
  · exact ⟨'c', ['e'], rfl, 'N', _, rfl, by decide⟩
  · simp at hk
  · simp at hk

theorem selfInv_noMatch :
    ∀ (N : Nat) (l : List Char), l.length ≤ N → ∀ (p q : Bool),
      noMatchB mInv q (go mInv tokINVNUM 0 p l) = true
  | _, [], _, p, q => rfl
  | 0, c :: cs, h, p, q => by simp at h
  | N+1, c :: cs, h, p, q => by
    have hlen : cs.length ≤ N := by simp only [List.length_cons] at h; omega
    rcases hm : mInv p (c :: cs) with _ | n
    · rw [go_zero_eq, hm]
      show noMatchB mInv q (c :: go mInv tokINVNUM 0 (isWordChar c) cs) = true
      simp only [noMatchB, Bool.and_eq_true]
      constructor
      · have htr := go_Tr mInv tokINVNUM (fun _ _ _ h2 => mInv_pos h2)
          N cs hlen (isWordChar c)
        rcases hmm2 : mInv q (c :: go mInv tokINVNUM 0 (isWordChar c) cs)
          with _ | n2
        · rfl
        · exfalso
          have hne : mInv q (c :: go mInv tokINVNUM 0 (isWordChar c) cs) ≠
              none := by simp [hmm2]
          have h1 : mInv q (c :: cs) ≠ none := by
            refine tr_inv_reflect ?_ ?_ ?_ ?_ ?_ htr hne
            · intro p2 a2 b2 htr2 hl hlen2
              exact tr_litWalk mInv 'I'
                ['N','V','O','I','C','E','_','N','U','M','B','E','R']
                ['n','v','o','i','c','e'] nvoice_col_self p2 a2 b2 htr2
                hl hlen2
            · intro p2 a2 b2 htr2
              exact tr_wsA
                (fun p3 c3 cs3 n3 h3 =>
                  (inv_head_props (mInv_head_lc h3)).1)
                rfl (by decide) htr2
            · intro p2 a2 b2 htr2
              exact tr_opt '#'
                (fun p3 c3 cs3 n3 h3 =>
                  (inv_head_props (mInv_head_lc h3)).2.1)
                rfl (by decide) htr2
            · intro p2 a2 b2 htr2
              exact tr_opt ':'
                (fun p3 c3 cs3 n3 h3 =>
                  (inv_head_props (mInv_head_lc h3)).2.2.1)
                rfl (by decide) htr2
            · intro p2 a2 b2 htr2 d bs hb hd
              exact tr_classHead rfl
                (fun _ p3 c3 cs3 n3 h3 =>
                  (inv_head_props (mInv_head_lc h3)).2.2.2)
                htr2 hb hd
          apply h1
          rw [mInv_ctxfree q p]
          exact hm
      · exact selfInv_noMatch N cs hlen (isWordChar c) (isWordChar c)
    · rcases n with _ | n2
      · exact absurd (mInv_pos hm) (by simp)
      · rw [go_zero_eq, hm]
        show noMatchB mInv q
          (tokINVNUM ++ go mInv tokINVNUM n2 (isWordChar c) cs) = true
        rw [go_skip_eq]
        refine invnum_block _ true ?_ q
        have hlen2 : (cs.drop n2).length ≤ N := by
          rw [List.length_drop]
          omega
        exact selfInv_noMatch N (cs.drop n2) hlen2 _ true

theorem mCode_space_head (q : Bool) (t : List Char) :
    mCode q (' ' :: t) = none := by
  rcases hm : mCode q (' ' :: t) with _ | n
  · rfl
  · exfalso
    obtain ⟨-, -, c1, c2, c3, rest, hshape, hcode, -⟩ := mCode_some_inv hm
    obtain ⟨h1, -⟩ := List.cons.inj hshape
    rw [← h1] at hcode
    exact absurd (code3_word hcode).1 (by decide)

theorem tr_code_head_reflect_ws {c : Char} {cs b1 : List Char} {pt : Bool}
    (htr : Tr mWs [' '] pt cs b1)
    (hin : mCode false (c :: cs) = none) :
    mCode false (c :: b1) = none := by
  rcases h2 : mCode false (c :: b1) with _ | n
  · rfl
  exfalso
  obtain ⟨-, -, c1, c2, c3, rest, hshape, hcode, hbnd⟩ := mCode_some_inv h2
  obtain ⟨h3, h4⟩ := List.cons.inj hshape
  subst h3
  subst h4
  cases htr with
  | copy p2 d a2 b2 hs2 htr2 =>
    cases htr2 with
    | copy p3 e a3 b3 hs3 htr3 =>
      cases htr3 with
      | nil =>
        rw [mCode_build hcode rfl] at hin
        exact absurd hin (by simp)
      | copy p4 f a4 b4 hs4 htr4 =>
        have hf : isWordChar f = false := by simpa using hbnd
        rw [mCode_build hcode (by simp [hf])] at hin
        exact absurd hin (by simp)
      | skip p4 f cs4 b4 n4 hs4 htr4 =>
        have hf : isWordChar f = false := ws_not_word (mWs_head_ws hs4)
        rw [mCode_build hcode (by simp [hf])] at hin
        exact absurd hin (by simp)
    | skip p3 e cs3 b3 n3 hs3 htr3 =>
      exact absurd (code3_word hcode).2.2 (by decide)
  | skip p2 d cs2 b2 n2 hs2 htr2 =>
    exact absurd (code3_word hcode).2.1 (by decide)

theorem ctxList_nonword :
    ∀ (u : List Char) (p : Bool), (∀ d ∈ u, isWordChar d = false) →
      u ≠ [] → ctxList p u = false
  | [], p, h, hne => absurd rfl hne
  | c :: t, p, h, _ => by
    rw [ctxList_cons]
    rcases t with _ | ⟨d, t2⟩
    · rw [ctxList_nil]
      exact h c (List.mem_cons_self c [])
    · exact ctxList_nonword (d :: t2) (isWordChar c)
        (fun e he => h e (List.mem_cons_of_mem c he)) (by simp)

theorem tr_noMatch_code_ws :
    ∀ {pI : Bool} {a b : List Char}, Tr mWs [' '] pI a b →
      noMatchB mCode pI a = true → ∀ pO, (pO = false → pI = false) →
      noMatchB mCode pO b = true := by
  intro pI a b htr
  induction htr with
  | nil p => intro _ pO _; rfl
  | copy p c a2 b2 hs htr2 ih =>
    intro h pO hcond
    simp only [noMatchB, Bool.and_eq_true] at h ⊢
    constructor
    · cases pO with
      | true => rw [mCode_true]; rfl
      | false =>
        have hpI : p = false := hcond rfl
        rw [hpI] at h
        have hin : mCode false (c :: a2) = none :=
          Option.isNone_iff_eq_none.mp h.1
        rw [tr_code_head_reflect_ws htr2 hin]
        rfl
    · exact ih h.2 (isWordChar c) (fun he => he)
  | skip p c cs b2 n hs htr2 ih =>
    intro h pO hcond
    have htail := noMatchB_drop mCode (n+1) (c :: cs) p h
    rw [List.drop_succ_cons] at htail
    have hctx : ctxList p ((c :: cs).take (n+1)) = false :=
      ctxList_nonword _ p
        (fun d hd => ws_not_word (mWs_take_ws hs d hd))
        (by simp [List.take_succ_cons])
    have hb : noMatchB mCode false b2 = true := ih htail false (fun _ => hctx)
    show noMatchB mCode pO (' ' :: b2) = true
    simp only [noMatchB, Bool.and_eq_true]
    refine ⟨by rw [mCode_space_head]; rfl, ?_⟩
    rw [show isWordChar ' ' = false from rfl]
    exact hb

theorem optChar_append_ne (ch : Char) {r : List Char} (w : List Char)
    (h : r ≠ []) :
    optChar ch (r ++ w) = ((optChar ch r).1, (optChar ch r).2 ++ w) := by
  rcases r with _ | ⟨d, t⟩
  · exact absurd rfl h
  · cases hd : d == ch <;> simp [optChar, hd]

theorem take_append_le :
    ∀ (n : Nat) (l w : List Char), n ≤ l.length → (l ++ w).take n = l.take n
  | 0, l, w, _ => rfl
  | n+1, [], w, h => by simp at h
  | n+1, c :: cs, w, h => by
    simp only [List.cons_append, List.take_succ_cons]
    rw [take_append_le n cs w (by simpa using h)]

theorem drop_append_le :
    ∀ (n : Nat) (l w : List Char), n ≤ l.length →
      (l ++ w).drop n = l.drop n ++ w
  | 0, l, w, _ => rfl
  | n+1, [], w, h => by simp at h
  | n+1, c :: cs, w, h => by
    simp only [List.cons_append, List.drop_succ_cons]
    exact drop_append_le n cs w (by simpa using h)

theorem ne_nil_of_dropWhile {q : Char → Bool} {l : List Char}
    (h : l.dropWhile q ≠ []) : l ≠ [] :=
  fun he => h (by rw [he]; rfl)

theorem optChar_ne_nil {ch : Char} {r : List Char}
    (h : (optChar ch r).2 ≠ []) : r ≠ [] :=
  fun he => h (by rw [he]; rfl)

theorem mInv_extend_ws {q : Bool} {s2 w : List Char}
    (h : mInv q s2 ≠ none) (hw : ∀ d ∈ w, isPyWs d = true) :
    mInv q (s2 ++ w) ≠ none := by
  rw [mInv_ne_none_iff] at h ⊢
  obtain ⟨h1, h2, h3⟩ := h
  have hr4ne : invR4 (s2.drop 7) ≠ [] := by
    intro he
    rw [he] at h3
    simp at h3
  have hr3ne : (optChar ':'
      (optChar '#' ((s2.drop 7).dropWhile isPyWs)).2).2 ≠ [] :=
    ne_nil_of_dropWhile hr4ne
  have hr2ne : (optChar '#' ((s2.drop 7).dropWhile isPyWs)).2 ≠ [] :=
    optChar_ne_nil hr3ne
  have hr1ne : (s2.drop 7).dropWhile isPyWs ≠ [] :=
    optChar_ne_nil hr2ne
  have e0 : (s2 ++ w).take 7 = s2.take 7 := take_append_le 7 s2 w h2
  have e0d : (s2 ++ w).drop 7 = s2.drop 7 ++ w := drop_append_le 7 s2 w h2
  have eChain : invR4 ((s2 ++ w).drop 7) = invR4 (s2.drop 7) ++ w := by
    rw [e0d]
    unfold invR4
    rw [dropWhile_append_ne isPyWs _ w hr1ne]
    rw [optChar_append_ne '#' w hr1ne]
    dsimp only
    rw [optChar_append_ne ':' w hr2ne]
    dsimp only
    exact dropWhile_append_ne isPyWs _ w hr4ne
  refine ⟨?_, ?_, ?_⟩
  · rw [e0]
    exact h1
  · rw [List.length_append]
    omega
  · rw [eChain]
    by_cases hdc : (invR4 (s2.drop 7)).dropWhile isClassChar = []
    · rw [takeWhile_append_all isClassChar _ w
        (all_of_dropWhile_nil _ _ hdc)]
      rw [List.length_append]
      have hpos : 0 < (invR4 (s2.drop 7)).length := List.length_pos.mpr hr4ne
      omega
    · rw [takeWhile_append_ne isClassChar _ w hdc]
      exact h3

theorem noMatchB_inv_dropback :
    ∀ (a w : List Char), (∀ d ∈ w, isPyWs d = true) →
      ∀ p, noMatchB mInv p (a ++ w) = true → noMatchB mInv p a = true
  | [], w, hw, p, h => rfl
  | c :: a2, w, hw, p, h => by
    rw [List.cons_append] at h
    simp only [noMatchB, Bool.and_eq_true] at h ⊢
    constructor
    · rcases hmm2 : mInv p (c :: a2) with _ | n
      · rfl
      · exfalso
        have hne : mInv p (c :: a2) ≠ none := by simp [hmm2]
        have hext := mInv_extend_ws hne hw
        rw [List.cons_append] at hext
        have h2 := h.1
        rcases hmm3 : mInv p (c :: (a2 ++ w)) with _ | n3
        · exact hext hmm3
        · rw [hmm3] at h2
          exact absurd h2 (by simp)
    · exact noMatchB_inv_dropback a2 w hw (isWordChar c) h.2

theorem noMatchB_inv_front {w1 rest : List Char} {p : Bool}
    (hw : ∀ d ∈ w1, isPyWs d = true)
    (h : noMatchB mInv p (w1 ++ rest) = true) :
    noMatchB mInv p rest = true := by
  have h2 := noMatchB_drop mInv w1.length (w1 ++ rest) p h
  rw [List.take_left, List.drop_left] at h2
  rwa [noMatchB_inv_ctx _ p] at h2

theorem noMatchB_inv_strip {l : List Char} {p : Bool}
    (h : noMatchB mInv p l = true) : noMatchB mInv p (strip l) = true := by
  obtain ⟨w1, w2, hl, hw1, hw2⟩ := strip_decomp l
  refine noMatchB_inv_dropback (strip l) w2 hw2 p ?_
  refine noMatchB_inv_front hw1 ?_
  rw [← List.append_assoc, ← hl]
  exact h

theorem lower_take :
    ∀ (n : Nat) (l : List Char), (lower l).take n = lower (l.take n)
  | 0, l => rfl
  | n+1, [] => rfl
  | n+1, c :: cs => by
    rw [lower_cons, List.take_succ_cons, List.take_succ_cons, lower_cons,
      lower_take n cs]

theorem lower_drop :
    ∀ (n : Nat) (l : List Char), (lower l).drop n = lower (l.drop n)
  | 0, l => rfl
  | n+1, [] => rfl
  | n+1, c :: cs => by
    rw [lower_cons, List.drop_succ_cons, List.drop_succ_cons, lower_drop n cs]

theorem lower_length (l : List Char) : (lower l).length = l.length := by
  simp [lower]

theorem dropWhile_lower :
    ∀ (l : List Char), (lower l).dropWhile isPyWs = lower (l.dropWhile isPyWs)
  | [] => rfl
  | c :: cs => by
    rw [lower_cons, List.dropWhile_cons, List.dropWhile_cons, lc_ws]
    cases hc : isPyWs c
    · simp only [Bool.false_eq_true, if_false, lower_cons]
    · simp only [if_true]
      exact dropWhile_lower cs

theorem takeWhileClass_lower :
    ∀ (l : List Char),
      (lower l).takeWhile isClassChar = lower (l.takeWhile isClassChar)
  | [] => rfl
  | c :: cs => by
    rw [lower_cons, List.takeWhile_cons, List.takeWhile_cons, lc_class]
    cases hc : isClassChar c
    · simp only [Bool.false_eq_true, if_false]
      rfl
    · simp only [if_true, lower_cons]
      rw [takeWhileClass_lower cs]

theorem optChar_lower (ch : Char) (hch : ∀ d, (lc d == ch) = (d == ch)) :
    ∀ (r : List Char), (optChar ch (lower r)).2 = lower (optChar ch r).2
  | [] => rfl
  | d :: t => by
    rw [lower_cons]
    unfold optChar
    dsimp only
    rw [hch d]
    cases hd : d == ch
    · simp only [hd, Bool.false_eq_true, if_false]
      rfl
    · simp only [hd, if_true]

theorem mInv_none_lower (q : Bool) (l : List Char) :
    (mInv q (lower l) = none) ↔ (mInv q l = none) := by
  rw [← not_ne_iff, ← not_ne_iff]
  apply not_congr
  rw [mInv_ne_none_iff, mInv_ne_none_iff]
  have c3 : invR4 ((lower l).drop 7) = lower (invR4 (l.drop 7)) := by
    rw [lower_drop]
    unfold invR4
    rw [dropWhile_lower]
    rw [optChar_lower '#' lc_hash]
    rw [optChar_lower ':' lc_colon]
    rw [dropWhile_lower]
  rw [lower_take, lower_lower, lower_length, c3, takeWhileClass_lower,
    lower_length]

theorem noMatchB_inv_lower :
    ∀ (l : List Char) (p : Bool),
      noMatchB mInv p l = true → noMatchB mInv p (lower l) = true
  | [], p, h => rfl
  | c :: cs, p, h => by
    simp only [noMatchB, Bool.and_eq_true] at h
    show noMatchB mInv p (lc c :: lower cs) = true
    simp only [noMatchB, Bool.and_eq_true]
    constructor
    · have he : lc c :: lower cs = lower (c :: cs) := rfl
      rw [he]
      rcases hmm2 : mInv p (lower (c :: cs)) with _ | n
      · rfl
      · exfalso
        have h2 := (mInv_none_lower p (c :: cs)).mpr
          (Option.isNone_iff_eq_none.mp h.1)
        rw [hmm2] at h2
        exact absurd h2 (by simp)
    · rw [noMatchB_inv_ctx _ (isWordChar c)]
      exact noMatchB_inv_lower cs (isWordChar c) h.2

theorem headNotWs_strip (l : List Char) : headNotWs (strip l) = true := by
  have ha : l.dropWhile isPyWs =
      strip l ++ ((l.dropWhile isPyWs).reverse.takeWhile isPyWs).reverse := by
    conv_lhs =>
      rw [← List.reverse_reverse (l.dropWhile isPyWs),
        ← List.takeWhile_append_dropWhile (p := isPyWs)
          (l := (l.dropWhile isPyWs).reverse)]
    rw [List.reverse_append]
    rfl
  have h2 := headNotWs_dropWhile l
  rw [ha] at h2
  rcases hs : strip l with _ | ⟨c, t⟩
  · rfl
  · rw [hs] at h2
    rw [headNotWs_append _ (by simp)] at h2
    exact h2

theorem lastNotWs_strip (l : List Char) : lastNotWs (strip l) = true := by
  unfold lastNotWs strip
  rw [List.reverse_reverse]
  exact headNotWs_dropWhile _

theorem normalized_no_sym {x : List Char} (h : 'Π' ∉ x) :
    ∀ c ∈ normalize_content x, detSyms.contains c = false := by
  have s1 : ∀ c ∈ subst (mSym detSyms) tokCURRENCY x,
      detSyms.contains c = false :=
    fun c hc => S1_no_syms x 0 false c hc
  have p1 : 'Π' ∉ subst (mSym detSyms) tokCURRENCY x :=
    not_mem_go h (by decide)
  have s2 : ∀ c ∈ subst mCode tokCURRENCY
      (subst (mSym detSyms) tokCURRENCY x), detSyms.contains c = false :=
    no_sym_go s1 tokCUR_no_syms
  have p2 : 'Π' ∉ subst mCode tokCURRENCY
      (subst (mSym detSyms) tokCURRENCY x) := not_mem_go p1 (by decide)
  have s3 : ∀ c ∈ subst mInv tokINVNUM (subst mCode tokCURRENCY
      (subst (mSym detSyms) tokCURRENCY x)), detSyms.contains c = false :=
    no_sym_go s2 (by decide)
  have p3 : 'Π' ∉ subst mInv tokINVNUM (subst mCode tokCURRENCY
      (subst (mSym detSyms) tokCURRENCY x)) := not_mem_go p2 (by decide)
  have s4 : ∀ c ∈ subst mDate tokDATE (subst mInv tokINVNUM
      (subst mCode tokCURRENCY (subst (mSym detSyms) tokCURRENCY x))),
      detSyms.contains c = false := no_sym_go s3 (by decide)
  have p4 : 'Π' ∉ subst mDate tokDATE (subst mInv tokINVNUM
      (subst mCode tokCURRENCY (subst (mSym detSyms) tokCURRENCY x))) :=
    not_mem_go p3 (by decide)
  have s5 : ∀ c ∈ subst mAmount tokAMOUNT (subst mDate tokDATE
      (subst mInv tokINVNUM (subst mCode tokCURRENCY
        (subst (mSym detSyms) tokCURRENCY x)))),
      detSyms.contains c = false := no_sym_go s4 (by decide)
  have p5 : 'Π' ∉ subst mAmount tokAMOUNT (subst mDate tokDATE
      (subst mInv tokINVNUM (subst mCode tokCURRENCY
        (subst (mSym detSyms) tokCURRENCY x)))) := not_mem_go p4 (by decide)
  have s6 := no_sym_strip s5
  have p6 := not_mem_strip p5
  have s7 : ∀ c ∈ subst mWs [' '] (strip (subst mAmount tokAMOUNT
      (subst mDate tokDATE (subst mInv tokINVNUM (subst mCode tokCURRENCY
        (subst (mSym detSyms) tokCURRENCY x)))))),
      detSyms.contains c = false := no_sym_go s6 (by decide)
  have p7 : 'Π' ∉ subst mWs [' '] (strip (subst mAmount tokAMOUNT
      (subst mDate tokDATE (subst mInv tokINVNUM (subst mCode tokCURRENCY
        (subst (mSym detSyms) tokCURRENCY x)))))) := not_mem_go p6 (by decide)
  exact no_sym_lower s7 p7

theorem normalized_no_digit (x : List Char) :
    ∀ c ∈ normalize_content x, c.isDigit = false := by
  have d5 : ∀ c ∈ subst mAmount tokAMOUNT (subst mDate tokDATE
      (subst mInv tokINVNUM (subst mCode tokCURRENCY
        (subst (mSym detSyms) tokCURRENCY x)))), c.isDigit = false :=
    fun c hc => S5_no_digits _ 0 false c hc
  have d6 := no_digit_strip d5
  have d7 : ∀ c ∈ subst mWs [' '] (strip (subst mAmount tokAMOUNT
      (subst mDate tokDATE (subst mInv tokINVNUM (subst mCode tokCURRENCY
        (subst (mSym detSyms) tokCURRENCY x)))))), c.isDigit = false :=
    no_digit_go d6 (by decide)
  exact no_digit_lower d7

theorem normalized_code (x : List Char) :
    noMatchB mCode false (normalize_content x) = true := by
  have c2 : noMatchB mCode false (subst mCode tokCURRENCY
      (subst (mSym detSyms) tokCURRENCY x)) = true :=
    selfCode_noMatch (subst (mSym detSyms) tokCURRENCY x).length _ le_rfl false
  have c3 : noMatchB mCode false (subst mInv tokINVNUM (subst mCode
      tokCURRENCY (subst (mSym detSyms) tokCURRENCY x))) = true :=
    tr_noMatch_code tokINVNUM_word rfl invnumFirst
      (subst_Tr mInv tokINVNUM (fun _ _ _ h2 => mInv_pos h2) _) c2 false
      (fun _ => rfl)
  have c4 : noMatchB mCode false (subst mDate tokDATE (subst mInv tokINVNUM
      (subst mCode tokCURRENCY (subst (mSym detSyms) tokCURRENCY x)))) =
      true :=
    tr_noMatch_code tokDATE_word rfl dateFirst
      (subst_Tr mDate tokDATE (fun _ _ _ h2 => mDate_pos h2) _) c3 false
      (fun _ => rfl)
  have c5 : noMatchB mCode false (subst mAmount tokAMOUNT (subst mDate
      tokDATE (subst mInv tokINVNUM (subst mCode tokCURRENCY
        (subst (mSym detSyms) tokCURRENCY x))))) = true :=
    tr_noMatch_code tokAMOUNT_word rfl amountFirst
      (subst_Tr mAmount tokAMOUNT (fun _ _ _ h2 => mAmount_pos h2) _) c4
      false (fun _ => rfl)
  have cS := noMatchB_code_strip c5
  have c6 : noMatchB mCode false (subst mWs [' '] (strip (subst mAmount
      tokAMOUNT (subst mDate tokDATE (subst mInv tokINVNUM (subst mCode
        tokCURRENCY (subst (mSym detSyms) tokCURRENCY x))))))) = true :=
    tr_noMatch_code_ws
      (subst_Tr mWs [' '] (fun _ _ _ h2 => mWs_pos h2) _) cS false
      (fun _ => rfl)
  exact noMatchB_code_lower _ false c6

theorem normalized_inv (x : List Char) :
    noMatchB mInv false (normalize_content x) = true := by
  have i3 : noMatchB mInv false (subst mInv tokINVNUM (subst mCode
      tokCURRENCY (subst (mSym detSyms) tokCURRENCY x))) = true :=
    selfInv_noMatch (subst mCode tokCURRENCY
      (subst (mSym detSyms) tokCURRENCY x)).length _ le_rfl false false
  have i4 : noMatchB mInv false (subst mDate tokDATE (subst mInv tokINVNUM
      (subst mCode tokCURRENCY (subst (mSym detSyms) tokCURRENCY x)))) =
      true := preserve_inv_date i3 false
  have i5 : noMatchB mInv false (subst mAmount tokAMOUNT (subst mDate
      tokDATE (subst mInv tokINVNUM (subst mCode tokCURRENCY
        (subst (mSym detSyms) tokCURRENCY x))))) = true :=
    preserve_inv_amount i4 false
  have iS := noMatchB_inv_strip i5
  have i6 : noMatchB mInv false (subst mWs [' '] (strip (subst mAmount
      tokAMOUNT (subst mDate tokDATE (subst mInv tokINVNUM (subst mCode
        tokCURRENCY (subst (mSym detSyms) tokCURRENCY x))))))) = true :=
    preserve_inv_ws iS false
  exact noMatchB_inv_lower _ false i6

theorem normalized_ws_form (x : List Char) :
    wsn (normalize_content x) = true ∧
    headNotWs (normalize_content x) = true ∧
    lastNotWs (normalize_content x) = true := by
  refine ⟨?_, ?_, ?_⟩
  · exact wsn_lower _ (go_mWs_wsn (strip (subst mAmount tokAMOUNT
      (subst mDate tokDATE (subst mInv tokINVNUM (subst mCode tokCURRENCY
        (subst (mSym detSyms) tokCURRENCY x)))))).length _ le_rfl false)
  · exact headNotWs_lower (go_mWs_head (headNotWs_strip _) false)
  · exact lastNotWs_lower (go_mWs_last (strip (subst mAmount tokAMOUNT
      (subst mDate tokDATE (subst mInv tokINVNUM (subst mCode tokCURRENCY
        (subst (mSym detSyms) tokCURRENCY x)))))).length _ le_rfl
      (lastNotWs_strip _) false)

/-- C8 (amended): on any input that does not contain the capital Greek
letter pi, the detector's content normalizer is idempotent.  (The
counterexample `c8_counterexample` shows the restriction is necessary:
lowercasing maps that one character into the normalizer's mojibake
currency-symbol class.)  Together with the definitional purity of
`normalize_content` — it is a total function of its input — this settles
the algebraic part of the claim for the detector on pi-free inputs. -/
theorem c8_normalize_idempotent (x : List Char) (h : 'Π' ∉ x) :
    normalize_content (normalize_content x) = normalize_content x := by
  obtain ⟨hwsn, hhead, hlast⟩ := normalized_ws_form x
  have e1 : subst (mSym detSyms) tokCURRENCY (normalize_content x) =
      normalize_content x :=
    noMatchB_id _ _ _ false (noMatch_sym (normalized_no_sym h) false)
  have e2 : subst mCode tokCURRENCY (normalize_content x) =
      normalize_content x :=
    noMatchB_id _ _ _ false (normalized_code x)
  have e3 : subst mInv tokINVNUM (normalize_content x) =
      normalize_content x :=
    noMatchB_id _ _ _ false (normalized_inv x)
  have e4 : subst mDate tokDATE (normalize_content x) =
      normalize_content x :=
    noMatchB_id _ _ _ false (noMatch_date (normalized_no_digit x) false)
  have e5 : subst mAmount tokAMOUNT (normalize_content x) =
      normalize_content x :=
    noMatchB_id _ _ _ false (noMatch_amount (normalized_no_digit x) false)
  have e6 : strip (normalize_content x) = normalize_content x :=
    strip_eq_self hhead hlast
  have e7 : subst mWs [' '] (normalize_content x) = normalize_content x :=
    subst_mWs_id _ hwsn false
  have e8 : lower (normalize_content x) = normalize_content x := by
    show lower (lower (subst mWs [' '] (strip (subst mAmount tokAMOUNT
      (subst mDate tokDATE (subst mInv tokINVNUM (subst mCode tokCURRENCY
        (subst (mSym detSyms) tokCURRENCY x)))))))) = _
    exact lower_lower _
  show lower (subst mWs [' '] (strip (subst mAmount tokAMOUNT
    (subst mDate tokDATE (subst mInv tokINVNUM (subst mCode tokCURRENCY
      (subst (mSym detSyms) tokCURRENCY (normalize_content x)))))))) =
    normalize_content x
  rw [e1, e2, e3, e4, e5, e6, e7, e8]

/-- Witness for C8's amended theorem at a concrete pi-free invoice text. -/
theorem c8_normalize_idempotent_witness :
    'Π' ∉ toL "Invoice #A-12 of 01/02/2023, paid 5,00 USD  net" ∧
    normalize_content (normalize_content
      (toL "Invoice #A-12 of 01/02/2023, paid 5,00 USD  net")) =
      normalize_content
        (toL "Invoice #A-12 of 01/02/2023, paid 5,00 USD  net") :=
  ⟨by decide, c8_normalize_idempotent
    (toL "Invoice #A-12 of 01/02/2023, paid 5,00 USD  net") (by decide)⟩

end Aptean
